import Mathlib

/-!
# awesometarkov.com: content ingestion and indexing pipeline

A shallow embedding of `parser/markdown.go` and `models/resource.go`
(and of the result computation of `handlers.Handler.Search`).

Conventions of the embedding.

* A Go `string` holding UTF-8 text is a list of code points, `Str := List Char`.
  Byte-wise comparison and byte-wise substring search of UTF-8 text coincide
  with code-point-wise comparison and search, which is what the model uses.
* A document is the list of lines that `bufio.Scanner` yields for it.
* Go library tables and algorithms that are not part of the repository are
  parameters: the Unicode lower-case table for non-ASCII runes (`tbl`), and,
  for the catalog builder, the iteration order of a Go map and the algorithm of
  `sort.Slice` (structure `Runtime`).
-/

namespace AwesomeTarkov

/-- Text: a Go string of UTF-8 text as its sequence of code points. -/
abbrev Str := List Char

/-! ## Go `strings` / `unicode` primitives -/

/-- Go `unicode.ToLower`: ASCII runes are lowered arithmetically, every other rune
goes through the Unicode case table `tbl`. -/
def toLowerRune (tbl : Char → Char) (c : Char) : Char :=
  if c.toNat ≤ 127 then
    (if 65 ≤ c.toNat ∧ c.toNat ≤ 90 then Char.ofNat (c.toNat + 32) else c)
  else tbl c

/-- Go `strings.ToLower`. -/
def ToLower (tbl : Char → Char) (s : Str) : Str := s.map (toLowerRune tbl)

/-- Go `unicode.IsSpace`. -/
def isSpace (c : Char) : Bool :=
  let n := c.toNat
  (9 ≤ n && n ≤ 13) || n == 32 || n == 0x85 || n == 0xA0 || n == 0x1680 ||
  (0x2000 ≤ n && n ≤ 0x200A) || n == 0x2028 || n == 0x2029 || n == 0x202F ||
  n == 0x205F || n == 0x3000

/-- Go `strings.TrimLeftFunc`. -/
def trimLeftFunc (p : Char → Bool) (s : Str) : Str := s.dropWhile p

/-- Go `strings.TrimRightFunc`. -/
def trimRightFunc (p : Char → Bool) (s : Str) : Str := (s.reverse.dropWhile p).reverse

/-- Go `strings.TrimFunc`. -/
def trimFunc (p : Char → Bool) (s : Str) : Str := trimRightFunc p (trimLeftFunc p s)

/-- Go `strings.TrimSpace`. -/
def TrimSpace (s : Str) : Str := trimFunc isSpace s

/-- Go `strings.Trim(s, cutset)`. -/
def Trim (s : Str) (cutset : Str) : Str := trimFunc (fun c => cutset.contains c) s

/-- Go `strings.HasPrefix`. -/
def HasPrefix (s pre : Str) : Bool := pre.isPrefixOf s

/-- Go `strings.HasSuffix`. -/
def HasSuffix (s suf : Str) : Bool := suf.isSuffixOf s

/-- Go `strings.TrimPrefix`. -/
def TrimPrefix (s pre : Str) : Str := if HasPrefix s pre then s.drop pre.length else s

/-- Go `strings.Contains`. -/
def Contains : Str → Str → Bool
  | [], sub => sub.isEmpty
  | c :: cs, sub => sub.isPrefixOf (c :: cs) || Contains cs sub

/-- Go `a < b` on strings: lexicographic comparison. -/
def strLt : Str → Str → Bool
  | _, [] => false
  | [], _ :: _ => true
  | a :: as, b :: bs => a.toNat < b.toNat || (a == b && strLt as bs)

/-! ## `slugify` -/

/-- The character class `[a-z0-9]`. -/
def isSlugChar (c : Char) : Bool :=
  (97 ≤ c.toNat && c.toNat ≤ 122) || (48 ≤ c.toNat && c.toNat ≤ 57)

/-- `regexp.MustCompile("[^a-z0-9]+").ReplaceAllString(s, "-")`: every maximal run
of characters outside `[a-z0-9]` is replaced by one hyphen. `inRun` tells that
the previous character belonged to a run whose hyphen was already emitted. -/
def replaceRunsAux : Bool → Str → Str
  | _, [] => []
  | inRun, c :: cs =>
    if isSlugChar c then c :: replaceRunsAux false cs
    else if inRun then replaceRunsAux true cs
    else '-' :: replaceRunsAux true cs

/-- The regular-expression replacement of `slugify`. -/
def replaceRuns (s : Str) : Str := replaceRunsAux false s

/-- Source: `slugify` (parser/markdown.go). -/
def slugify (tbl : Char → Char) (s : Str) : Str :=
  let s := ToLower tbl s
  let s := TrimSpace s
  let s := replaceRuns s
  let s := Trim s ['-']
  s

/-- Source: `Slugify`, the exported alias of `slugify`. -/
def Slugify (tbl : Char → Char) (s : Str) : Str := slugify tbl s

/-- The alphabet of slugs: `a-z`, `0-9` and the hyphen. -/
def isSlugAlphabet (c : Char) : Bool := isSlugChar c || c == '-'

/-- No two adjacent hyphens. -/
def NoDoubleHyphen (t : Str) : Prop := List.Chain' (fun a b => ¬ (a = '-' ∧ b = '-')) t

/-- The shape of a slug: only `a-z`, `0-9` and `-`, no two adjacent hyphens, no
hyphen at either end. -/
def IsSlug (t : Str) : Prop :=
  (∀ c ∈ t, isSlugAlphabet c = true) ∧ NoDoubleHyphen t ∧
  (∀ x, t.head? = some x → x ≠ '-') ∧ (∀ x, t.getLast? = some x → x ≠ '-')

/-- The maximal runs of characters of `[a-z0-9]` in a string, in order: the pieces
between the characters outside the class, the empty pieces left out. -/
def slugWords (s : Str) : List Str :=
  (s.splitOnP (fun c => !isSlugChar c)).filter (fun w => !w.isEmpty)

/-- The slug as the specification words it: the maximal runs of `[a-z0-9]` of the
lower-cased text, joined by single hyphens; so every maximal run of other
characters between two of them is one hyphen, and the runs at the ends are gone. -/
def slugifySpec (tbl : Char → Char) (s : Str) : Str :=
  List.intercalate ['-'] (slugWords (ToLower tbl s))

/-! ## Data model (models/resource.go) -/

/-- Source: `models.ResourceLink`. -/
structure ResourceLink where
  URL : Str
  Label : Str
  deriving DecidableEq, Repr

/-- Source: `models.Resource`. -/
structure Resource where
  Name : Str
  Slug : Str
  URL : Str
  URLs : List ResourceLink
  Description : Str
  Platform : Str
  Audience : Str
  Price : Str
  CategorySlug : Str
  SubcategorySlug : Str
  CategoryName : Str
  SubcategoryName : Str
  deriving DecidableEq, Repr

/-- Source: `models.Subcategory`. -/
structure Subcategory where
  Name : Str
  Slug : Str
  Resources : List Resource
  deriving DecidableEq, Repr

/-- Source: `models.Category`. -/
structure Category where
  Name : Str
  Slug : Str
  Description : Str
  Subcategories : List Subcategory
  deriving DecidableEq, Repr

/-- Source: `models.SearchResult`. -/
structure SearchResult where
  Resource : Resource
  Category : Str
  Subcategory : Str
  deriving DecidableEq, Repr

/-- Source: `models.SiteData`. -/
structure SiteData where
  Categories : List Category
  TotalResources : Nat
  deriving DecidableEq, Repr

/-! ## Query API: `Search` -/

/-- The condition of the `if` in the innermost loop of `Search`; `query` is already
lower-cased. -/
def searchMatches (tbl : Char → Char) (query : Str) (category : Category)
    (subcategory : Subcategory) (resource : Resource) : Bool :=
  Contains (ToLower tbl resource.Name) query ||
  Contains (ToLower tbl resource.Description) query ||
  Contains (ToLower tbl resource.Platform) query ||
  Contains (ToLower tbl category.Name) query ||
  Contains (ToLower tbl subcategory.Name) query

/-- Source: `Search` (parser/markdown.go): three nested loops appending to `results`. -/
def Search (tbl : Char → Char) (data : SiteData) (query : Str) : List SearchResult :=
  let query := ToLower tbl query
  data.Categories.foldl (fun results category =>
    category.Subcategories.foldl (fun results subcategory =>
      subcategory.Resources.foldl (fun results resource =>
        if searchMatches tbl query category subcategory resource then
          results ++ [{ Resource := resource, Category := category.Name,
                        Subcategory := subcategory.Name }]
        else results) results) results) []

/-- Source: `Handler.Search` (handlers/handlers.go), the computation of `results`:
the parser is only consulted for a non-empty query. -/
def handlerSearchResults (tbl : Char → Char) (data : SiteData) (query : Str) :
    List SearchResult :=
  if query ≠ [] then Search tbl data query else []

/-- The catalog traversal of the specification: categories in order, then the
subcategories of each, then the resources of each, every resource together with
its owners. -/
def catalogTraversal (data : SiteData) : List (Category × Subcategory × Resource) :=
  data.Categories.flatMap (fun c =>
    c.Subcategories.flatMap (fun s => s.Resources.map (fun r => (c, s, r))))

/-- The specification's matching rule: the lower-cased query is a substring of one
of the five lower-cased searched fields. -/
def specMatches (tbl : Char → Char) (q : Str) (x : Category × Subcategory × Resource) :
    Bool :=
  decide (ToLower tbl q <:+: ToLower tbl x.2.2.Name) ||
  decide (ToLower tbl q <:+: ToLower tbl x.2.2.Description) ||
  decide (ToLower tbl q <:+: ToLower tbl x.2.2.Platform) ||
  decide (ToLower tbl q <:+: ToLower tbl x.1.Name) ||
  decide (ToLower tbl q <:+: ToLower tbl x.2.1.Name)

/-- The specification of `Search`: filter the traversal, pair each kept resource
with the names of its owners. -/
def searchSpec (tbl : Char → Char) (data : SiteData) (q : Str) : List SearchResult :=
  ((catalogTraversal data).filter (specMatches tbl q)).map
    (fun x => { Resource := x.2.2, Category := x.1.Name, Subcategory := x.2.1.Name })

/-! ## Sample data -/

/-- A resource entry as the parser produces it for a document with the heading
`# Map Genie` and one website link. -/
def demoResource : Resource :=
  { Name := "Map Genie".toList, Slug := "map-genie".toList,
    URL := "https://mapgenie.io".toList,
    URLs := [{ URL := "https://mapgenie.io".toList, Label := "Site".toList }],
    Description := "Interactive maps".toList, Platform := "Web".toList,
    Audience := "All".toList, Price := "Free".toList,
    CategorySlug := "tools".toList, SubcategorySlug := "maps".toList,
    CategoryName := "Tools".toList, SubcategoryName := "Maps".toList }

/-- A catalog with one category, one subcategory and one resource. -/
def demoCatalog : SiteData :=
  { Categories := [{ Name := "Tools".toList, Slug := "tools".toList, Description := [],
                     Subcategories := [{ Name := "Maps".toList, Slug := "maps".toList,
                                         Resources := [demoResource] }] }],
    TotalResources := 1 }

/-! ## Document parser: `parseResourceFile` -/

/-- Go `strings.Split(s, sep)` for a non-empty separator, worker: `skip` counts the
characters of a separator occurrence still to be passed over. -/
def splitAux (sep : Str) : Nat → Str → List Str
  | _, [] => [[]]
  | skip + 1, _ :: cs => splitAux sep skip cs
  | 0, c :: cs =>
    if sep.isPrefixOf (c :: cs) then [] :: splitAux sep (sep.length - 1) cs
    else
      match splitAux sep 0 cs with
      | [] => [[c]]
      | p :: ps => (c :: p) :: ps

/-- Go `strings.Split(s, sep)` for a non-empty separator `sep`. -/
def Split (s sep : Str) : List Str := splitAux sep 0 s

/-- A match of the regular expression `\[([^\]]+)\]\(([^)]+)\)` that starts at the
first character of `s`: the two captured groups (label, url). The character
classes exclude the delimiter that follows them, so each group is the whole run up
to the first `]` (resp. `)`), and both runs are non-empty. -/
def matchLinkAt (s : Str) : Option (Str × Str) :=
  match s with
  | [] => none
  | c :: rest =>
    if c = '[' then
      match rest.span (fun x => x != ']') with
      | (label, c1 :: c2 :: rest2) =>
        if c1 = ']' ∧ c2 = '(' then
          match rest2.span (fun x => x != ')') with
          | (url, c3 :: _) =>
            if c3 = ')' ∧ label ≠ [] ∧ url ≠ [] then some (label, url) else none
          | _ => none
        else none
      | _ => none
    else none

/-- Go `re.FindStringSubmatch(line)` for the link expression: the leftmost match,
as (label, url), or `none` when `len(matches) < 3`. -/
def findLink : Str → Option (Str × Str)
  | [] => none
  | c :: cs =>
    match matchLinkAt (c :: cs) with
    | some m => some m
    | none => findLink cs

/-- The local variables of `parseResourceFile`. -/
structure ParseState where
  name : Str
  url : Str
  description : Str
  platform : Str
  audience : Str
  price : Str
  urls : List ResourceLink
  categoryName : Str
  subcategoryName : Str
  inDetails : Bool
  deriving DecidableEq, Repr

/-- The zero values the variables start with. -/
def ParseState.init : ParseState :=
  { name := [], url := [], description := [], platform := [], audience := [], price := [],
    urls := [], categoryName := [], subcategoryName := [], inDetails := false }

/-- The `**Website:**` branch of the loop body. -/
def parseWebsite (st : ParseState) (line : Str) : ParseState :=
  match findLink line with
  | some (label, linkURL) =>
    let label := if HasPrefix label "http://".toList || HasPrefix label "https://".toList
                 then [] else label
    { st with urls := st.urls ++ [{ URL := linkURL, Label := label }],
              url := if st.url = [] then linkURL else st.url }
  | none => st

/-- The `**Category:**` branch of the loop body. -/
def parseCategory (st : ParseState) (line : Str) : ParseState :=
  let catLine := TrimPrefix line "**Category:**".toList
  let catLine := TrimSpace catLine
  let parts := Split catLine " > ".toList
  let st := match parts with
    | p0 :: _ => { st with categoryName := TrimSpace p0 }
    | [] => st
  match parts with
  | _ :: p1 :: _ => { st with subcategoryName := TrimSpace p1 }
  | _ => st

/-- The details-table row branch of the loop body. -/
def parseDetailsRow (st : ParseState) (line : Str) : ParseState :=
  match Split line "|".toList with
  | _ :: k :: v :: _ =>
    let key := Trim (TrimSpace k) "*".toList
    let value := TrimSpace v
    if key = "Platform".toList then { st with platform := value }
    else if key = "Audience".toList then { st with audience := value }
    else if key = "Price".toList then { st with price := value }
    else st
  | _ => st

/-- One iteration of the scanning loop of `parseResourceFile` on `line`: the new
state, and whether the loop is left by `break`. -/
def parseLine (st : ParseState) (line : Str) : ParseState × Bool :=
  if HasPrefix line "# ".toList && st.name = [] then
    ({ st with name := TrimPrefix line "# ".toList }, false)
  else if HasPrefix line "**Website:**".toList then
    (parseWebsite st line, false)
  else if HasPrefix line "**Category:**".toList then
    (parseCategory st line, false)
  else if HasPrefix line "## Overview".toList then
    (st, false)
  else if st.description = [] && !HasPrefix line "#".toList && !HasPrefix line "**".toList
      && !HasPrefix line "---".toList && !HasPrefix line "|".toList
      && TrimSpace line ≠ [] then
    ({ st with description := TrimSpace line }, false)
  else if HasPrefix line "## Details".toList then
    ({ st with inDetails := true }, false)
  else
    let st := if st.inDetails && HasPrefix line "|".toList then parseDetailsRow st line else st
    if st.inDetails && HasPrefix line "---".toList then (st, true) else (st, false)

/-- The scanning loop of `parseResourceFile` over the lines of the document. -/
def scanLines (st : ParseState) : List Str → ParseState
  | [] => st
  | line :: rest =>
    match parseLine st line with
    | (st', true) => st'
    | (st', false) => scanLines st' rest

/-- The part of `parseResourceFile` after the loop, for a scan that ended without
error: no resource when the name or the primary URL is empty. -/
def buildResource (tbl : Char → Char) (st : ParseState) : Option Resource :=
  if st.name = [] ∨ st.url = [] then none
  else
    let categorySlug := slugify tbl st.categoryName
    let subcategorySlug := slugify tbl st.subcategoryName
    some { Name := st.name, Slug := slugify tbl st.name, URL := st.url, URLs := st.urls,
           Description := st.description, Platform := st.platform, Audience := st.audience,
           Price := st.price, CategorySlug := categorySlug,
           SubcategorySlug := subcategorySlug, CategoryName := st.categoryName,
           SubcategoryName := st.subcategoryName }

/-- What the file system delivers for a path: the file cannot be opened, or the
scanner yields `lines`; `scanErr` tells that `scanner.Err()` is non-nil once the
loop has ended. -/
inductive FileContent where
  | unreadable : FileContent
  | text (lines : List Str) (scanErr : Bool) : FileContent
  deriving DecidableEq, Repr

/-- The errors of `parseResourceFile`. -/
inductive IOError where
  | openFailed : IOError
  | readFailed : IOError
  | walkFailed : IOError
  deriving DecidableEq, Repr

/-- Source: `parseResourceFile` (parser/markdown.go); the result is
`(*models.Resource, error)`, `ok none` standing for `nil, nil`. -/
def parseResourceFile (tbl : Char → Char) : FileContent → Except IOError (Option Resource)
  | .unreadable => .error .openFailed
  | .text lines scanErr =>
    let st := scanLines ParseState.init lines
    if scanErr then .error .readFailed
    else .ok (buildResource tbl st)

/-- The lines the loop of `parseResourceFile` reads, as the specification words it:
all lines up to and including the first line starting with `---` that comes after
a line starting with `## Details`. -/
def linesRead (inDetails : Bool) : List Str → List Str
  | [] => []
  | l :: ls =>
    if inDetails && HasPrefix l "---".toList then [l]
    else l :: linesRead (inDetails || HasPrefix l "## Details".toList) ls

/-- The link entry a line contributes, as the specification words it: a
`**Website:**` line containing a markup link `[label](url)` gives that link, its
label dropped when it looks like a URL. -/
def websiteLink (line : Str) : Option ResourceLink :=
  if HasPrefix line "**Website:**".toList then
    (findLink line).map (fun m =>
      { URL := m.2,
        Label := if HasPrefix m.1 "http://".toList || HasPrefix m.1 "https://".toList
                 then [] else m.1 })
  else none

/-- The sample document of the specification: a heading, a category line with a
subcategory, two website lines. -/
def demoDocument : List Str :=
  ["# Tarkov Tracker".toList,
   "**Category:** Tools > Trackers".toList,
   "**Website:** [Site](https://a.example)".toList,
   "**Website:** [Alt](https://b.example)".toList]

/-- The relation the loop of `parseResourceFile` keeps between the primary URL and
the link sequence: the primary URL is the URL of the first link (empty when there
is none), and no link has an empty URL. -/
def LinksOk (st : ParseState) : Prop :=
  st.url = ((st.urls.head?).map (fun u => u.URL)).getD [] ∧ ∀ u ∈ st.urls, u.URL ≠ []

/-- The name a line contributes, as the specification words it: the text after
`# ` of a top-level heading line, when there is any. -/
def headingName (line : Str) : Option Str :=
  if HasPrefix line "# ".toList = true ∧ TrimPrefix line "# ".toList ≠ [] then
    some (TrimPrefix line "# ".toList)
  else none

/-- The sample document with the `>` of its category line not surrounded by
spaces. -/
def demoDocumentTight : List Str :=
  ["# Tarkov Tracker".toList,
   "**Category:** Tools>Trackers".toList,
   "**Website:** [Site](https://a.example)".toList]

/-! ## Document parser: `parseCategoryDescription` -/

/-- The scanning loop of `parseCategoryDescription`, with the two flags
`inFrontmatter` and `frontmatterDone`; the result is the returned description,
empty when the loop runs out of lines. -/
def scanCategoryLines : Bool → Bool → List Str → Str
  | _, _, [] => []
  | inFrontmatter, frontmatterDone, line :: rest =>
    if TrimSpace line = "---".toList then
      if !inFrontmatter then scanCategoryLines true frontmatterDone rest
      else scanCategoryLines inFrontmatter true rest
    else if (inFrontmatter && !frontmatterDone) && HasPrefix line "description:".toList then
      let desc := TrimPrefix line "description:".toList
      let desc := TrimSpace desc
      Trim desc "\"'".toList
    else if frontmatterDone && TrimSpace line ≠ [] then TrimSpace line
    else scanCategoryLines inFrontmatter frontmatterDone rest

/-- Source: `parseCategoryDescription` (parser/markdown.go). -/
def parseCategoryDescription : FileContent → Str
  | .unreadable => []
  | .text lines _ => scanCategoryLines false false lines

/-! ## Catalog builder: `ParseResourcesDir` -/

/-- Go `filepath.Dir` on a cleaned slash-separated path (the paths `filepath.Walk`
hands to its callback). -/
def pathDir (path : Str) : Str :=
  match path.reverse.dropWhile (fun c => c != '/') with
  | [] => ['.']
  | [_] => ['/']
  | _ :: r => r.reverse

/-- Go `filepath.Base` on a slash-separated path. -/
def pathBase (path : Str) : Str :=
  if path = [] then ['.']
  else
    let b := ((path.reverse.dropWhile (fun c => c == '/')).takeWhile (fun c => c != '/')).reverse
    if b = [] then ['/'] else b

/-- A Go `map[string]V` as its key/value pairs; each key occurs at most once in
the maps the builder makes. -/
abbrev GoMap (V : Type) := List (Str × V)

/-- Go `m[k]` with the `ok` flag. -/
def mapGet {V : Type} : GoMap V → Str → Option V
  | [], _ => none
  | (k', v) :: m, k => if k' = k then some v else mapGet m k

/-- Go `m[k] = v`. -/
def mapSet {V : Type} : GoMap V → Str → V → GoMap V
  | [], k, v => [(k, v)]
  | (k', v') :: m, k, v => if k' = k then (k, v) :: m else (k', v') :: mapSet m k v

/-- The parts of the Go runtime and library the builder relies on and the
repository does not contain: the order in which `range` visits the entries of a
map (it may differ from one loop to the other, `call` names the loop), and the
algorithm of `sort.Slice`. -/
structure Runtime where
  mapRange : {V : Type} → (call : Str) → GoMap V → GoMap V
  sortSlice : {α : Type} → (less : α → α → Bool) → List α → List α

/-- What Go guarantees about them: `range` visits every entry of the map once, and
`sort.Slice` with a comparison of string keys returns a rearrangement of the slice
in which no element is followed by one with a smaller key. -/
def Runtime.Lawful (rt : Runtime) : Prop :=
  (∀ (V : Type) (call : Str) (m : GoMap V), (rt.mapRange call m).Perm m) ∧
  (∀ (α : Type) (key : α → Str) (l : List α),
    (rt.sortSlice (fun a b => strLt (key a) (key b)) l).Perm l ∧
    (rt.sortSlice (fun a b => strLt (key a) (key b)) l).Pairwise
      (fun a b => strLt (key b) (key a) = false))

/-- The variables of `ParseResourcesDir` that the walk callback updates. -/
structure BuildState where
  categoryMap : GoMap Category
  categoryDescriptions : GoMap Str
  subcategoryMap : GoMap (GoMap Subcategory)
  totalResources : Nat

/-- The initial values: three empty maps and a zero count. -/
def BuildState.init : BuildState :=
  { categoryMap := [], categoryDescriptions := [], subcategoryMap := [], totalResources := 0 }

/-- The part of the walk callback that runs for a parsed resource: count it,
apply the defaults, get or create its category and subcategory, append it. The
inner map `subcategoryMap[catSlug]` is created together with the category, so it
exists whenever it is read here. -/
def addResource (st : BuildState) (resource : Resource) : BuildState :=
  let st := { st with totalResources := st.totalResources + 1 }
  -- Get or create category
  let catSlug := resource.CategorySlug
  let (catSlug, resource) :=
    if catSlug = [] then
      ("uncategorized".toList,
        { resource with CategoryName := "Uncategorized".toList,
                        CategorySlug := "uncategorized".toList })
    else (catSlug, resource)
  let st :=
    if (mapGet st.categoryMap catSlug).isNone then
      { st with
        categoryMap := mapSet st.categoryMap catSlug
          { Name := resource.CategoryName, Slug := catSlug, Description := [],
            Subcategories := [] },
        subcategoryMap := mapSet st.subcategoryMap catSlug [] }
    else st
  -- Get or create subcategory
  let subSlug := resource.SubcategorySlug
  let (subSlug, resource) :=
    if subSlug = [] then
      ("general".toList,
        { resource with SubcategoryName := "General".toList,
                        SubcategorySlug := "general".toList })
    else (subSlug, resource)
  let inner := (mapGet st.subcategoryMap catSlug).getD []
  let inner :=
    if (mapGet inner subSlug).isNone then
      mapSet inner subSlug { Name := resource.SubcategoryName, Slug := subSlug, Resources := [] }
    else inner
  -- Add resource to subcategory
  let inner :=
    match mapGet inner subSlug with
    | some subcategory =>
      mapSet inner subSlug { subcategory with Resources := subcategory.Resources ++ [resource] }
    | none => inner
  { st with subcategoryMap := mapSet st.subcategoryMap catSlug inner }

/-- One call of `filepath.Walk` to its callback: the path, whether it is a
directory, whether Walk reports an error for it, and what reading the file
gives. -/
structure WalkEntry where
  path : Str
  isDir : Bool
  walkErr : Bool
  content : FileContent
  deriving DecidableEq, Repr

/-- The walk callback of `ParseResourcesDir`: the new state, or the error it
returns to `filepath.Walk`. -/
def visit (tbl : Char → Char) (st : BuildState) (e : WalkEntry) : Except IOError BuildState :=
  if e.walkErr then .error .walkFailed
  else if e.isDir || !HasSuffix e.path ".md".toList then .ok st
  else if HasSuffix e.path "_category.md".toList then
    let dir := pathDir e.path
    let catSlug := pathBase dir
    let desc := parseCategoryDescription e.content
    if desc ≠ [] then
      .ok { st with categoryDescriptions := mapSet st.categoryDescriptions catSlug desc }
    else .ok st
  else
    match parseResourceFile tbl e.content with
    | .error _ => .ok st
    | .ok none => .ok st
    | .ok (some resource) => .ok (addResource st resource)

/-- Go `filepath.Walk` with the callback of `ParseResourcesDir`: the entries are
visited in walk order until the callback returns an error. -/
def walk (tbl : Char → Char) (st : BuildState) : List WalkEntry → Except IOError BuildState
  | [] => .ok st
  | e :: es =>
    match visit tbl st e with
    | .error err => .error err
    | .ok st' => walk tbl st' es

/-- The body of the inner loop `for _, subcategory := range subcategoryMap[catSlug]`:
sort the resources by name within the subcategory and copy the subcategory. -/
def assembleSubcategory (rt : Runtime) (subcategory : Subcategory) : Subcategory :=
  { subcategory with
    Resources := rt.sortSlice (fun a b => strLt a.Name b.Name) subcategory.Resources }

/-- The body of the outer loop `for catSlug, category := range categoryMap`: collect
and sort the subcategories, apply the category description if available, copy the
category. -/
def assembleCategory (rt : Runtime) (st : BuildState) (catSlug : Str) (category : Category) :
    Category :=
  let subcategories :=
    (rt.mapRange catSlug ((mapGet st.subcategoryMap catSlug).getD [])).foldl
      (fun (subcategories : List Subcategory) subentry =>
        subcategories ++ [assembleSubcategory rt subentry.2]) []
  -- Sort subcategories by name
  let subcategories := rt.sortSlice (fun a b => strLt a.Name b.Name) subcategories
  let category := { category with Subcategories := subcategories }
  -- Apply category description if available
  match mapGet st.categoryDescriptions catSlug with
  | some desc => { category with Description := desc }
  | none => category

/-- The second half of `ParseResourcesDir`: convert the maps to slices and sort. -/
def assemble (rt : Runtime) (st : BuildState) : SiteData :=
  let categories :=
    (rt.mapRange [] st.categoryMap).foldl (fun (categories : List Category) entry =>
      categories ++ [assembleCategory rt st entry.1 entry.2]) []
  -- Sort categories by name
  let categories := rt.sortSlice (fun a b => strLt a.Name b.Name) categories
  { Categories := categories, TotalResources := st.totalResources }

/-- Source: `ParseResourcesDir` (parser/markdown.go), on the sequence of callback
calls that `filepath.Walk` makes for the directory. -/
def ParseResourcesDir (rt : Runtime) (tbl : Char → Char) (entries : List WalkEntry) :
    Except IOError SiteData :=
  match walk tbl BuildState.init entries with
  | .error err => .error err
  | .ok st => .ok (assemble rt st)

/-- Whether the walk callback hands the entry to `parseResourceFile`. -/
def isResourceDocument (e : WalkEntry) : Bool :=
  !e.isDir && HasSuffix e.path ".md".toList && !HasSuffix e.path "_category.md".toList

/-- The resource an entry parses to, if it is a resource document that does. -/
def parsedOf (tbl : Char → Char) (e : WalkEntry) : Option Resource :=
  if isResourceDocument e then
    match parseResourceFile tbl e.content with
    | .ok (some r) => some r
    | _ => none
  else none

/-- The resources parsed from the visited entries, in walk order. -/
def parsedResources (tbl : Char → Char) (entries : List WalkEntry) : List Resource :=
  entries.filterMap (parsedOf tbl)

/-- The defaults of the builder as the specification words them: an empty category
slug becomes `uncategorized` / "Uncategorized", an empty subcategory slug becomes
`general` / "General". -/
def withDefaults (r : Resource) : Resource :=
  let r := if r.CategorySlug = [] then
      { r with CategorySlug := "uncategorized".toList, CategoryName := "Uncategorized".toList }
    else r
  if r.SubcategorySlug = [] then
    { r with SubcategorySlug := "general".toList, SubcategoryName := "General".toList }
  else r

/-- All resources of a catalog, in traversal order. -/
def catalogResources (data : SiteData) : List Resource :=
  data.Categories.flatMap (fun c => c.Subcategories.flatMap (fun s => s.Resources))

/-- A runtime for evaluation: `range` visits the entries in insertion order and
`sort.Slice` is an insertion sort. -/
def demoRuntime : Runtime :=
  { mapRange := fun _ m => m,
    sortSlice := fun less l => l.insertionSort (fun a b => less b a = false) }

/-- A content tree: a directory, a category description, the sample document, a
document without category line and a document without link. -/
def demoEntries : List WalkEntry :=
  [ { path := "resources".toList, isDir := true, walkErr := false, content := .unreadable },
    { path := "resources/tools".toList, isDir := true, walkErr := false,
      content := .unreadable },
    { path := "resources/tools/_category.md".toList, isDir := false, walkErr := false,
      content := .text ["---".toList, "description: \"Useful tools\"".toList, "---".toList]
        false },
    { path := "resources/tools/tracker.md".toList, isDir := false, walkErr := false,
      content := .text demoDocument false },
    { path := "resources/map-genie.md".toList, isDir := false, walkErr := false,
      content := .text ["# Map Genie".toList,
                        "**Website:** [Map Genie](https://mapgenie.io)".toList] false },
    { path := "resources/empty.md".toList, isDir := false, walkErr := false,
      content := .text ["just text".toList] false } ]

/-! ## Notions used to state the properties of the builder -/

/-- Get-or-create followed by an update of the entry: `if _, ok := m[k]; !ok
{ m[k] = init }; m[k] = f(m[k])`, the pattern of the walk callback on both levels of
its maps. -/
def mapUpsert {V : Type} (m : GoMap V) (k : Str) (init : V) (f : V → V) : GoMap V :=
  let m1 := if (mapGet m k).isNone then mapSet m k init else m
  match mapGet m1 k with
  | some v => mapSet m1 k (f v)
  | none => m1

/-- The keys of a map. -/
def mapKeys {V : Type} (m : GoMap V) : List Str := m.map Prod.fst

/-- All resources held by the builder's maps. -/
def stateResources (st : BuildState) : List Resource :=
  st.subcategoryMap.flatMap (fun e => e.2.flatMap (fun s => s.2.Resources))

/-- The invariant of the builder's maps: both category-keyed maps have the same
keys, no key occurs twice on either level, every stored category, subcategory and
resource carries the slug(s) of the key(s) it is stored under, and those slugs are
not empty. -/
structure BuildInv (st : BuildState) : Prop where
  keys_eq : mapKeys st.categoryMap = mapKeys st.subcategoryMap
  keys_nodup : (mapKeys st.subcategoryMap).Nodup
  inner_nodup : ∀ e ∈ st.subcategoryMap, (mapKeys e.2).Nodup
  cat_slug : ∀ e ∈ st.categoryMap, e.2.Slug = e.1
  sub_slug : ∀ e ∈ st.subcategoryMap, ∀ s ∈ e.2, s.2.Slug = s.1 ∧
    ∀ r ∈ s.2.Resources, r.CategorySlug = e.1 ∧ r.SubcategorySlug = s.1 ∧
      r.CategorySlug ≠ [] ∧ r.SubcategorySlug ≠ []

/-- The total of the resource-sequence lengths over every subcategory of every
category. -/
def countResources (data : SiteData) : Nat :=
  (data.Categories.map (fun c => (c.Subcategories.map (fun s => s.Resources.length)).sum)).sum

/-- Ascending (non-decreasing) order by a string key: no element is followed by one
with a smaller key. -/
def AscendingBy {α : Type} (key : α → Str) (l : List α) : Prop :=
  l.Pairwise (fun a b => strLt (key b) (key a) = false)

/-! ## Query API: lookups by slug -/

/-- The loop of `GetCategoryBySlug` over `data.Categories`: `some category` stands
for the returned pointer to the copy of the category, `none` for `nil`. -/
def getCategoryLoop (slug : Str) : List Category → Option Category
  | [] => none
  | category :: rest =>
    if category.Slug = slug then some category else getCategoryLoop slug rest

/-- Source: `GetCategoryBySlug` (parser/markdown.go). -/
def GetCategoryBySlug (data : SiteData) (slug : Str) : Option Category :=
  getCategoryLoop slug data.Categories

/-- The innermost loop of `GetResourceBySlug`, over the resources of one
subcategory. -/
def getResourceInResources (resourceSlug : Str) : List Resource → Option Resource
  | [] => none
  | resource :: rest =>
    if resource.Slug = resourceSlug then some resource
    else getResourceInResources resourceSlug rest

/-- The middle loop of `GetResourceBySlug`, over the subcategories of one
category. -/
def getResourceInSubcategories (resourceSlug : Str) : List Subcategory → Option Resource
  | [] => none
  | subcategory :: rest =>
    match getResourceInResources resourceSlug subcategory.Resources with
    | some resource => some resource
    | none => getResourceInSubcategories resourceSlug rest

/-- The outer loop of `GetResourceBySlug`, over the categories: a category with
the requested slug that holds no matching resource does not end the loop. -/
def getResourceLoop (categorySlug resourceSlug : Str) : List Category → Option Resource
  | [] => none
  | category :: rest =>
    if category.Slug = categorySlug then
      match getResourceInSubcategories resourceSlug category.Subcategories with
      | some resource => some resource
      | none => getResourceLoop categorySlug resourceSlug rest
    else getResourceLoop categorySlug resourceSlug rest

/-- Source: `GetResourceBySlug` (parser/markdown.go). -/
def GetResourceBySlug (data : SiteData) (categorySlug resourceSlug : Str) : Option Resource :=
  getResourceLoop categorySlug resourceSlug data.Categories

/-- The resources of a category in scan order: its subcategories in order, the
resources of each in order. -/
def categoryResources (c : Category) : List Resource :=
  c.Subcategories.flatMap (fun s => s.Resources)

/-- The specification of `GetResourceBySlug`: the first resource with the
requested slug in the first category with the requested slug. -/
def getResourceSpec (data : SiteData) (categorySlug resourceSlug : Str) : Option Resource :=
  match data.Categories.find? (fun c => c.Slug = categorySlug) with
  | none => none
  | some c => (categoryResources c).find? (fun r => r.Slug = resourceSlug)

/-! ## Notions used to state the properties of `parseCategoryDescription` -/

/-- A bare rule line: a line that is `---` once trimmed. -/
def isBareRule (line : Str) : Bool := TrimSpace line = "---".toList

/-- The value of a `description:` line: the text after the key, trimmed, with the
double and single quote characters at both ends removed. -/
def descriptionValue (line : Str) : Str :=
  Trim (TrimSpace (TrimPrefix line "description:".toList)) "\"'".toList

/-- The result of `parseCategoryDescription` as the specification words it, for a
document whose metadata block holds the lines `block` and is followed by the lines
`post`: the value of the first `description:` line of the block, otherwise the
trimmed first non-blank line after the block that is not a bare rule, otherwise
the empty string. -/
def categoryDescriptionSpec (block post : List Str) : Str :=
  match block.find? (fun l => HasPrefix l "description:".toList) with
  | some l => descriptionValue l
  | none =>
    match post.find? (fun l => !isBareRule l && TrimSpace l ≠ []) with
    | some l => TrimSpace l
    | none => []

/-- A resource document with a line of text between the heading and the
`## Overview` marker. -/
def demoDocumentIntro : List Str :=
  ["# Map Genie".toList,
   "Intro line before the overview".toList,
   "## Overview".toList,
   "Interactive maps".toList,
   "**Website:** [Site](https://a.example)".toList]

/-- A resource document without `## Overview` marker. -/
def demoDocumentNoOverview : List Str :=
  ["# Map Genie".toList,
   "**Website:** [Site](https://a.example)".toList,
   "Some text".toList]

/-- A content tree whose only document cannot be opened. -/
def demoEntriesUnreadable : List WalkEntry :=
  [ { path := "resources/broken.md".toList, isDir := false, walkErr := false,
      content := .unreadable } ]

/-! ## Notions used to state how the builder groups -/

/-- The resource carries the category slug `k`. -/
def inCategory (k : Str) (r : Resource) : Bool := decide (r.CategorySlug = k)

/-- The resource carries the category slug `k` and the subcategory slug `k2`. -/
def inSubcategory (k k2 : Str) (r : Resource) : Bool :=
  decide (r.CategorySlug = k) && decide (r.SubcategorySlug = k2)

/-- The resources of a sequence that carry the slugs `k` and `k2`, in the order of
the sequence. -/
def resourcesOf (P : List Resource) (k k2 : Str) : List Resource :=
  P.filter (inSubcategory k k2)

/-- Whether the walk callback hands the entry to `parseCategoryDescription`. -/
def isDescriptionDocument (e : WalkEntry) : Bool :=
  !e.isDir && HasSuffix e.path ".md".toList && HasSuffix e.path "_category.md".toList

/-- The key and the description an entry contributes, if it is a description
document with a non-empty description: the key is the name of the directory the
document lies in, as it stands. -/
def describedOf (e : WalkEntry) : Option (Str × Str) :=
  if isDescriptionDocument e = true ∧ parseCategoryDescription e.content ≠ [] then
    some (pathBase (pathDir e.path), parseCategoryDescription e.content)
  else none

/-- The keyed descriptions of the visited entries, in walk order. -/
def descriptionDocs (entries : List WalkEntry) : List (Str × Str) :=
  entries.filterMap describedOf

/-- The description recorded for a key: that of the last document with the key. -/
def descriptionFor (docs : List (Str × Str)) (k : Str) : Option Str :=
  (docs.reverse.find? (fun p => decide (p.1 = k))).map Prod.snd

/-- The relation between the builder's maps, the resources `P` added so far (with
their defaults) and the keyed descriptions `D` recorded so far: a stored category
has no description yet and the category name of the first resource with its slug;
a stored subcategory holds the resources with its pair of slugs in the order they
came and has the subcategory name of the first of them; every resource added has
its category and subcategory stored; the description map returns the last
description recorded for a key. -/
structure GroupInv (st : BuildState) (P : List Resource) (D : List (Str × Str)) : Prop where
  cat : ∀ k c, mapGet st.categoryMap k = some c →
    c.Description = [] ∧
    ∃ r0, P.find? (inCategory k) = some r0 ∧ c.Name = r0.CategoryName
  sub : ∀ k inner, mapGet st.subcategoryMap k = some inner →
    ∀ k2 s, mapGet inner k2 = some s →
      s.Resources = resourcesOf P k k2 ∧
      ∃ r0, P.find? (inSubcategory k k2) = some r0 ∧ s.Name = r0.SubcategoryName
  complete : ∀ r ∈ P,
    (∃ c, mapGet st.categoryMap r.CategorySlug = some c) ∧
    ∃ inner s, mapGet st.subcategoryMap r.CategorySlug = some inner ∧
      mapGet inner r.SubcategorySlug = some s
  desc : ∀ k, mapGet st.categoryDescriptions k = descriptionFor D k

/-- A content tree with two documents whose category and subcategory names differ
in case and punctuation only. -/
def demoEntriesMerged : List WalkEntry :=
  [ { path := "resources/a.md".toList, isDir := false, walkErr := false,
      content := .text ["# Alpha".toList, "**Category:** Tools > Trackers".toList,
                        "**Website:** [Site](https://a.example)".toList] false },
    { path := "resources/b.md".toList, isDir := false, walkErr := false,
      content := .text ["# Beta".toList, "**Category:** TOOLS! > trackers".toList,
                        "**Website:** [Site](https://b.example)".toList] false } ]

/-- A content tree with two documents that have the same heading and no category
line. -/
def demoEntriesDuplicate : List WalkEntry :=
  [ { path := "resources/one.md".toList, isDir := false, walkErr := false,
      content := .text ["# Map Genie".toList,
                        "**Website:** [Site](https://a.example)".toList] false },
    { path := "resources/two.md".toList, isDir := false, walkErr := false,
      content := .text ["# Map Genie".toList,
                        "**Website:** [Site](https://b.example)".toList] false } ]

/-- A content tree whose category directory is named `Tools`, with a capital
letter: a description document and a resource document of the category "Tools". -/
def demoEntriesCapitalDir : List WalkEntry :=
  [ { path := "resources/Tools".toList, isDir := true, walkErr := false,
      content := .unreadable },
    { path := "resources/Tools/_category.md".toList, isDir := false, walkErr := false,
      content := .text ["---".toList, "description: \"Useful tools\"".toList, "---".toList]
        false },
    { path := "resources/Tools/tracker.md".toList, isDir := false, walkErr := false,
      content := .text demoDocument false } ]

/-! ## Presentation layer: the redirect handler and the sitemap -/

/-- Go `strings.TrimSuffix`. -/
def TrimSuffix (s suf : Str) : Str :=
  if HasSuffix s suf then s.take (s.length - suf.length) else s

/-- What `Handler.Redirect` does with a request: answer "not found", or render the
redirect page with the data `URL` and `ResourceName`; `indexPanic` stands for an
index-out-of-range panic at `resource.URLs[linkIndex]`. -/
inductive RedirectOutcome where
  | notFound : RedirectOutcome
  | page (URL : Str) (ResourceName : Str) : RedirectOutcome
  | indexPanic : RedirectOutcome
  deriving DecidableEq, Repr

/-- The part of `Handler.Redirect` that parses the optional index: 0 when the path
has two segments, otherwise what `fmt.Sscanf(parts[2], "%d", &linkIndex)` scans;
`sscanInt` is that library call, `none` when it reports an error or scans no
item. -/
def redirectIndex (sscanInt : Str → Option Int) (rest : List Str) : Option Int :=
  match rest with
  | [] => some 0
  | p :: _ => sscanInt p

/-- The part of `Handler.Redirect` that determines which URL to use. -/
def redirectTarget (resource : Resource) (linkIndex : Int) : RedirectOutcome :=
  if resource.URLs.length > 0 then
    -- Use URLs slice if available
    if linkIndex < 0 ∨ linkIndex ≥ resource.URLs.length then .notFound
    else
      match resource.URLs[linkIndex.toNat]? with
      | some link => .page link.URL resource.Name
      | none => .indexPanic
  else if resource.URL ≠ [] then
    -- Fall back to primary URL for backward compatibility
    if linkIndex ≠ 0 then .notFound else .page resource.URL resource.Name
  else .notFound

/-- The segments `Handler.Redirect` extracts from the request path. -/
def redirectParts (urlPath : Str) : List Str :=
  let path := TrimPrefix urlPath "/go/".toList
  let path := TrimSuffix path "/".toList
  Split path "/".toList

/-- Source: `Handler.Redirect` (handlers/handlers.go), up to the call of the
template. -/
def Redirect (sscanInt : Str → Option Int) (data : SiteData) (urlPath : Str) :
    RedirectOutcome :=
  let parts := redirectParts urlPath
  if parts.length < 2 ∨ parts.length > 3 then .notFound
  else
    match parts with
    | categorySlug :: resourceSlug :: rest =>
      match redirectIndex sscanInt rest with
      | none => .notFound
      | some linkIndex =>
        -- Look up resource by ID
        match GetResourceBySlug data categorySlug resourceSlug with
        | none => .notFound
        | some resource => redirectTarget resource linkIndex
    | _ => .notFound

/-- The category identifiers `Handler.Sitemap` enumerates for the category pages
(handlers/seo.go). -/
def sitemapCategoryIds (data : SiteData) : List Str :=
  data.Categories.foldl (fun urls category => urls ++ [category.Slug]) []

/-- The pairs of category and resource identifiers `Handler.Sitemap` enumerates for
the resource pages (handlers/seo.go). -/
def sitemapResourceIds (data : SiteData) : List (Str × Str) :=
  data.Categories.foldl (fun urls category =>
    category.Subcategories.foldl (fun urls subcategory =>
      subcategory.Resources.foldl (fun urls resource =>
        urls ++ [(category.Slug, resource.Slug)]) urls) urls) []

/-- A scanner for evaluation: an unsigned run of decimal digits is read as its
number, anything else is rejected. -/
def demoSscanInt (s : Str) : Option Int :=
  if s ≠ [] ∧ s.all (fun c => c.isDigit) then
    some (Int.ofNat (s.foldl (fun n c => 10 * n + (c.toNat - 48)) 0))
  else none

/-- A second runtime for evaluation: `range` visits the entries in the reverse of
the insertion order, `sort.Slice` is the insertion sort of `demoRuntime`. -/
def reversedRuntime : Runtime :=
  { mapRange := fun _ m => m.reverse,
    sortSlice := fun less l => l.insertionSort (fun a b => less b a = false) }

/-! # Properties of the embedding -/

/-! ## Lemmas on the string primitives -/

theorem contains_iff (s sub : Str) : Contains s sub = true ↔ sub <:+: s := by
  induction s with
  | nil =>
    cases sub with
    | nil => simp [Contains]
    | cons a t => simp [Contains]
  | cons c cs ih =>
    simp only [Contains, Bool.or_eq_true, ih, List.isPrefixOf_iff_prefix, List.infix_cons_iff]

theorem contains_eq_decide (s sub : Str) : Contains s sub = decide (sub <:+: s) := by
  rw [Bool.eq_iff_iff, contains_iff]; simp

/-! ## Lemmas on `Search` -/

theorem foldl_append_if {α β : Type} (p : α → Bool) (f : α → β) (l : List α) (acc : List β) :
    l.foldl (fun results x => if p x then results ++ [f x] else results) acc
      = acc ++ (l.filter p).map f := by
  induction l generalizing acc with
  | nil => simp
  | cons x xs ih =>
    simp only [List.foldl_cons, ih]
    by_cases h : p x = true <;> simp [h, List.filter_cons]

theorem foldl_append_flatMap {α β : Type} (g : α → List β) (l : List α) (acc : List β) :
    l.foldl (fun results x => results ++ g x) acc = acc ++ l.flatMap g := by
  induction l generalizing acc with
  | nil => simp
  | cons x xs ih => simp [List.foldl_cons, ih, List.flatMap_cons]

theorem searchMatches_eq_specMatches (tbl : Char → Char) (q : Str) (c : Category)
    (s : Subcategory) (r : Resource) :
    searchMatches tbl (ToLower tbl q) c s r = specMatches tbl q (c, s, r) := by
  simp only [searchMatches, specMatches, contains_eq_decide]

theorem search_eq_flatMap (tbl : Char → Char) (data : SiteData) (q : Str) :
    Search tbl data q =
      data.Categories.flatMap (fun c => c.Subcategories.flatMap (fun s =>
        (s.Resources.filter (fun r => specMatches tbl q (c, s, r))).map
          (fun r => ({ Resource := r, Category := c.Name, Subcategory := s.Name } :
            SearchResult)))) := by
  simp only [Search, searchMatches_eq_specMatches, foldl_append_if, foldl_append_flatMap,
    List.nil_append]

theorem searchSpec_eq_flatMap (tbl : Char → Char) (data : SiteData) (q : Str) :
    searchSpec tbl data q =
      data.Categories.flatMap (fun c => c.Subcategories.flatMap (fun s =>
        (s.Resources.filter (fun r => specMatches tbl q (c, s, r))).map
          (fun r => ({ Resource := r, Category := c.Name, Subcategory := s.Name } :
            SearchResult)))) := by
  simp only [searchSpec, catalogTraversal, List.filter_flatMap, List.map_flatMap,
    List.filter_map, List.map_map]
  rfl

/-! ## Lemmas on trimming -/

theorem dropWhile_head_not (p : Char → Bool) (s : Str) (x : Char)
    (h : (s.dropWhile p).head? = some x) : p x = false := by
  have := List.head?_dropWhile_not p s
  rw [h] at this
  exact this

theorem dropWhile_eq_self_of_head (p : Char → Bool) (s : Str)
    (h : ∀ x, s.head? = some x → p x = false) : s.dropWhile p = s := by
  cases s with
  | nil => rfl
  | cons c cs => simp [List.dropWhile_cons, h c rfl]

theorem trimRightFunc_isPrefix (p : Char → Bool) (s : Str) : trimRightFunc p s <+: s := by
  unfold trimRightFunc
  have h := List.dropWhile_suffix (l := s.reverse) p
  have h2 := List.reverse_prefix.mpr h
  simpa using h2

theorem trimFunc_isInfix (p : Char → Bool) (s : Str) : trimFunc p s <:+: s :=
  (trimRightFunc_isPrefix p _).isInfix.trans (List.dropWhile_suffix p).isInfix

theorem trimFunc_getLast_not (p : Char → Bool) (s : Str) (x : Char)
    (h : (trimFunc p s).getLast? = some x) : p x = false := by
  unfold trimFunc trimRightFunc at h
  rw [List.getLast?_reverse] at h
  exact dropWhile_head_not p _ x h

theorem prefix_head?_eq {t u : Str} (h : t <+: u) (ht : t ≠ []) : t.head? = u.head? := by
  obtain ⟨v, rfl⟩ := h
  cases t with
  | nil => exact absurd rfl ht
  | cons c cs => rfl

theorem trimFunc_head_not (p : Char → Bool) (s : Str) (x : Char)
    (h : (trimFunc p s).head? = some x) : p x = false := by
  have hne : trimFunc p s ≠ [] := by
    intro h0; rw [h0] at h; simp at h
  have hp : trimFunc p s <+: s.dropWhile p := trimRightFunc_isPrefix p _
  rw [prefix_head?_eq hp hne] at h
  exact dropWhile_head_not p s x h

theorem trimFunc_eq_self (p : Char → Bool) (s : Str)
    (hh : ∀ x, s.head? = some x → p x = false)
    (hl : ∀ x, s.getLast? = some x → p x = false) : trimFunc p s = s := by
  unfold trimFunc trimLeftFunc trimRightFunc
  rw [dropWhile_eq_self_of_head p s hh]
  rw [dropWhile_eq_self_of_head p s.reverse (by simpa using hl)]
  simp

theorem trimFunc_mem (p : Char → Bool) (s : Str) (c : Char) (h : c ∈ trimFunc p s) :
    c ∈ s :=
  (trimFunc_isInfix p s).subset h

/-! ## Lemmas on `slugify` -/

theorem isSlugChar_hyphen : isSlugChar '-' = false := by decide

theorem replaceRunsAux_alphabet (b : Bool) (s : Str) :
    ∀ c ∈ replaceRunsAux b s, isSlugAlphabet c = true := by
  induction s generalizing b with
  | nil => simp [replaceRunsAux]
  | cons x xs ih =>
    intro c hc
    unfold replaceRunsAux at hc
    split at hc
    · rcases List.mem_cons.mp hc with rfl | h
      · simp [isSlugAlphabet, *]
      · exact ih _ c h
    · split at hc
      · exact ih _ c hc
      · rcases List.mem_cons.mp hc with rfl | h
        · simp [isSlugAlphabet]
        · exact ih _ c h

theorem replaceRunsAux_shape (b : Bool) (s : Str) :
    NoDoubleHyphen (replaceRunsAux b s) ∧
      (b = true → ∀ x, (replaceRunsAux b s).head? = some x → x ≠ '-') := by
  induction s generalizing b with
  | nil => simp [replaceRunsAux, NoDoubleHyphen]
  | cons x xs ih =>
    unfold replaceRunsAux
    by_cases hx : isSlugChar x = true
    · simp only [hx, if_true]
      refine ⟨?_, ?_⟩
      · refine List.chain'_cons'.mpr ⟨?_, (ih false).1⟩
        intro y _ hxy
        rw [hxy.1] at hx
        rw [isSlugChar_hyphen] at hx
        exact Bool.noConfusion hx
      · intro _ y hy
        simp only [List.head?_cons, Option.some.injEq] at hy
        subst hy
        intro h
        rw [h, isSlugChar_hyphen] at hx
        exact Bool.noConfusion hx
    · simp only [hx, if_false]
      cases b with
      | true =>
        simp only [if_true]
        exact ⟨(ih true).1, fun _ => (ih true).2 rfl⟩
      | false =>
        simp only [Bool.false_eq_true, if_false]
        refine ⟨?_, fun h => h.elim⟩
        refine List.chain'_cons'.mpr ⟨?_, (ih true).1⟩
        intro y hy hxy
        exact (ih true).2 rfl y (by simpa using hy) hxy.2

theorem toLowerRune_slugAlphabet (tbl : Char → Char) (c : Char)
    (h : isSlugAlphabet c = true) : toLowerRune tbl c = c := by
  have hc : (97 ≤ c.toNat ∧ c.toNat ≤ 122) ∨ (48 ≤ c.toNat ∧ c.toNat ≤ 57) ∨ c = '-' := by
    simp only [isSlugAlphabet, isSlugChar, Bool.or_eq_true, Bool.and_eq_true,
      decide_eq_true_eq, beq_iff_eq] at h
    tauto
  unfold toLowerRune
  rcases hc with h1 | h1 | h1
  · rw [if_pos (by omega), if_neg (by omega)]
  · rw [if_pos (by omega), if_neg (by omega)]
  · subst h1
    rw [if_pos (by decide), if_neg (by decide)]

theorem isSpace_slugAlphabet (c : Char) (h : isSlugAlphabet c = true) : isSpace c = false := by
  have hc : (97 ≤ c.toNat ∧ c.toNat ≤ 122) ∨ (48 ≤ c.toNat ∧ c.toNat ≤ 57) ∨ c = '-' := by
    simp only [isSlugAlphabet, isSlugChar, Bool.or_eq_true, Bool.and_eq_true,
      decide_eq_true_eq, beq_iff_eq] at h
    tauto
  rcases hc with h1 | h1 | h1
  · simp only [isSpace, Bool.or_eq_false_iff, Bool.and_eq_false_imp, decide_eq_true_eq,
      decide_eq_false_iff_not, beq_eq_false_iff_ne, ne_eq]
    omega
  · simp only [isSpace, Bool.or_eq_false_iff, Bool.and_eq_false_imp, decide_eq_true_eq,
      decide_eq_false_iff_not, beq_eq_false_iff_ne, ne_eq]
    omega
  · subst h1; decide

theorem hyphenCut_false_iff (x : Char) : (['-'] : Str).contains x = false ↔ x ≠ '-' := by
  simp

theorem slugify_isSlug (tbl : Char → Char) (s : Str) : IsSlug (slugify tbl s) := by
  unfold slugify Trim replaceRuns
  refine ⟨?_, ?_, ?_, ?_⟩
  · intro c hc
    exact replaceRunsAux_alphabet _ _ c (trimFunc_mem _ _ c hc)
  · exact List.Chain'.infix (replaceRunsAux_shape _ _).1 (trimFunc_isInfix _ _)
  · intro x hx
    exact (hyphenCut_false_iff x).mp (trimFunc_head_not _ _ x hx)
  · intro x hx
    exact (hyphenCut_false_iff x).mp (trimFunc_getLast_not _ _ x hx)

theorem replaceRunsAux_fix (t : Str) (ha : ∀ c ∈ t, isSlugAlphabet c = true)
    (hc : NoDoubleHyphen t) :
    replaceRunsAux false t = t ∧
      ((∀ x, t.head? = some x → x ≠ '-') → replaceRunsAux true t = t) := by
  induction t with
  | nil => simp [replaceRunsAux]
  | cons c cs ih =>
    have hcs := ih (fun x hx => ha x (List.mem_cons_of_mem _ hx)) (List.Chain'.tail hc)
    unfold replaceRunsAux
    by_cases hx : isSlugChar c = true
    · simp only [hx, if_true, hcs.1, true_and]
      intro _; trivial
    · have hcm : c = '-' := by
        have := ha c (List.mem_cons_self _ _)
        simp only [isSlugAlphabet, Bool.or_eq_true, beq_iff_eq] at this
        rcases this with h | h
        · exact absurd h hx
        · exact h
      have htl : ∀ x, cs.head? = some x → x ≠ '-' := by
        intro x hxs hx'
        have := (List.chain'_cons'.mp hc).1 x (by simpa using hxs)
        exact this ⟨hcm, hx'⟩
      simp only [hx, if_false, Bool.false_eq_true, hcs.2 htl]
      refine ⟨by rw [hcm], ?_⟩
      intro h
      exact absurd hcm (h c rfl)

theorem slugify_of_isSlug (tbl : Char → Char) (t : Str) (h : IsSlug t) : slugify tbl t = t := by
  obtain ⟨ha, hc, hh, hl⟩ := h
  have h1 : ToLower tbl t = t := by
    unfold ToLower
    conv_rhs => rw [← List.map_id t]
    exact List.map_congr_left (fun c hc => toLowerRune_slugAlphabet tbl c (ha c hc))
  have h2 : TrimSpace t = t := by
    apply trimFunc_eq_self
    · intro x hx
      exact isSpace_slugAlphabet x (ha x (List.mem_of_mem_head? hx))
    · intro x hx
      exact isSpace_slugAlphabet x (ha x (List.mem_of_mem_getLast? hx))
  have h3 : replaceRuns t = t := (replaceRunsAux_fix t ha hc).1
  have h4 : Trim t ['-'] = t := by
    apply trimFunc_eq_self
    · intro x hx; exact (hyphenCut_false_iff x).mpr (hh x hx)
    · intro x hx; exact (hyphenCut_false_iff x).mpr (hl x hx)
  unfold slugify
  simp only [h1, h2, h3, h4]

theorem replaceRunsAux_no_slugChar (b : Bool) (s : Str) (h : ∀ c ∈ s, isSlugChar c = false) :
    ∀ c ∈ replaceRunsAux b s, c = '-' := by
  induction s generalizing b with
  | nil => simp [replaceRunsAux]
  | cons x xs ih =>
    have hx := h x (List.mem_cons_self _ _)
    have hxs := fun b => ih b (fun c hc => h c (List.mem_cons_of_mem _ hc))
    intro c hc
    unfold replaceRunsAux at hc
    simp only [hx, Bool.false_eq_true, if_false] at hc
    split at hc
    · exact hxs _ c hc
    · rcases List.mem_cons.mp hc with rfl | h'
      · rfl
      · exact hxs _ c h'

theorem all_hyphen_trim (t : Str) (h : ∀ c ∈ t, c = '-') : Trim t ['-'] = [] := by
  have hd : t.dropWhile (fun c => (['-'] : Str).contains c) = [] := by
    rw [List.dropWhile_eq_nil_iff]
    intro c hc
    rw [h c hc]; decide
  unfold Trim trimFunc trimLeftFunc trimRightFunc
  rw [hd]
  rfl

theorem slugify_no_slugChar (tbl : Char → Char) (s : Str)
    (h : ∀ c ∈ ToLower tbl s, isSlugChar c = false) : slugify tbl s = [] := by
  unfold slugify
  apply all_hyphen_trim
  apply replaceRunsAux_no_slugChar
  intro c hc
  exact h c (trimFunc_mem _ _ c hc)

theorem filter_slugChar_replaceRunsAux (b : Bool) (s : Str) :
    (replaceRunsAux b s).filter isSlugChar = s.filter isSlugChar := by
  induction s generalizing b with
  | nil => simp [replaceRunsAux]
  | cons x xs ih =>
    unfold replaceRunsAux
    by_cases hx : isSlugChar x = true
    · simp [hx, List.filter_cons, ih]
    · cases b <;> simp [hx, List.filter_cons, ih, isSlugChar_hyphen]

theorem filter_dropWhile_of_disjoint (p q : Char → Bool) (s : Str)
    (h : ∀ c, p c = true → q c = false) :
    (s.dropWhile p).filter q = s.filter q := by
  induction s with
  | nil => rfl
  | cons x xs ih =>
    by_cases hx : p x = true
    · simp [List.dropWhile_cons, hx, List.filter_cons, h x hx, ih]
    · simp [List.dropWhile_cons, hx]

theorem filter_trimFunc_of_disjoint (p q : Char → Bool) (s : Str)
    (h : ∀ c, p c = true → q c = false) :
    (trimFunc p s).filter q = s.filter q := by
  unfold trimFunc trimRightFunc trimLeftFunc
  rw [List.filter_reverse, filter_dropWhile_of_disjoint p q _ h, ← List.filter_reverse,
    List.reverse_reverse, filter_dropWhile_of_disjoint p q _ h]

theorem slugify_keeps_slugChars (tbl : Char → Char) (s : Str) :
    (slugify tbl s).filter isSlugChar = (ToLower tbl s).filter isSlugChar := by
  unfold slugify Trim TrimSpace replaceRuns
  rw [filter_trimFunc_of_disjoint, filter_slugChar_replaceRunsAux, filter_trimFunc_of_disjoint]
  · intro c hc
    by_contra hs
    have hs' : isSlugChar c = true := by simpa using hs
    have := isSpace_slugAlphabet c (by simp [isSlugAlphabet, hs'])
    rw [this] at hc
    exact Bool.noConfusion hc
  · intro c hc
    have : c = '-' := by simpa using hc
    rw [this]; exact isSlugChar_hyphen

/-! ## `slugify` as the joined runs of letters and digits -/

theorem slugWords_cons_sep (c : Char) (cs : Str) (h : isSlugChar c = false) :
    slugWords (c :: cs) = slugWords cs := by
  unfold slugWords
  rw [List.splitOnP_cons]
  simp [h]

theorem slugWords_cons_slug (c : Char) (cs : Str) (h : isSlugChar c = true) :
    ∃ w ws, slugWords (c :: cs) = (c :: w) :: ws := by
  unfold slugWords
  rw [List.splitOnP_cons]
  cases hs : cs.splitOnP (fun c => !isSlugChar c) with
  | nil => exact absurd hs (List.splitOnP_ne_nil _ _)
  | cons w tl => exact ⟨w, tl.filter (fun w => !w.isEmpty), by simp [h]⟩

theorem slugWords_single (c : Char) (h : isSlugChar c = true) : slugWords [c] = [[c]] := by
  unfold slugWords
  rw [List.splitOnP_cons]
  simp [h]

theorem slugWords_cons_slug_sep (c d : Char) (ds : Str) (hc : isSlugChar c = true)
    (hd : isSlugChar d = false) : slugWords (c :: d :: ds) = [c] :: slugWords (d :: ds) := by
  unfold slugWords
  rw [List.splitOnP_cons, List.splitOnP_cons]
  simp [hc, hd]

theorem slugWords_cons_slug_slug (c d : Char) (ds : Str) (hc : isSlugChar c = true)
    (hd : isSlugChar d = true) :
    slugWords (c :: d :: ds) = (slugWords (d :: ds)).modifyHead (List.cons c) := by
  unfold slugWords
  rw [List.splitOnP_cons, List.splitOnP_cons]
  cases hs : ds.splitOnP (fun c => !isSlugChar c) with
  | nil => exact absurd hs (List.splitOnP_ne_nil _ _)
  | cons w tl => simp [hc, hd]

theorem slugWords_no_slugChar (g : Str) (h : ∀ c ∈ g, isSlugChar c = false) :
    slugWords g = [] := by
  induction g with
  | nil => rfl
  | cons c cs ih =>
    rw [slugWords_cons_sep c cs (h c (List.mem_cons_self _ _))]
    exact ih (fun x hx => h x (List.mem_cons_of_mem _ hx))

/-- Every run is non-empty and made of characters of `[a-z0-9]`. -/
theorem slugWords_runs (t : Str) :
    ∀ w ∈ slugWords t, w ≠ [] ∧ ∀ c ∈ w, isSlugChar c = true := by
  induction t with
  | nil => intro w hw; exact absurd hw (List.not_mem_nil w)
  | cons c cs ih =>
    by_cases hc : isSlugChar c = true
    · cases cs with
      | nil =>
        rw [slugWords_single c hc]
        intro w hw
        rw [List.mem_singleton.mp hw]
        exact ⟨List.cons_ne_nil _ _, fun x hx => by rw [List.mem_singleton.mp hx]; exact hc⟩
      | cons d ds =>
        by_cases hd : isSlugChar d = true
        · rw [slugWords_cons_slug_slug c d ds hc hd]
          obtain ⟨w0, ws, hw0⟩ := slugWords_cons_slug d ds hd
          rw [hw0] at ih ⊢
          intro w hw
          rcases List.mem_cons.mp hw with rfl | hw
          · refine ⟨List.cons_ne_nil _ _, ?_⟩
            intro x hx
            rcases List.mem_cons.mp hx with rfl | hx
            · exact hc
            · exact (ih _ (List.mem_cons_self _ _)).2 x hx
          · exact ih w (List.mem_cons_of_mem _ hw)
        · have hd' : isSlugChar d = false := by simpa using hd
          rw [slugWords_cons_slug_sep c d ds hc hd']
          intro w hw
          rcases List.mem_cons.mp hw with rfl | hw
          · exact ⟨List.cons_ne_nil _ _,
              fun x hx => by rw [List.mem_singleton.mp hx]; exact hc⟩
          · exact ih w hw
    · have hc' : isSlugChar c = false := by simpa using hc
      rw [slugWords_cons_sep c cs hc']
      exact ih

theorem slugWords_append_no_slugChar (a g : Str) (h : ∀ c ∈ g, isSlugChar c = false) :
    slugWords (a ++ g) = slugWords a := by
  induction a with
  | nil => rw [List.nil_append, slugWords_no_slugChar g h]; rfl
  | cons c cs ih =>
    by_cases hc : isSlugChar c = true
    · cases cs with
      | nil =>
        cases g with
        | nil => rfl
        | cons d g' =>
          show slugWords (c :: d :: g') = _
          rw [slugWords_cons_slug_sep c d g' hc (h d (List.mem_cons_self _ _)),
            slugWords_no_slugChar _ h, slugWords_single c hc]
      | cons d ds =>
        have ih' : slugWords (d :: (ds ++ g)) = slugWords (d :: ds) := ih
        show slugWords (c :: d :: (ds ++ g)) = _
        by_cases hd : isSlugChar d = true
        · rw [slugWords_cons_slug_slug c d _ hc hd, slugWords_cons_slug_slug c d _ hc hd, ih']
        · have hd' : isSlugChar d = false := by simpa using hd
          rw [slugWords_cons_slug_sep c d _ hc hd', slugWords_cons_slug_sep c d _ hc hd', ih']
    · have hc' : isSlugChar c = false := by simpa using hc
      show slugWords (c :: (cs ++ g)) = _
      rw [slugWords_cons_sep c _ hc', slugWords_cons_sep c _ hc', ih]

theorem slugWords_dropWhile (p : Char → Bool) (t : Str)
    (h : ∀ c, p c = true → isSlugChar c = false) : slugWords (t.dropWhile p) = slugWords t := by
  induction t with
  | nil => rfl
  | cons c cs ih =>
    by_cases hc : p c = true
    · rw [List.dropWhile_cons_of_pos hc, ih, slugWords_cons_sep c cs (h c hc)]
    · rw [List.dropWhile_cons_of_neg hc]

theorem trimRightFunc_append (p : Char → Bool) (t : Str) :
    ∃ g, t = trimRightFunc p t ++ g ∧ ∀ c ∈ g, p c = true := by
  refine ⟨(t.reverse.takeWhile p).reverse, ?_, ?_⟩
  · unfold trimRightFunc
    rw [← List.reverse_append, List.takeWhile_append_dropWhile, List.reverse_reverse]
  · intro c hc
    exact (List.mem_takeWhile_imp (List.mem_reverse.mp hc))

theorem slugWords_trimFunc (p : Char → Bool) (t : Str)
    (h : ∀ c, p c = true → isSlugChar c = false) : slugWords (trimFunc p t) = slugWords t := by
  unfold trimFunc trimLeftFunc
  obtain ⟨g, hg, hall⟩ := trimRightFunc_append p (t.dropWhile p)
  rw [← slugWords_dropWhile p t h]
  conv_rhs => rw [hg]
  rw [slugWords_append_no_slugChar _ g (fun c hc => h c (hall c hc))]

theorem intercalate_single (sep w : Str) : List.intercalate sep [w] = w := by
  simp [List.intercalate, List.intersperse]

theorem intercalate_cons_cons (sep w w' : Str) (ws : List Str) :
    List.intercalate sep (w :: w' :: ws) = w ++ sep ++ List.intercalate sep (w' :: ws) := by
  simp [List.intercalate, List.intersperse]

theorem intercalate_modifyHead (sep : Str) (c : Char) (w : Str) (ws : List Str) :
    List.intercalate sep ((w :: ws).modifyHead (List.cons c)) =
      c :: List.intercalate sep (w :: ws) := by
  cases ws with
  | nil => simp [List.intercalate, List.intersperse]
  | cons w' ws => simp [List.intercalate, List.intersperse]

/-- The joined runs neither begin nor end with a hyphen. -/
theorem intercalate_runs_ends (ws : List Str)
    (h : ∀ w ∈ ws, w ≠ [] ∧ ∀ c ∈ w, isSlugChar c = true) :
    (∀ x, (List.intercalate ['-'] ws).head? = some x → x ≠ '-') ∧
    (∀ x, (List.intercalate ['-'] ws).getLast? = some x → x ≠ '-') := by
  have hne : ∀ (w : Str), (∀ c ∈ w, isSlugChar c = true) → ∀ x ∈ w, x ≠ '-' := by
    intro w hw x hx he
    have := hw x hx
    rw [he, isSlugChar_hyphen] at this
    exact Bool.noConfusion this
  induction ws with
  | nil => exact ⟨fun x hx => by simp [List.intercalate] at hx,
      fun x hx => by simp [List.intercalate] at hx⟩
  | cons w ws ih =>
    obtain ⟨hw1, hw2⟩ := h w (List.mem_cons_self _ _)
    cases ws with
    | nil =>
      rw [intercalate_single]
      exact ⟨fun x hx => hne w hw2 x (List.mem_of_mem_head? hx),
        fun x hx => hne w hw2 x (List.mem_of_mem_getLast? hx)⟩
    | cons w' ws =>
      have ih' := ih (fun v hv => h v (List.mem_cons_of_mem _ hv))
      obtain ⟨hw1', _⟩ := h w' (List.mem_cons_of_mem _ (List.mem_cons_self _ _))
      rw [intercalate_cons_cons]
      refine ⟨?_, ?_⟩
      · intro x hx
        cases w with
        | nil => exact absurd rfl hw1
        | cons a as =>
          simp only [List.cons_append, List.head?_cons, Option.some.injEq] at hx
          exact hne _ hw2 x (hx ▸ List.mem_cons_self _ _)
      · intro x hx
        have hrest : List.intercalate ['-'] (w' :: ws) ≠ [] := by
          cases w' with
          | nil => exact absurd rfl hw1'
          | cons a as =>
            cases ws with
            | nil => rw [intercalate_single]; exact List.cons_ne_nil _ _
            | cons w'' ws => rw [intercalate_cons_cons]; exact List.cons_ne_nil _ _
        rw [List.getLast?_append_of_ne_nil _ hrest] at hx
        exact ih'.2 x hx

theorem dropWhile_append_all (p : Char → Bool) (pre rest : Str)
    (h : ∀ c ∈ pre, p c = true) : (pre ++ rest).dropWhile p = rest.dropWhile p := by
  induction pre with
  | nil => rfl
  | cons c cs ih =>
    rw [List.cons_append, List.dropWhile_cons_of_pos (h c (List.mem_cons_self _ _))]
    exact ih (fun x hx => h x (List.mem_cons_of_mem _ hx))

/-- Trimming hyphens from a text between two runs of hyphens that neither begins
nor ends with a hyphen leaves that text. -/
theorem trim_between_hyphens (pre mid post : Str)
    (hpre : ∀ c ∈ pre, c = '-') (hpost : ∀ c ∈ post, c = '-')
    (hh : ∀ x, mid.head? = some x → x ≠ '-') (hl : ∀ x, mid.getLast? = some x → x ≠ '-') :
    Trim (pre ++ mid ++ post) ['-'] = mid := by
  have hp : ∀ (l : Str), (∀ c ∈ l, c = '-') →
      ∀ c ∈ l, (fun c => (['-'] : Str).contains c) c = true := by
    intro l hl c hc
    rw [hl c hc]; rfl
  unfold Trim trimFunc trimLeftFunc trimRightFunc
  rw [List.append_assoc, dropWhile_append_all _ pre _ (hp pre hpre)]
  by_cases hm : mid = []
  · subst hm
    rw [List.nil_append]
    have := dropWhile_append_all (fun c => (['-'] : Str).contains c) post [] (hp post hpost)
    rw [List.append_nil] at this
    rw [this]
    rfl
  · have h1 : (mid ++ post).dropWhile (fun c => (['-'] : Str).contains c) = mid ++ post := by
      apply dropWhile_eq_self_of_head
      intro x hx
      cases mid with
      | nil => exact absurd rfl hm
      | cons a as =>
        simp only [List.cons_append, List.head?_cons, Option.some.injEq] at hx
        exact (hyphenCut_false_iff x).mpr (hh x (by rw [← hx]; rfl))
    rw [h1, List.reverse_append,
      dropWhile_append_all _ post.reverse _ (fun c hc => hp post hpost c (List.mem_reverse.mp hc))]
    rw [dropWhile_eq_self_of_head _ mid.reverse (fun x hx =>
      (hyphenCut_false_iff x).mpr (hl x (by rw [← List.getLast?_reverse, List.reverse_reverse] at hx; exact hx))),
      List.reverse_reverse]

/-- The replacement of the runs, in terms of the joined runs of letters and digits:
a hyphen in front when the text begins outside `[a-z0-9]` and no run was open,
then the joined runs, then hyphens only. -/
theorem replaceRunsAux_runs (t : Str) :
    (∃ post, replaceRunsAux true t = List.intercalate ['-'] (slugWords t) ++ post ∧
      ∀ c ∈ post, c = '-') ∧
    (∃ pre post, replaceRunsAux false t = pre ++ List.intercalate ['-'] (slugWords t) ++ post ∧
      (∀ c ∈ pre, c = '-') ∧ (∀ c ∈ post, c = '-') ∧
      ((∀ x, t.head? = some x → isSlugChar x = false) → pre = ['-'] ∨ t = []) ∧
      ((∀ x, t.head? = some x → isSlugChar x = true) → pre = [])) := by
  induction t with
  | nil =>
    exact ⟨⟨[], rfl, fun c hc => absurd hc (List.not_mem_nil c)⟩,
      ⟨[], [], rfl, fun c hc => absurd hc (List.not_mem_nil c),
        fun c hc => absurd hc (List.not_mem_nil c), fun _ => Or.inr rfl, fun _ => rfl⟩⟩
  | cons c cs ih =>
    obtain ⟨⟨post1, e1, h1⟩, ⟨pre2, post2, e2, hpre2, hpost2, hsep2, hslug2⟩⟩ := ih
    by_cases hc : isSlugChar c = true
    · have hboth : ∀ b, ∃ post, replaceRunsAux b (c :: cs) =
          List.intercalate ['-'] (slugWords (c :: cs)) ++ post ∧ ∀ x ∈ post, x = '-' := by
        intro b
        have hstep : replaceRunsAux b (c :: cs) = c :: replaceRunsAux false cs := by
          rw [replaceRunsAux, if_pos hc]
        rw [hstep]
        cases cs with
        | nil =>
          refine ⟨[], ?_, fun x hx => absurd hx (List.not_mem_nil x)⟩
          rw [slugWords_single c hc, intercalate_single]
          rfl
        | cons d ds =>
          by_cases hd : isSlugChar d = true
          · have hp : pre2 = [] := hslug2 (fun x hx => by
              simp only [List.head?_cons, Option.some.injEq] at hx
              rw [← hx]; exact hd)
            obtain ⟨w, ws, hw⟩ := slugWords_cons_slug d ds hd
            refine ⟨post2, ?_, hpost2⟩
            rw [slugWords_cons_slug_slug c d ds hc hd, e2, hp, hw, intercalate_modifyHead]
            rfl
          · have hd' : isSlugChar d = false := by simpa using hd
            have hp : pre2 = ['-'] := by
              rcases hsep2 (fun x hx => by
                simp only [List.head?_cons, Option.some.injEq] at hx
                rw [← hx]; exact hd') with h | h
              · exact h
              · exact absurd h (List.cons_ne_nil _ _)
            rw [slugWords_cons_slug_sep c d ds hc hd', e2, hp]
            cases hs : slugWords (d :: ds) with
            | nil =>
              refine ⟨'-' :: post2, ?_, ?_⟩
              · rw [intercalate_single]
                simp [List.intercalate]
              · intro x hx
                rcases List.mem_cons.mp hx with rfl | hx
                · rfl
                · exact hpost2 x hx
            | cons w ws =>
              refine ⟨post2, ?_, hpost2⟩
              rw [intercalate_cons_cons]
              simp
      refine ⟨hboth true, ?_⟩
      obtain ⟨post, e, hpost⟩ := hboth false
      refine ⟨[], post, by rw [e]; rfl, fun x hx => absurd hx (List.not_mem_nil x), hpost,
        ?_, fun _ => rfl⟩
      intro h
      have := h c rfl
      rw [hc] at this
      exact Bool.noConfusion this
    · have hc' : isSlugChar c = false := by simpa using hc
      have ht : replaceRunsAux true (c :: cs) = replaceRunsAux true cs := by
        rw [replaceRunsAux, if_neg hc, if_pos rfl]
      have hf : replaceRunsAux false (c :: cs) = '-' :: replaceRunsAux true cs := by
        rw [replaceRunsAux, if_neg hc, if_neg Bool.false_ne_true]
      rw [slugWords_cons_sep c cs hc', ht, hf]
      refine ⟨⟨post1, e1, h1⟩, ⟨['-'], post1, by rw [e1]; rfl, ?_, h1, fun _ => Or.inl rfl, ?_⟩⟩
      · intro x hx
        exact List.mem_singleton.mp hx
      · intro h
        have := h c rfl
        rw [hc'] at this
        exact Bool.noConfusion this

/-- The slug is the sequence of the maximal runs of `[a-z0-9]` of the lower-cased
text, joined by single hyphens. -/
theorem slugify_eq_slugifySpec (tbl : Char → Char) (s : Str) :
    slugify tbl s = slugifySpec tbl s := by
  have hsp : ∀ c, isSpace c = true → isSlugChar c = false := by
    intro c hc
    by_contra hs
    have hs' : isSlugChar c = true := by simpa using hs
    have := isSpace_slugAlphabet c (by simp [isSlugAlphabet, hs'])
    rw [this] at hc
    exact Bool.noConfusion hc
  unfold slugify slugifySpec replaceRuns
  dsimp only
  obtain ⟨pre, post, e, hpre, hpost, _, _⟩ :=
    (replaceRunsAux_runs (TrimSpace (ToLower tbl s))).2
  have hw : slugWords (TrimSpace (ToLower tbl s)) = slugWords (ToLower tbl s) :=
    slugWords_trimFunc isSpace _ hsp
  rw [e, hw]
  obtain ⟨hh, hl⟩ := intercalate_runs_ends _ (slugWords_runs (ToLower tbl s))
  exact trim_between_hyphens pre _ post hpre hpost hh hl

theorem specMatches_empty (tbl : Char → Char) (x : Category × Subcategory × Resource) :
    specMatches tbl [] x = true := by
  simp [specMatches, ToLower]

theorem search_eq_searchSpec (tbl : Char → Char) (data : SiteData) (q : Str) :
    Search tbl data q = searchSpec tbl data q := by
  rw [search_eq_flatMap, searchSpec_eq_flatMap]

/-! ## Claims on `Search` and `Slugify` -/

/-- C1: `Search` returns exactly the catalog traversal (categories in order, then
subcategories, then resources) filtered by the test "the lower-cased query is a
substring of the lower-cased resource name, description or platform, or of the
lower-cased owning category or subcategory name", each kept resource paired with
the names of its owners; so the emitted resources are a subsequence of the
traversal (each position at most once), and audience, price and links play no
part in the test. This holds for every query, in particular every non-empty one. -/
theorem C1_search_is_filtered_traversal (tbl : Char → Char) (data : SiteData) (q : Str) :
    Search tbl data q = searchSpec tbl data q ∧
    List.Sublist ((Search tbl data q).map (fun x => x.Resource))
      ((catalogTraversal data).map (fun x => x.2.2)) ∧
    (∀ (c : Category) (s : Subcategory) (r : Resource) (a p u : Str) (us : List ResourceLink),
      searchMatches tbl (ToLower tbl q) c s { r with Audience := a, Price := p, URL := u, URLs := us }
        = searchMatches tbl (ToLower tbl q) c s r) := by
  have h : Search tbl data q = searchSpec tbl data q := search_eq_searchSpec tbl data q
  refine ⟨h, ?_, fun _ _ _ _ _ _ _ => rfl⟩
  rw [h]
  unfold searchSpec
  rw [List.map_map]
  exact (List.filter_sublist _).map _

/-- C2 (as stated, refuted): on a catalog holding one resource, `Search` with the
empty query returns that resource, not the empty sequence. -/
theorem C2_search_empty_query_nonempty :
    Search (fun c => c) demoCatalog [] ≠ [] ∧
    Search (fun c => c) demoCatalog [] =
      [{ Resource := demoResource, Category := "Tools".toList,
         Subcategory := "Maps".toList }] := by
  decide

/-- C2 (amended): the empty query makes `Search` return every resource of the
catalog in traversal order; it is the `Search` handler that does not call `Search`
for the empty query, so the handler's result sequence is empty. -/
theorem C2_empty_query_handler_guard (tbl : Char → Char) (data : SiteData) :
    handlerSearchResults tbl data [] = [] ∧
    Search tbl data [] = (catalogTraversal data).map
      (fun x => { Resource := x.2.2, Category := x.1.Name, Subcategory := x.2.1.Name }) := by
  refine ⟨by simp [handlerSearchResults], ?_⟩
  rw [search_eq_searchSpec tbl data []]
  unfold searchSpec
  rw [List.filter_eq_self.mpr (fun x _ => specMatches_empty tbl x)]

/-- C5: `Slugify` is idempotent. -/
theorem C5_slugify_idempotent (tbl : Char → Char) (s : Str) :
    Slugify tbl (Slugify tbl s) = Slugify tbl s :=
  slugify_of_isSlug tbl _ (slugify_isSlug tbl s)

/-- C6: `Slugify s` consists only of `a-z`, `0-9` and `-`, neither begins nor ends
with `-`, has no two adjacent `-`, and keeps the letters and digits of the
lower-cased input in order; `Slugify` of the empty string, and of a string whose
lower-casing holds no ASCII letter or digit, is the empty string. Every maximal run
of other characters became one hyphen: `Slugify s` is the sequence of the maximal
runs of `[a-z0-9]` of the lower-cased input, each non-empty, joined by single
hyphens. -/
theorem C6_slug_shape (tbl : Char → Char) (s : Str) :
    (∀ c ∈ Slugify tbl s, isSlugChar c = true ∨ c = '-') ∧
    (∀ x, (Slugify tbl s).head? = some x → x ≠ '-') ∧
    (∀ x, (Slugify tbl s).getLast? = some x → x ≠ '-') ∧
    NoDoubleHyphen (Slugify tbl s) ∧
    (Slugify tbl s).filter isSlugChar = (ToLower tbl s).filter isSlugChar ∧
    Slugify tbl [] = [] ∧
    ((∀ c ∈ ToLower tbl s, isSlugChar c = false) → Slugify tbl s = []) ∧
    Slugify tbl s = slugifySpec tbl s ∧
    (∀ w ∈ slugWords (ToLower tbl s), w ≠ [] ∧ ∀ c ∈ w, isSlugChar c = true) := by
  obtain ⟨ha, hc, hh, hl⟩ := slugify_isSlug tbl s
  refine ⟨?_, hh, hl, hc, slugify_keeps_slugChars tbl s, rfl, slugify_no_slugChar tbl s,
    slugify_eq_slugifySpec tbl s, slugWords_runs (ToLower tbl s)⟩
  intro c hcm
  have := ha c hcm
  simpa [isSlugAlphabet] using this

/-- Witness for C6: a string of punctuation and blanks has the empty slug, and the
runs of blanks and punctuation of `  Tarkov  Tracker! ` become one hyphen between
the two words and nothing at the ends. -/
theorem C6_slug_shape_witness :
    (∀ c ∈ ToLower (fun c => c) " ?! ".toList, isSlugChar c = false) ∧
    Slugify (fun c => c) " ?! ".toList = [] ∧
    slugWords (ToLower (fun c => c) "  Tarkov  Tracker! ".toList) =
      ["tarkov".toList, "tracker".toList] ∧
    slugifySpec (fun c => c) "  Tarkov  Tracker! ".toList = "tarkov-tracker".toList ∧
    Slugify (fun c => c) "  Tarkov  Tracker! ".toList =
      slugifySpec (fun c => c) "  Tarkov  Tracker! ".toList ∧
    Slugify (fun c => c) "Rock & Roll_2".toList = "rock-roll-2".toList :=
  ⟨by decide, (C6_slug_shape (fun c => c) " ?! ".toList).2.2.2.2.2.2.1 (by decide),
    by decide, by decide,
    (C6_slug_shape (fun c => c) "  Tarkov  Tracker! ".toList).2.2.2.2.2.2.2.1, by decide⟩

/-! ## Lemmas on the document parser -/

theorem hasPrefix_iff (l p : Str) : HasPrefix l p = true ↔ ∃ t, l = p ++ t := by
  unfold HasPrefix
  rw [List.isPrefixOf_iff_prefix]
  constructor
  · rintro ⟨t, rfl⟩; exact ⟨t, rfl⟩
  · rintro ⟨t, rfl⟩; exact ⟨t, rfl⟩

theorem heading_excl (l : Str) (h : HasPrefix l "# ".toList = true) :
    HasPrefix l "**Website:**".toList = false ∧
    HasPrefix l "**Category:**".toList = false ∧ HasPrefix l "## Overview".toList = false ∧
    HasPrefix l "## Details".toList = false ∧ HasPrefix l "|".toList = false ∧
    HasPrefix l "---".toList = false ∧ HasPrefix l "#".toList = true := by
  obtain ⟨t, rfl⟩ := (hasPrefix_iff _ _).mp h
  exact ⟨rfl, rfl, rfl, rfl, rfl, rfl, rfl⟩

theorem website_excl (l : Str) (h : HasPrefix l "**Website:**".toList = true) :
    HasPrefix l "# ".toList = false ∧ HasPrefix l "## Details".toList = false ∧
    HasPrefix l "---".toList = false := by
  obtain ⟨t, rfl⟩ := (hasPrefix_iff _ _).mp h
  exact ⟨rfl, rfl, rfl⟩

theorem category_excl (l : Str) (h : HasPrefix l "**Category:**".toList = true) :
    HasPrefix l "# ".toList = false ∧ HasPrefix l "**Website:**".toList = false ∧
    HasPrefix l "## Details".toList = false ∧ HasPrefix l "---".toList = false := by
  obtain ⟨t, rfl⟩ := (hasPrefix_iff _ _).mp h
  exact ⟨rfl, rfl, rfl, rfl⟩

theorem overview_excl (l : Str) (h : HasPrefix l "## Overview".toList = true) :
    HasPrefix l "# ".toList = false ∧ HasPrefix l "**Website:**".toList = false ∧
    HasPrefix l "**Category:**".toList = false ∧
    HasPrefix l "## Details".toList = false ∧ HasPrefix l "---".toList = false := by
  obtain ⟨t, rfl⟩ := (hasPrefix_iff _ _).mp h
  exact ⟨rfl, rfl, rfl, rfl, rfl⟩

theorem details_excl (l : Str) (h : HasPrefix l "## Details".toList = true) :
    HasPrefix l "# ".toList = false ∧ HasPrefix l "**Website:**".toList = false ∧
    HasPrefix l "**Category:**".toList = false ∧ HasPrefix l "## Overview".toList = false ∧
    HasPrefix l "#".toList = true ∧ HasPrefix l "---".toList = false ∧
    HasPrefix l "|".toList = false := by
  obtain ⟨t, rfl⟩ := (hasPrefix_iff _ _).mp h
  exact ⟨rfl, rfl, rfl, rfl, rfl, rfl, rfl⟩

theorem rule_excl (l : Str) (h : HasPrefix l "---".toList = true) :
    HasPrefix l "# ".toList = false ∧ HasPrefix l "**Website:**".toList = false ∧
    HasPrefix l "**Category:**".toList = false ∧ HasPrefix l "## Overview".toList = false ∧
    HasPrefix l "## Details".toList = false ∧ HasPrefix l "|".toList = false := by
  obtain ⟨t, rfl⟩ := (hasPrefix_iff _ _).mp h
  exact ⟨rfl, rfl, rfl, rfl, rfl, rfl⟩

theorem parseCategory_keeps (st : ParseState) (l : Str) :
    (parseCategory st l).urls = st.urls ∧ (parseCategory st l).url = st.url ∧
    (parseCategory st l).name = st.name ∧ (parseCategory st l).inDetails = st.inDetails := by
  unfold parseCategory
  dsimp only
  generalize Split (TrimSpace (TrimPrefix l "**Category:**".toList)) " > ".toList = parts
  rcases parts with _ | ⟨p0, _ | ⟨p1, ps⟩⟩ <;> exact ⟨rfl, rfl, rfl, rfl⟩

theorem parseDetailsRow_keeps (st : ParseState) (l : Str) :
    (parseDetailsRow st l).urls = st.urls ∧ (parseDetailsRow st l).url = st.url ∧
    (parseDetailsRow st l).name = st.name ∧
    (parseDetailsRow st l).inDetails = st.inDetails := by
  unfold parseDetailsRow
  generalize Split l "|".toList = parts
  rcases parts with _ | ⟨p0, _ | ⟨p1, _ | ⟨p2, ps⟩⟩⟩
  · exact ⟨rfl, rfl, rfl, rfl⟩
  · exact ⟨rfl, rfl, rfl, rfl⟩
  · exact ⟨rfl, rfl, rfl, rfl⟩
  · dsimp only
    split_ifs <;> exact ⟨rfl, rfl, rfl, rfl⟩

theorem ite_nil_self (u : Str) : (if u = [] then [] else u) = u := by
  split_ifs with h
  · exact h.symm
  · rfl

theorem parseWebsite_spec (st : ParseState) (l : Str)
    (h : HasPrefix l "**Website:**".toList = true) :
    (parseWebsite st l).urls = st.urls ++ (websiteLink l).toList ∧
    (parseWebsite st l).url =
      (if st.url = [] then ((websiteLink l).map (fun u => u.URL)).getD [] else st.url) ∧
    (parseWebsite st l).name = st.name ∧ (parseWebsite st l).inDetails = st.inDetails := by
  unfold parseWebsite websiteLink
  rw [if_pos h]
  cases findLink l with
  | none => simp [ite_nil_self]
  | some m =>
    obtain ⟨label, linkURL⟩ := m
    simp

/-- The effect of one loop iteration on the variables that decide whether and
which links a document yields. -/
theorem parseLine_spec (st : ParseState) (l : Str) :
    (parseLine st l).2 = (st.inDetails && HasPrefix l "---".toList) ∧
    (parseLine st l).1.inDetails = (st.inDetails || HasPrefix l "## Details".toList) ∧
    (parseLine st l).1.urls = st.urls ++ (websiteLink l).toList ∧
    (parseLine st l).1.url =
      (if st.url = [] then ((websiteLink l).map (fun u => u.URL)).getD [] else st.url) ∧
    (parseLine st l).1.name =
      (if HasPrefix l "# ".toList = true ∧ st.name = [] then TrimPrefix l "# ".toList
       else st.name) := by
  by_cases hH : HasPrefix l "# ".toList = true
  · obtain ⟨h1, h2, h3, h4, h5, h6, h7⟩ := heading_excl l hH
    by_cases hn : st.name = []
    · simp_all [parseLine, websiteLink, ite_nil_self]
    · simp_all [parseLine, websiteLink, ite_nil_self]
  · have hH' : HasPrefix l "# ".toList = false := by simpa using hH
    by_cases hW : HasPrefix l "**Website:**".toList = true
    · obtain ⟨_, h2, h3⟩ := website_excl l hW
      obtain ⟨e1, e2, e3, e4⟩ := parseWebsite_spec st l hW
      simp_all [parseLine, websiteLink, ite_nil_self]
    · have hW' : HasPrefix l "**Website:**".toList = false := by simpa using hW
      have hwl : websiteLink l = none := by
        unfold websiteLink
        simp only [hW', Bool.false_eq_true, if_false]
      by_cases hC : HasPrefix l "**Category:**".toList = true
      · obtain ⟨_, _, h3, h4⟩ := category_excl l hC
        obtain ⟨e1, e2, e3, e4⟩ := parseCategory_keeps st l
        simp_all [parseLine, websiteLink, ite_nil_self]
      · have hC' : HasPrefix l "**Category:**".toList = false := by simpa using hC
        by_cases hO : HasPrefix l "## Overview".toList = true
        · obtain ⟨_, _, _, h4, h5⟩ := overview_excl l hO
          simp_all [parseLine, websiteLink, ite_nil_self]
        · have hO' : HasPrefix l "## Overview".toList = false := by simpa using hO
          by_cases hD : HasPrefix l "## Details".toList = true
          · obtain ⟨_, _, _, _, h5, h6, h7⟩ := details_excl l hD
            simp_all [parseLine, websiteLink, ite_nil_self]
          · have hD' : HasPrefix l "## Details".toList = false := by simpa using hD
            by_cases hR : HasPrefix l "---".toList = true
            · obtain ⟨_, _, _, _, _, h6⟩ := rule_excl l hR
              cases hi : st.inDetails <;>
                simp_all [parseLine, websiteLink, ite_nil_self]
            · have hR' : HasPrefix l "---".toList = false := by simpa using hR
              obtain ⟨e1, e2, e3, e4⟩ := parseDetailsRow_keeps st l
              unfold parseLine
              simp only [hH', hW', hC', hO', hD', hR', hwl]
              split_ifs <;> simp_all [ite_nil_self]

theorem matchLinkAt_some (s : Str) (m : Str × Str) (h : matchLinkAt s = some m) :
    m.1 ≠ [] ∧ m.2 ≠ [] := by
  unfold matchLinkAt at h
  split at h
  · exact absurd h (by simp)
  · split_ifs at h
    split at h
    · split_ifs at h
      split at h
      · split_ifs at h with h3
        cases h
        exact ⟨h3.2.1, h3.2.2⟩
      · exact absurd h (by simp)
    · exact absurd h (by simp)

theorem findLink_some (s : Str) (m : Str × Str) (h : findLink s = some m) :
    m.1 ≠ [] ∧ m.2 ≠ [] := by
  induction s with
  | nil => simp [findLink] at h
  | cons c cs ih =>
    unfold findLink at h
    split at h
    · next m' hm =>
      cases h
      exact matchLinkAt_some _ _ hm
    · exact ih h

theorem websiteLink_url_ne (l : Str) (u : ResourceLink) (h : websiteLink l = some u) :
    u.URL ≠ [] := by
  unfold websiteLink at h
  split_ifs at h
  cases hf : findLink l with
  | none => simp [hf] at h
  | some m =>
    simp only [hf, Option.map_some', Option.some.injEq] at h
    rw [← h]
    exact (findLink_some l m hf).2

theorem parseLine_linksOk (st : ParseState) (l : Str) (h : LinksOk st) :
    LinksOk (parseLine st l).1 := by
  obtain ⟨_, _, hu, hp, _⟩ := parseLine_spec st l
  obtain ⟨h1, h2⟩ := h
  unfold LinksOk
  rw [hu, hp]
  cases hw : websiteLink l with
  | none =>
    simp only [Option.toList, List.append_nil, Option.map_none', Option.getD_none,
      ite_nil_self]
    exact ⟨h1, h2⟩
  | some u =>
    have hne := websiteLink_url_ne l u hw
    refine ⟨?_, ?_⟩
    · cases hs : st.urls with
      | nil =>
        rw [hs] at h1
        simp at h1
        simp [h1]
      | cons x xs =>
        have hx : x.URL ≠ [] := h2 x (by rw [hs]; exact List.mem_cons_self _ _)
        rw [hs] at h1
        simp at h1
        simp [h1, hx]
    · intro v hv
      rcases List.mem_append.mp hv with hv | hv
      · exact h2 v hv
      · simp at hv
        rw [hv]; exact hne

theorem scanLines_cons (st : ParseState) (l : Str) (ls : List Str) :
    scanLines st (l :: ls) =
      if (parseLine st l).2 = true then (parseLine st l).1
      else scanLines (parseLine st l).1 ls := by
  rw [scanLines]
  rcases h : parseLine st l with ⟨st', b⟩
  cases b <;> simp

theorem scanLines_linksOk (st : ParseState) (ls : List Str) (h : LinksOk st) :
    LinksOk (scanLines st ls) := by
  induction ls generalizing st with
  | nil => exact h
  | cons l ls ih =>
    rw [scanLines_cons]
    split_ifs
    · exact parseLine_linksOk st l h
    · exact ih _ (parseLine_linksOk st l h)

theorem filterMap_cons_toList {α β : Type} (f : α → Option β) (a : α) (l : List α) :
    (a :: l).filterMap f = (f a).toList ++ l.filterMap f := by
  cases h : f a <;> simp [List.filterMap_cons, h]

theorem scanLines_urls (st : ParseState) (ls : List Str) :
    (scanLines st ls).urls = st.urls ++ (linesRead st.inDetails ls).filterMap websiteLink := by
  induction ls generalizing st with
  | nil => simp [scanLines, linesRead]
  | cons l ls ih =>
    obtain ⟨hb, hd, hu, _, _⟩ := parseLine_spec st l
    rw [scanLines_cons, linesRead, hb]
    split_ifs with hc
    · rw [hu, filterMap_cons_toList, List.filterMap_nil, List.append_nil]
    · rw [ih, hu, hd, List.append_assoc, filterMap_cons_toList]

theorem scanLines_name_of_no_heading (st : ParseState) (ls : List Str)
    (h : ∀ l ∈ ls, HasPrefix l "# ".toList = false) : (scanLines st ls).name = st.name := by
  induction ls generalizing st with
  | nil => rfl
  | cons l ls ih =>
    obtain ⟨_, _, _, _, hn⟩ := parseLine_spec st l
    have hl := h l (List.mem_cons_self _ _)
    have hn' : (parseLine st l).1.name = st.name := by
      rw [hn, if_neg]
      rw [hl]; simp
    rw [scanLines_cons]
    split_ifs
    · exact hn'
    · rw [ih _ (fun x hx => h x (List.mem_cons_of_mem _ hx)), hn']

theorem linksOk_init : LinksOk ParseState.init := by
  simp [LinksOk, ParseState.init]

theorem url_nil_iff_urls_nil (st : ParseState) (h : LinksOk st) : st.url = [] ↔ st.urls = [] := by
  obtain ⟨h1, h2⟩ := h
  cases hs : st.urls with
  | nil => rw [hs] at h1; simpa using h1
  | cons x xs =>
    have hx : x.URL ≠ [] := h2 x (by rw [hs]; exact List.mem_cons_self _ _)
    rw [hs] at h1
    simp at h1
    simp [h1, hx]

theorem linesRead_sublist (b : Bool) (ls : List Str) : List.Sublist (linesRead b ls) ls := by
  induction ls generalizing b with
  | nil => exact List.Sublist.refl _
  | cons l ls ih =>
    rw [linesRead]
    split_ifs
    · exact List.Sublist.cons₂ _ (List.nil_sublist _)
    · exact List.Sublist.cons₂ _ (ih _)

theorem scanLines_name (st : ParseState) (ls : List Str) :
    (scanLines st ls).name =
      if st.name = [] then
        (((linesRead st.inDetails ls).filterMap headingName).head?).getD []
      else st.name := by
  induction ls generalizing st with
  | nil => simp [scanLines, linesRead, ite_nil_self]
  | cons l ls ih =>
    obtain ⟨hb, hd, _, _, hn⟩ := parseLine_spec st l
    rw [scanLines_cons, linesRead, hb]
    by_cases hs : st.name = []
    · rw [if_pos hs]
      split_ifs with hc
      · have hR : HasPrefix l "---".toList = true := by
          cases hi : st.inDetails <;> simp_all
        have hH := (rule_excl l hR).1
        have hh : headingName l = none := by
          unfold headingName
          rw [if_neg]
          intro h
          rw [hH] at h
          exact Bool.false_ne_true h.1
        rw [hn, if_neg (fun h => by rw [hH] at h; exact Bool.false_ne_true h.1), hs,
          filterMap_cons_toList, hh]
        rfl
      · rw [ih, hd, filterMap_cons_toList]
        by_cases hH : HasPrefix l "# ".toList = true
        · by_cases hT : TrimPrefix l "# ".toList = []
          · have hh : headingName l = none := by
              unfold headingName
              rw [if_neg (fun h => h.2 hT)]
            have hn' : (parseLine st l).1.name = [] := by
              rw [hn, if_pos ⟨hH, hs⟩, hT]
            rw [hn', if_pos rfl, hh]
            rfl
          · have hh : headingName l = some (TrimPrefix l "# ".toList) := by
              unfold headingName
              rw [if_pos ⟨hH, hT⟩]
            have hn' : (parseLine st l).1.name = TrimPrefix l "# ".toList := by
              rw [hn, if_pos ⟨hH, hs⟩]
            rw [hn', if_neg hT, hh]
            rfl
        · have hh : headingName l = none := by
            unfold headingName
            rw [if_neg (fun h => hH h.1)]
          have hn' : (parseLine st l).1.name = [] := by
            rw [hn, if_neg (fun h => hH h.1), hs]
          rw [hn', if_pos rfl, hh]
          rfl
    · have hn' : (parseLine st l).1.name = st.name := by
        rw [hn, if_neg (fun h => hs h.2)]
      rw [if_neg hs]
      split_ifs
      · exact hn'
      · rw [ih, if_neg (by rw [hn']; exact hs), hn']

theorem buildResource_none_iff (tbl : Char → Char) (st : ParseState) :
    buildResource tbl st = none ↔ st.name = [] ∨ st.url = [] := by
  unfold buildResource
  split_ifs with h
  · simp [h]
  · simp [h]

theorem buildResource_some (tbl : Char → Char) (st : ParseState) (r : Resource)
    (h : buildResource tbl st = some r) :
    st.name ≠ [] ∧ st.url ≠ [] ∧ r.Name = st.name ∧ r.URL = st.url ∧ r.URLs = st.urls ∧
    r.CategoryName = st.categoryName ∧ r.SubcategoryName = st.subcategoryName ∧
    r.CategorySlug = slugify tbl st.categoryName ∧
    r.SubcategorySlug = slugify tbl st.subcategoryName ∧ r.Slug = slugify tbl st.name := by
  unfold buildResource at h
  split_ifs at h with hc
  simp only [Option.some.injEq] at h
  subst h
  exact ⟨fun h => hc (Or.inl h), fun h => hc (Or.inr h), rfl, rfl, rfl, rfl, rfl, rfl, rfl, rfl⟩

theorem parseResourceFile_text (tbl : Char → Char) (lines : List Str) :
    parseResourceFile tbl (.text lines false) =
      .ok (buildResource tbl (scanLines ParseState.init lines)) := rfl

theorem scan_init_urls (lines : List Str) :
    (scanLines ParseState.init lines).urls = (linesRead false lines).filterMap websiteLink := by
  rw [scanLines_urls]
  rfl

theorem scan_init_name (lines : List Str) :
    (scanLines ParseState.init lines).name =
      (((linesRead false lines).filterMap headingName).head?).getD [] := by
  rw [scanLines_name]
  rfl

/-! ## Claims on `parseResourceFile` -/

/-- C7: for a readable document `parseResourceFile` never reports an error, and it
returns no resource exactly when the parsed name is empty (no line read is a `# `
heading with text after it) or no link was parsed (no line read is a
`**Website:**` line containing a markup link); so a document without a `# ` line,
or without a `**Website:**` line containing a link, yields no resource, and every
resource returned has a non-empty `Name` and a non-empty `URLs`. -/
theorem C7_no_resource_iff (tbl : Char → Char) (lines : List Str) :
    (∃ o, parseResourceFile tbl (.text lines false) = .ok o) ∧
    (parseResourceFile tbl (.text lines false) = .ok none ↔
      (scanLines ParseState.init lines).name = [] ∨
      (scanLines ParseState.init lines).urls = []) ∧
    (scanLines ParseState.init lines).name =
      (((linesRead false lines).filterMap headingName).head?).getD [] ∧
    (scanLines ParseState.init lines).urls = (linesRead false lines).filterMap websiteLink ∧
    ((∀ l ∈ lines, HasPrefix l "# ".toList = false) →
      parseResourceFile tbl (.text lines false) = .ok none) ∧
    ((∀ l ∈ lines, HasPrefix l "**Website:**".toList = true → findLink l = none) →
      parseResourceFile tbl (.text lines false) = .ok none) ∧
    (∀ r, parseResourceFile tbl (.text lines false) = .ok (some r) →
      r.Name ≠ [] ∧ r.URLs ≠ []) := by
  have hok := scanLines_linksOk ParseState.init lines linksOk_init
  have hiff := url_nil_iff_urls_nil _ hok
  have hmain : parseResourceFile tbl (.text lines false) = .ok none ↔
      (scanLines ParseState.init lines).name = [] ∨
      (scanLines ParseState.init lines).urls = [] := by
    rw [parseResourceFile_text, ← hiff, ← buildResource_none_iff tbl]
    constructor
    · intro h; injection h
    · intro h; rw [h]
  refine ⟨⟨_, parseResourceFile_text tbl lines⟩, hmain, scan_init_name lines,
    scan_init_urls lines, ?_, ?_, ?_⟩
  · intro h
    exact hmain.mpr (Or.inl (by
      rw [scanLines_name_of_no_heading _ _ h]; rfl))
  · intro h
    refine hmain.mpr (Or.inr ?_)
    rw [scan_init_urls, List.filterMap_eq_nil_iff]
    intro l hl
    have hl' : l ∈ lines := (linesRead_sublist false lines).subset hl
    unfold websiteLink
    split_ifs with hw
    · rw [h l hl' hw]; rfl
    · rfl
  · intro r hr
    rw [parseResourceFile_text] at hr
    injection hr with hr
    obtain ⟨h1, h2, h3, _, h5, _⟩ := buildResource_some tbl _ r hr
    refine ⟨by rw [h3]; exact h1, ?_⟩
    rw [h5]
    exact fun h => h2 (hiff.mpr h)

/-- Witness for C7: a document without heading yields no resource. -/
theorem C7_no_resource_iff_witness :
    (∀ l ∈ [ "**Website:** [Site](https://a.example)".toList ],
        HasPrefix l "# ".toList = false) ∧
    parseResourceFile (fun c => c)
      (.text [ "**Website:** [Site](https://a.example)".toList ] false) = .ok none :=
  ⟨by decide, (C7_no_resource_iff (fun c => c) _).2.2.2.2.1 (by decide)⟩

/-- C8: a returned resource's `URLs` holds, in document order, one entry per
`**Website:**` line with a markup link among the lines read (up to the end of the
document or the first `---` line after the `## Details` marker), and the primary
`URL` is `URLs[0].URL`; the sample document with the two website lines
`[Site](https://a.example)` and `[Alt](https://b.example)` gives
`URL = https://a.example` and two links. -/
theorem C8_links_in_order (tbl : Char → Char) :
    (∀ (lines : List Str) (r : Resource),
      parseResourceFile tbl (.text lines false) = .ok (some r) →
        r.URLs = (linesRead false lines).filterMap websiteLink ∧
        (r.URLs.head?).map (fun u => u.URL) = some r.URL) ∧
    (∃ r, parseResourceFile tbl (.text demoDocument false) = .ok (some r) ∧
      r.URL = "https://a.example".toList ∧
      r.URLs = [{ URL := "https://a.example".toList, Label := "Site".toList },
                { URL := "https://b.example".toList, Label := "Alt".toList }] ∧
      r.URLs.length = 2) := by
  refine ⟨?_, ⟨_, rfl, rfl, rfl, rfl⟩⟩
  intro lines r hr
  rw [parseResourceFile_text] at hr
  injection hr with hr
  obtain ⟨_, h2, _, h4, h5, _⟩ := buildResource_some tbl _ r hr
  have hok := scanLines_linksOk ParseState.init lines linksOk_init
  refine ⟨by rw [h5, scan_init_urls], ?_⟩
  rw [h5, h4]
  have h1 := hok.1
  cases hs : (scanLines ParseState.init lines).urls with
  | nil =>
    rw [hs] at h1
    simp at h1
    exact absurd h1 h2
  | cons x xs =>
    rw [hs] at h1
    simp at h1
    simp [h1]

/-- Witness for C8: the sample document parses to a resource with two links. -/
theorem C8_links_in_order_witness :
    ∃ r, parseResourceFile (fun c => c) (.text demoDocument false) = .ok (some r) ∧
      r.URLs = (linesRead false demoDocument).filterMap websiteLink ∧
      (r.URLs.head?).map (fun u => u.URL) = some r.URL :=
  ⟨_, rfl, (C8_links_in_order (fun c => c)).1 demoDocument _ rfl⟩

/-! ## Lemmas on `Split` -/

theorem splitAux_skip (sep x b : Str) : splitAux sep x.length (x ++ b) = splitAux sep 0 b := by
  induction x with
  | nil => rfl
  | cons c cs ih =>
    simp only [List.length_cons, List.cons_append]
    rw [splitAux]
    exact ih

theorem split_no_sep (sep s : Str) (h : ¬ sep <:+: s) : Split s sep = [s] := by
  unfold Split
  induction s with
  | nil => rfl
  | cons c cs ih =>
    have h1 : sep.isPrefixOf (c :: cs) = false := by
      rw [Bool.eq_false_iff]
      intro hp
      exact h (List.IsPrefix.isInfix ( List.isPrefixOf_iff_prefix.mp hp))
    have h2 : ¬ sep <:+: cs := fun hi => h (hi.trans (List.suffix_cons c cs).isInfix)
    rw [splitAux, h1, ih h2]
    rfl

theorem split_first_sep (sep a b : Str) (hsep : sep ≠ [])
    (h : ¬ sep <:+: a ++ sep.dropLast) :
    Split (a ++ sep ++ b) sep = a :: Split b sep := by
  unfold Split
  induction a with
  | nil =>
    obtain ⟨c, sep', rfl⟩ := List.exists_cons_of_ne_nil hsep
    have hp : (c :: sep').isPrefixOf (c :: (sep' ++ b)) = true :=
      List.isPrefixOf_iff_prefix.mpr ⟨b, rfl⟩
    simp only [List.nil_append, List.cons_append]
    rw [splitAux, hp]
    simp only [if_true, List.length_cons, Nat.add_sub_cancel]
    rw [splitAux_skip]
  | cons x a' ih =>
    have h1 : sep.isPrefixOf (x :: (a' ++ sep ++ b)) = false := by
      rw [Bool.eq_false_iff]
      intro hp
      have hp1 : sep <+: (x :: a') ++ sep ++ b := by
        simpa using List.isPrefixOf_iff_prefix.mp hp
      have hp2 : (x :: a') ++ sep.dropLast <+: (x :: a') ++ sep ++ b := by
        rw [List.append_assoc]
        exact (List.prefix_append_right_inj _).mpr
          (List.IsPrefix.trans ( List.dropLast_prefix sep) ( List.prefix_append _ _))
      have hlen : sep.length ≤ ((x :: a') ++ sep.dropLast).length := by
        simp only [List.length_append, List.length_cons, List.length_dropLast]
        have : 0 < sep.length := List.length_pos.mpr hsep
        omega
      exact h (List.prefix_of_prefix_length_le hp1 hp2 hlen).isInfix
    have h2 : ¬ sep <:+: a' ++ sep.dropLast := fun hi =>
      h (hi.trans (List.suffix_cons x _).isInfix)
    simp only [List.cons_append]
    rw [splitAux, h1]
    simp only [List.append_assoc] at ih ⊢
    rw [ih h2]
    rfl

theorem trimSpace_idem (s : Str) : TrimSpace (TrimSpace s) = TrimSpace s := by
  unfold TrimSpace
  exact trimFunc_eq_self _ _ (trimFunc_head_not _ _) (trimFunc_getLast_not _ _)

theorem parseLine_category (st : ParseState) (v : Str) :
    (parseLine st ("**Category:**".toList ++ v)).1 =
      parseCategory st ("**Category:**".toList ++ v) := by
  have hC : HasPrefix ("**Category:**".toList ++ v) "**Category:**".toList = true :=
    (hasPrefix_iff _ _).mpr ⟨v, rfl⟩
  obtain ⟨h1, h2, _, _⟩ := category_excl _ hC
  unfold parseLine
  simp only [h1, h2, hC, Bool.false_and, Bool.false_eq_true, if_false, if_true]

theorem trimPrefix_category (v : Str) :
    TrimPrefix ("**Category:**".toList ++ v) "**Category:**".toList = v := by
  have hC : HasPrefix ("**Category:**".toList ++ v) "**Category:**".toList = true :=
    (hasPrefix_iff _ _).mpr ⟨v, rfl⟩
  unfold TrimPrefix
  rw [if_pos hC]
  rfl

/-! ## Claim on the category line -/

/-- C9 (as stated, refuted): a category line whose `>` is not surrounded by spaces
is not split; `**Category:** Tools>Trackers` yields the category slug
`tools-trackers` and an empty subcategory slug, not `tools` and `trackers`. -/
theorem C9_tight_separator_not_split :
    ∃ r, parseResourceFile (fun c => c) (.text demoDocumentTight false) = .ok (some r) ∧
      r.CategoryName = "Tools>Trackers".toList ∧ r.SubcategoryName = [] ∧
      r.CategorySlug = "tools-trackers".toList ∧ r.SubcategorySlug = [] ∧
      r.CategorySlug ≠ "tools".toList ∧ r.SubcategorySlug ≠ "trackers".toList :=
  ⟨_, rfl, rfl, rfl, rfl, rfl, by decide, by decide⟩

/-- C9 (amended): a `**Category:**` line is split on the three-character separator
space, `>`, space. When the trimmed value is `a ++ " > " ++ b` with that the first
occurrence of the separator, the category name is `a` trimmed, and the subcategory
name is, trimmed, `b` (no further separator in `b`) or the part of `b` before its
first separator. When the trimmed value holds no separator, a `>` without spaces
included, the category name is the whole trimmed value and the subcategory name is
left as it was. So `**Category:** Tools > Trackers` yields the slugs `tools` and
`trackers`. -/
theorem C9_category_split (tbl : Char → Char) :
    (∀ (st : ParseState) (v a b : Str),
      TrimSpace v = a ++ " > ".toList ++ b →
      ¬ " > ".toList <:+: a ++ " >".toList → ¬ " > ".toList <:+: b →
      (parseLine st ("**Category:**".toList ++ v)).1.categoryName = TrimSpace a ∧
      (parseLine st ("**Category:**".toList ++ v)).1.subcategoryName = TrimSpace b) ∧
    (∀ (st : ParseState) (v a b c : Str),
      TrimSpace v = a ++ " > ".toList ++ (b ++ " > ".toList ++ c) →
      ¬ " > ".toList <:+: a ++ " >".toList → ¬ " > ".toList <:+: b ++ " >".toList →
      (parseLine st ("**Category:**".toList ++ v)).1.categoryName = TrimSpace a ∧
      (parseLine st ("**Category:**".toList ++ v)).1.subcategoryName = TrimSpace b) ∧
    (∀ (st : ParseState) (v : Str),
      ¬ " > ".toList <:+: TrimSpace v →
      (parseLine st ("**Category:**".toList ++ v)).1.categoryName = TrimSpace v ∧
      (parseLine st ("**Category:**".toList ++ v)).1.subcategoryName = st.subcategoryName) ∧
    (∃ r, parseResourceFile tbl (.text demoDocument false) = .ok (some r) ∧
      r.CategorySlug = "tools".toList ∧ r.SubcategorySlug = "trackers".toList) := by
  have hsep : " > ".toList ≠ [] := by decide
  refine ⟨?_, ?_, ?_, ⟨_, rfl, rfl, rfl⟩⟩
  · intro st v a b hv ha hb
    rw [parseLine_category]
    unfold parseCategory
    simp only [trimPrefix_category, hv]
    rw [split_first_sep _ a b hsep ha, split_no_sep _ b hb]
    exact ⟨rfl, rfl⟩
  · intro st v a b c hv ha hb
    rw [parseLine_category]
    unfold parseCategory
    simp only [trimPrefix_category, hv]
    rw [split_first_sep _ a _ hsep ha, split_first_sep _ b c hsep hb]
    exact ⟨rfl, rfl⟩
  · intro st v hv
    rw [parseLine_category]
    unfold parseCategory
    simp only [trimPrefix_category]
    rw [split_no_sep _ _ hv]
    exact ⟨trimSpace_idem v, rfl⟩

/-- Witness for C9: the value ` Tools > Trackers` splits into `Tools` and
`Trackers`. -/
theorem C9_category_split_witness :
    TrimSpace " Tools > Trackers".toList = "Tools".toList ++ " > ".toList ++ "Trackers".toList ∧
    ¬ " > ".toList <:+: "Tools".toList ++ " >".toList ∧
    ¬ " > ".toList <:+: "Trackers".toList ∧
    (parseLine ParseState.init ("**Category:**".toList ++ " Tools > Trackers".toList)).1.categoryName
      = TrimSpace "Tools".toList ∧
    (parseLine ParseState.init
      ("**Category:**".toList ++ " Tools > Trackers".toList)).1.subcategoryName
      = TrimSpace "Trackers".toList :=
  ⟨by decide, by decide, by decide,
    (C9_category_split (fun c => c)).1 ParseState.init " Tools > Trackers".toList
      "Tools".toList "Trackers".toList (by decide) (by decide) (by decide)⟩

/-! ## Lemmas on Go maps -/

theorem mapGet_none_iff {V : Type} (m : GoMap V) (k : Str) :
    mapGet m k = none ↔ k ∉ mapKeys m := by
  induction m with
  | nil => simp [mapGet, mapKeys]
  | cons e m ih =>
    obtain ⟨k', v⟩ := e
    unfold mapGet
    by_cases h : k' = k
    · rw [if_pos h]
      constructor
      · intro h'; exact Option.noConfusion h'
      · intro h'
        exact absurd (List.mem_map.mpr ⟨(k', v), List.mem_cons_self _ _, h⟩) h'
    · rw [if_neg h, ih]
      simp only [mapKeys, List.map_cons, List.mem_cons, not_or]
      exact ⟨fun hm => ⟨fun hk => h hk.symm, hm⟩, fun hm => hm.2⟩

theorem mapGet_some_split {V : Type} (m : GoMap V) (k : Str) (v : V) (h : mapGet m k = some v) :
    ∃ l1 l2, m = l1 ++ (k, v) :: l2 ∧ k ∉ mapKeys l1 := by
  induction m with
  | nil => simp [mapGet] at h
  | cons e m ih =>
    obtain ⟨k', v'⟩ := e
    unfold mapGet at h
    by_cases hk : k' = k
    · simp only [hk, if_true, Option.some.injEq] at h
      subst hk; subst h
      exact ⟨[], m, rfl, by simp [mapKeys]⟩
    · simp only [hk, if_false] at h
      obtain ⟨l1, l2, hm, hn⟩ := ih h
      refine ⟨(k', v') :: l1, l2, by rw [hm]; rfl, ?_⟩
      simp only [mapKeys, List.map_cons, List.mem_cons, not_or]
      exact ⟨fun h' => hk h'.symm, hn⟩

theorem mapGet_some_mem {V : Type} (m : GoMap V) (k : Str) (v : V) (h : mapGet m k = some v) :
    (k, v) ∈ m := by
  obtain ⟨l1, l2, hm, _⟩ := mapGet_some_split m k v h
  rw [hm]; simp

theorem mapGet_append_of_not_mem {V : Type} (l1 l2 : GoMap V) (k : Str) (h : k ∉ mapKeys l1) :
    mapGet (l1 ++ l2) k = mapGet l2 k := by
  induction l1 with
  | nil => rfl
  | cons e l1 ih =>
    obtain ⟨k', v'⟩ := e
    simp only [mapKeys, List.map_cons, List.mem_cons, not_or] at h
    show mapGet ((k', v') :: (l1 ++ l2)) k = mapGet l2 k
    rw [mapGet, if_neg (fun h' => h.1 h'.symm)]
    exact ih h.2

theorem mapSet_append_of_not_mem {V : Type} (l1 l2 : GoMap V) (k : Str) (v : V)
    (h : k ∉ mapKeys l1) : mapSet (l1 ++ l2) k v = l1 ++ mapSet l2 k v := by
  induction l1 with
  | nil => rfl
  | cons e l1 ih =>
    obtain ⟨k', v'⟩ := e
    simp only [mapKeys, List.map_cons, List.mem_cons, not_or] at h
    show mapSet ((k', v') :: (l1 ++ l2)) k v = (k', v') :: (l1 ++ mapSet l2 k v)
    rw [mapSet, if_neg (fun h' => h.1 h'.symm), ih h.2]

theorem mapSet_of_not_mem {V : Type} (m : GoMap V) (k : Str) (v : V) (h : k ∉ mapKeys m) :
    mapSet m k v = m ++ [(k, v)] := by
  have := mapSet_append_of_not_mem m [] k v h
  simpa [mapSet] using this

theorem mapGet_of_mem_nodup {V : Type} (m : GoMap V) (k : Str) (v : V)
    (hn : (mapKeys m).Nodup) (h : (k, v) ∈ m) : mapGet m k = some v := by
  induction m with
  | nil => simp at h
  | cons e m ih =>
    obtain ⟨k', v'⟩ := e
    simp only [mapKeys, List.map_cons, List.nodup_cons] at hn
    unfold mapGet
    rcases List.mem_cons.mp h with h | h
    · cases h; simp
    · have hk : k' ≠ k := by
        intro hk
        apply hn.1
        rw [hk]
        exact List.mem_map.mpr ⟨(k, v), h, rfl⟩
      rw [if_neg hk]
      exact ih hn.2 h

/-- The two ways `mapUpsert` acts: on a missing key the entry `(k, f init)` is
added at the end, on a present key its value `v` is replaced by `f v` in place. -/
theorem mapUpsert_cases {V : Type} (m : GoMap V) (k : Str) (init : V) (f : V → V) :
    (k ∉ mapKeys m ∧ mapUpsert m k init f = m ++ [(k, f init)]) ∨
    (∃ l1 v l2, m = l1 ++ (k, v) :: l2 ∧ k ∉ mapKeys l1 ∧
      mapUpsert m k init f = l1 ++ (k, f v) :: l2) := by
  unfold mapUpsert
  cases hg : mapGet m k with
  | none =>
    left
    have hk := (mapGet_none_iff m k).mp hg
    refine ⟨hk, ?_⟩
    simp only [Option.isNone_none, if_true]
    rw [mapSet_of_not_mem m k init hk, mapGet_append_of_not_mem m _ k hk]
    simp only [mapGet, if_true]
    rw [mapSet_append_of_not_mem m _ k _ hk]
    simp [mapSet]
  | some v =>
    right
    obtain ⟨l1, l2, hm, hn⟩ := mapGet_some_split m k v hg
    refine ⟨l1, v, l2, hm, hn, ?_⟩
    simp only [Option.isNone_some, Bool.false_eq_true, if_false, hg]
    rw [hm, mapSet_append_of_not_mem l1 _ k _ hn]
    simp [mapSet]

theorem mapGet_mapSet_self {V : Type} (m : GoMap V) (k : Str) (v : V) :
    mapGet (mapSet m k v) k = some v := by
  induction m with
  | nil => simp [mapSet, mapGet]
  | cons e m ih =>
    obtain ⟨k', v'⟩ := e
    unfold mapSet
    by_cases h : k' = k
    · rw [if_pos h]; simp [mapGet]
    · rw [if_neg h, mapGet, if_neg h]; exact ih

theorem mapKeys_append {V : Type} (l1 l2 : GoMap V) :
    mapKeys (l1 ++ l2) = mapKeys l1 ++ mapKeys l2 := by
  simp [mapKeys]

theorem mapUpsert_keys {V : Type} (m : GoMap V) (k : Str) (init : V) (f : V → V) :
    mapKeys (mapUpsert m k init f) = if k ∈ mapKeys m then mapKeys m else mapKeys m ++ [k] := by
  rcases mapUpsert_cases m k init f with ⟨hk, h⟩ | ⟨l1, v, l2, hm, _, h⟩
  · rw [h, if_neg hk, mapKeys_append]; rfl
  · have hk : k ∈ mapKeys m := by
      rw [hm, mapKeys_append]
      exact List.mem_append_right _ (List.mem_cons_self _ _)
    rw [h, if_pos hk, hm, mapKeys_append, mapKeys_append]
    rfl

theorem mapUpsert_nodup {V : Type} (m : GoMap V) (k : Str) (init : V) (f : V → V)
    (h : (mapKeys m).Nodup) : (mapKeys (mapUpsert m k init f)).Nodup := by
  rw [mapUpsert_keys]
  split_ifs with hk
  · exact h
  · exact List.Nodup.append h (List.nodup_singleton k) (by simpa using hk)

theorem mapUpsert_forall {V : Type} (m : GoMap V) (k : Str) (init : V) (f : V → V)
    (P : Str × V → Prop) (hm : ∀ e ∈ m, P e) (hinit : k ∉ mapKeys m → P (k, f init))
    (hf : ∀ v, (k, v) ∈ m → P (k, f v)) :
    ∀ e ∈ mapUpsert m k init f, P e := by
  rcases mapUpsert_cases m k init f with ⟨hk, h⟩ | ⟨l1, v, l2, hm', _, h⟩
  · rw [h]
    intro e he
    rcases List.mem_append.mp he with he | he
    · exact hm e he
    · rw [List.mem_singleton.mp he]; exact hinit hk
  · rw [h]
    intro e he
    rcases List.mem_append.mp he with he | he
    · exact hm e (by rw [hm']; exact List.mem_append_left _ he)
    · rcases List.mem_cons.mp he with he | he
      · rw [he]
        exact hf v (by rw [hm']; simp)
      · exact hm e (by rw [hm']; simp [he])

theorem mapUpsert_flatMap_perm {V R : Type} (m : GoMap V) (k : Str) (init : V) (f : V → V)
    (h : Str × V → List R) (x : List R) (hinit : h (k, f init) = x)
    (hf : ∀ v, (h (k, f v)).Perm (h (k, v) ++ x)) :
    ((mapUpsert m k init f).flatMap h).Perm (m.flatMap h ++ x) := by
  rcases mapUpsert_cases m k init f with ⟨_, hu⟩ | ⟨l1, v, l2, hm, _, hu⟩
  · rw [hu, List.flatMap_append]
    simp [hinit]
  · rw [hu, hm]
    simp only [List.flatMap_append, List.flatMap_cons, List.append_assoc]
    refine List.Perm.append_left _ ?_
    refine ((hf v).append_right _).trans ?_
    rw [List.append_assoc]
    exact List.Perm.append_left _ List.perm_append_comm

/-! ## Lemmas on `addResource` -/

theorem withDefaults_slugs (r : Resource) :
    (withDefaults r).CategorySlug ≠ [] ∧ (withDefaults r).SubcategorySlug ≠ [] := by
  unfold withDefaults
  by_cases h1 : r.CategorySlug = [] <;> by_cases h2 : r.SubcategorySlug = [] <;>
    simp [h1, h2]

/-- The walk callback's work on a parsed resource, in terms of the resource with
its defaults applied. -/
theorem addResource_eq (st : BuildState) (r : Resource) :
    addResource st r =
      { totalResources := st.totalResources + 1,
        categoryDescriptions := st.categoryDescriptions,
        categoryMap :=
          if (mapGet st.categoryMap (withDefaults r).CategorySlug).isNone then
            mapSet st.categoryMap (withDefaults r).CategorySlug
              { Name := (withDefaults r).CategoryName, Slug := (withDefaults r).CategorySlug,
                Description := [], Subcategories := [] }
          else st.categoryMap,
        subcategoryMap :=
          mapSet
            (if (mapGet st.categoryMap (withDefaults r).CategorySlug).isNone then
              mapSet st.subcategoryMap (withDefaults r).CategorySlug []
             else st.subcategoryMap)
            (withDefaults r).CategorySlug
            (mapUpsert
              ((mapGet
                (if (mapGet st.categoryMap (withDefaults r).CategorySlug).isNone then
                  mapSet st.subcategoryMap (withDefaults r).CategorySlug []
                 else st.subcategoryMap) (withDefaults r).CategorySlug).getD [])
              (withDefaults r).SubcategorySlug
              { Name := (withDefaults r).SubcategoryName,
                Slug := (withDefaults r).SubcategorySlug, Resources := [] }
              (fun s => { s with Resources := s.Resources ++ [withDefaults r] })) } := by
  unfold addResource withDefaults mapUpsert
  by_cases h1 : r.CategorySlug = [] <;> by_cases h2 : r.SubcategorySlug = []
  · simp only [h1, h2, if_true]
    split_ifs <;> (congr 1; split <;> split <;> simp_all)
  · simp only [h1, h2, if_true, if_false]
    split_ifs <;> (congr 1; split <;> split <;> simp_all)
  · simp only [h1, h2, if_true, if_false]
    split_ifs <;> (congr 1; split <;> split <;> simp_all)
  · simp only [h1, h2, if_false]
    split_ifs <;> (congr 1; split <;> split <;> simp_all)

theorem mapUpsert_nil {V : Type} (k : Str) (init : V) (f : V → V) :
    mapUpsert ([] : GoMap V) k init f = [(k, f init)] := by
  simp [mapUpsert, mapGet, mapSet]

theorem mapSet_getD_eq_upsert {V : Type} (m : GoMap V) (k : Str) (init d : V) (g : V → V) :
    mapSet (if (mapGet m k).isNone then mapSet m k init else m) k
      (g ((mapGet (if (mapGet m k).isNone then mapSet m k init else m) k).getD d)) =
    mapUpsert m k init g := by
  unfold mapUpsert
  cases hg : mapGet m k with
  | none => simp [mapGet_mapSet_self]
  | some v => simp [hg]

theorem addResource_subcategoryMap (st : BuildState) (r : Resource)
    (hk : mapKeys st.categoryMap = mapKeys st.subcategoryMap) :
    (addResource st r).subcategoryMap =
      mapUpsert st.subcategoryMap (withDefaults r).CategorySlug []
        (fun inner => mapUpsert inner (withDefaults r).SubcategorySlug
          { Name := (withDefaults r).SubcategoryName,
            Slug := (withDefaults r).SubcategorySlug, Resources := [] }
          (fun s => { s with Resources := s.Resources ++ [withDefaults r] })) := by
  rw [addResource_eq]
  have hnone : (mapGet st.categoryMap (withDefaults r).CategorySlug).isNone =
      (mapGet st.subcategoryMap (withDefaults r).CategorySlug).isNone := by
    rw [Bool.eq_iff_iff, Option.isNone_iff_eq_none, Option.isNone_iff_eq_none,
      mapGet_none_iff, mapGet_none_iff, hk]
  simp only [hnone]
  exact mapSet_getD_eq_upsert st.subcategoryMap (withDefaults r).CategorySlug [] []
    (fun inner => mapUpsert inner (withDefaults r).SubcategorySlug
      { Name := (withDefaults r).SubcategoryName,
        Slug := (withDefaults r).SubcategorySlug, Resources := [] }
      (fun s => { s with Resources := s.Resources ++ [withDefaults r] }))

theorem addResource_categoryMap (st : BuildState) (r : Resource) :
    (addResource st r).categoryMap =
      if (withDefaults r).CategorySlug ∈ mapKeys st.categoryMap then st.categoryMap
      else st.categoryMap ++
        [((withDefaults r).CategorySlug,
          { Name := (withDefaults r).CategoryName, Slug := (withDefaults r).CategorySlug,
            Description := [], Subcategories := [] })] := by
  rw [addResource_eq]
  by_cases h : (withDefaults r).CategorySlug ∈ mapKeys st.categoryMap
  · have hg : (mapGet st.categoryMap (withDefaults r).CategorySlug).isNone = false := by
      rw [Bool.eq_false_iff, Ne, Option.isNone_iff_eq_none, mapGet_none_iff]
      exact fun h' => h' h
    simp only [hg, if_pos h, Bool.false_eq_true, if_false]
  · have hg : (mapGet st.categoryMap (withDefaults r).CategorySlug).isNone = true := by
      rw [Option.isNone_iff_eq_none, mapGet_none_iff]
      exact h
    simp only [hg, if_neg h, if_true]
    exact mapSet_of_not_mem _ _ _ h

theorem addResource_inv (st : BuildState) (r : Resource) (h : BuildInv st) :
    BuildInv (addResource st r) := by
  have hsm := addResource_subcategoryMap st r h.keys_eq
  have hcm := addResource_categoryMap st r
  constructor
  · rw [hsm, hcm, mapUpsert_keys, ← h.keys_eq]
    split_ifs
    · rfl
    · rw [mapKeys_append]; rfl
  · rw [hsm]
    exact mapUpsert_nodup _ _ _ _ h.keys_nodup
  · rw [hsm]
    apply mapUpsert_forall _ _ _ _ (fun e => (mapKeys e.2).Nodup) h.inner_nodup
    · intro _
      exact mapUpsert_nodup _ _ _ _ List.nodup_nil
    · intro v hv
      exact mapUpsert_nodup _ _ _ _ (h.inner_nodup _ hv)
  · rw [hcm]
    split_ifs
    · exact h.cat_slug
    · intro e he
      rcases List.mem_append.mp he with he | he
      · exact h.cat_slug e he
      · rw [List.mem_singleton.mp he]
  · rw [hsm]
    obtain ⟨hd1, hd2⟩ := withDefaults_slugs r
    apply mapUpsert_forall _ _ _ _
      (fun (e : Str × GoMap Subcategory) => ∀ s ∈ e.2, s.2.Slug = s.1 ∧
        ∀ r ∈ s.2.Resources, r.CategorySlug = e.1 ∧ r.SubcategorySlug = s.1 ∧
          r.CategorySlug ≠ [] ∧ r.SubcategorySlug ≠ []) h.sub_slug
    · intro _ s hs
      rw [mapUpsert_nil] at hs
      rw [List.mem_singleton.mp hs]
      refine ⟨rfl, ?_⟩
      intro r' hr'
      have : r' = withDefaults r := by simpa using hr'
      rw [this]
      exact ⟨rfl, rfl, hd1, hd2⟩
    · intro v hv
      apply mapUpsert_forall _ _ _ _
        (fun (s : Str × Subcategory) => s.2.Slug = s.1 ∧
          ∀ r' ∈ s.2.Resources, r'.CategorySlug = (withDefaults r).CategorySlug ∧
            r'.SubcategorySlug = s.1 ∧ r'.CategorySlug ≠ [] ∧ r'.SubcategorySlug ≠ [])
        (h.sub_slug _ hv)
      · intro _
        refine ⟨rfl, ?_⟩
        intro r' hr'
        have : r' = withDefaults r := by simpa using hr'
        rw [this]
        exact ⟨rfl, rfl, hd1, hd2⟩
      · intro s hs
        obtain ⟨h1, h2⟩ := h.sub_slug _ hv _ hs
        refine ⟨h1, ?_⟩
        intro r' hr'
        rcases List.mem_append.mp hr' with hr' | hr'
        · exact h2 r' hr'
        · rw [List.mem_singleton.mp hr']
          exact ⟨rfl, rfl, hd1, hd2⟩

theorem addResource_resources (st : BuildState) (r : Resource) (h : BuildInv st) :
    (stateResources (addResource st r)).Perm (stateResources st ++ [withDefaults r]) := by
  unfold stateResources
  rw [addResource_subcategoryMap st r h.keys_eq]
  refine mapUpsert_flatMap_perm _ _ _ _
    (fun (e : Str × GoMap Subcategory) => e.2.flatMap (fun s => s.2.Resources))
    [withDefaults r] ?_ ?_
  · rw [mapUpsert_nil]
    simp
  · intro v
    exact mapUpsert_flatMap_perm _ _ _ _ (fun (s : Str × Subcategory) => s.2.Resources)
      [withDefaults r] (by simp) (fun s => List.Perm.refl _)

theorem addResource_total (st : BuildState) (r : Resource) :
    (addResource st r).totalResources = st.totalResources + 1 := by
  rw [addResource_eq]

theorem buildInv_init : BuildInv BuildState.init :=
  { keys_eq := rfl
    keys_nodup := List.nodup_nil
    inner_nodup := fun e he => absurd he (List.not_mem_nil e)
    cat_slug := fun e he => absurd he (List.not_mem_nil e)
    sub_slug := fun e he => absurd he (List.not_mem_nil e) }

/-! ## Lemmas on the walk -/

/-- The effect of one callback call that does not fail. -/
theorem visit_ok (tbl : Char → Char) (st st' : BuildState) (e : WalkEntry)
    (hv : visit tbl st e = .ok st') (h : BuildInv st) :
    BuildInv st' ∧
    st'.totalResources = st.totalResources + (parsedOf tbl e).toList.length ∧
    (stateResources st').Perm (stateResources st ++ (parsedOf tbl e).toList.map withDefaults) := by
  unfold visit at hv
  unfold parsedOf isResourceDocument
  by_cases hE : e.walkErr = true
  · rw [if_pos hE] at hv
    cases hv
  rw [if_neg hE] at hv
  by_cases hS : (e.isDir || !HasSuffix e.path ".md".toList) = true
  · rw [if_pos hS] at hv
    cases hv
    have : (!e.isDir && HasSuffix e.path ".md".toList) = false := by
      cases hd : e.isDir <;> simp_all
    simp only [this, Bool.false_and, Bool.false_eq_true, if_false]
    exact ⟨h, rfl, by simp⟩
  rw [if_neg hS] at hv
  by_cases hC : HasSuffix e.path "_category.md".toList = true
  · rw [if_pos hC] at hv
    simp only [hC, Bool.not_true, Bool.and_false, Bool.false_eq_true, if_false]
    dsimp only at hv
    split_ifs at hv
    · cases hv
      exact ⟨⟨h.keys_eq, h.keys_nodup, h.inner_nodup, h.cat_slug, h.sub_slug⟩, rfl,
        by simp [stateResources]⟩
    · cases hv
      exact ⟨h, rfl, by simp⟩
  rw [if_neg hC] at hv
  have hdoc : (!e.isDir && HasSuffix e.path ".md".toList &&
      !HasSuffix e.path "_category.md".toList) = true := by
    cases hd : e.isDir <;> simp_all
  simp only [hdoc, if_true]
  cases hp : parseResourceFile tbl e.content with
  | error err =>
    simp only [hp] at hv
    cases hv
    exact ⟨h, rfl, by simp⟩
  | ok o =>
    cases o with
    | none =>
      simp only [hp] at hv
      cases hv
      exact ⟨h, rfl, by simp⟩
    | some r =>
      simp only [hp] at hv
      cases hv
      exact ⟨addResource_inv st r h, addResource_total st r, addResource_resources st r h⟩

/-- The state after a walk that did not fail: the invariant holds, the count is the
number of parsed resources and the maps hold exactly the parsed resources, with the
defaults applied. -/
theorem walk_ok (tbl : Char → Char) (entries : List WalkEntry) (st st' : BuildState)
    (hw : walk tbl st entries = .ok st') (h : BuildInv st) :
    BuildInv st' ∧
    st'.totalResources = st.totalResources + (parsedResources tbl entries).length ∧
    (stateResources st').Perm
      (stateResources st ++ (parsedResources tbl entries).map withDefaults) := by
  induction entries generalizing st with
  | nil =>
    cases hw
    exact ⟨h, rfl, by simp [parsedResources]⟩
  | cons e es ih =>
    unfold walk at hw
    cases hv : visit tbl st e with
    | error err => simp [hv] at hw
    | ok st1 =>
      simp only [hv] at hw
      obtain ⟨i1, t1, p1⟩ := visit_ok tbl st st1 e hv h
      obtain ⟨i2, t2, p2⟩ := ih st1 hw i1
      have hp : parsedResources tbl (e :: es) =
          (parsedOf tbl e).toList ++ parsedResources tbl es :=
        filterMap_cons_toList _ _ _
      refine ⟨i2, ?_, ?_⟩
      · rw [t2, t1, hp, List.length_append]
        omega
      · refine p2.trans ?_
        rw [hp, List.map_append, ← List.append_assoc]
        exact p1.append_right _

/-! ## Lemmas on string comparison -/

theorem char_eq_of_toNat (a b : Char) (h : a.toNat = b.toNat) : a = b := by
  apply Char.ext
  cases ha : a.val with
  | mk va =>
    cases hb : b.val with
    | mk vb =>
      have : va = vb :=
        BitVec.eq_of_toNat_eq (by simpa [Char.toNat, UInt32.toNat, ha, hb] using h)
      rw [this]

theorem strLt_cons (a b : Char) (as bs : Str) :
    strLt (a :: as) (b :: bs) = true ↔ a.toNat < b.toNat ∨ (a = b ∧ strLt as bs = true) := by
  simp [strLt]

theorem strLt_nil_right (x : Str) : strLt x [] = false := by
  cases x <;> rfl

theorem strLt_asymm (x y : Str) (h : strLt x y = true) : strLt y x = false := by
  induction x generalizing y with
  | nil => exact strLt_nil_right y
  | cons a as ih =>
    cases y with
    | nil => simp [strLt] at h
    | cons b bs =>
      rw [Bool.eq_false_iff]
      intro h'
      rw [strLt_cons] at h h'
      rcases h with h | ⟨h1, h2⟩ <;> rcases h' with h' | ⟨h3, h4⟩
      · omega
      · rw [h3] at h; omega
      · rw [h1] at h'; omega
      · rw [ih bs h2] at h4
        exact Bool.noConfusion h4

theorem strLt_negTrans (x y z : Str) (h : strLt z x = true) :
    strLt z y = true ∨ strLt y x = true := by
  induction x generalizing y z with
  | nil => rw [strLt_nil_right] at h; exact Bool.noConfusion h
  | cons b bs ih =>
    cases y with
    | nil => right; rfl
    | cons d ds =>
      cases z with
      | nil => left; rfl
      | cons c cs =>
        rw [strLt_cons] at h
        rw [strLt_cons, strLt_cons]
        rcases h with h | ⟨h1, h2⟩
        · by_cases hcd : c.toNat < d.toNat
          · exact Or.inl (Or.inl hcd)
          · exact Or.inr (Or.inl (by omega))
        · by_cases hcd : c.toNat < d.toNat
          · exact Or.inl (Or.inl hcd)
          · by_cases hdc : d.toNat < c.toNat
            · exact Or.inr (Or.inl (by rw [← h1]; exact hdc))
            · have hcd' : c = d := char_eq_of_toNat c d (by omega)
              rcases ih ds cs h2 with h3 | h3
              · exact Or.inl (Or.inr ⟨hcd', h3⟩)
              · exact Or.inr (Or.inr ⟨by rw [← hcd', h1], h3⟩)

/-! ## Lemmas on `assemble` -/

theorem foldl_append_singleton {α β : Type} (F : α → β) (l : List α) (acc : List β) :
    l.foldl (fun acc x => acc ++ [F x]) acc = acc ++ l.map F := by
  induction l generalizing acc with
  | nil => simp
  | cons x xs ih => simp [List.foldl_cons, ih]

theorem assembleCategory_fields (rt : Runtime) (st : BuildState) (k : Str) (c : Category) :
    (assembleCategory rt st k c).Name = c.Name ∧
    (assembleCategory rt st k c).Slug = c.Slug ∧
    (assembleCategory rt st k c).Subcategories =
      rt.sortSlice (fun a b => strLt a.Name b.Name)
        ((rt.mapRange k ((mapGet st.subcategoryMap k).getD [])).map
          (fun se => assembleSubcategory rt se.2)) := by
  unfold assembleCategory
  simp only [foldl_append_singleton, List.nil_append]
  split <;> exact ⟨rfl, rfl, rfl⟩

theorem assemble_categories (rt : Runtime) (st : BuildState) :
    (assemble rt st).Categories =
      rt.sortSlice (fun a b => strLt a.Name b.Name)
        ((rt.mapRange [] st.categoryMap).map (fun e => assembleCategory rt st e.1 e.2)) := by
  unfold assemble
  simp only [foldl_append_singleton, List.nil_append]

theorem mem_assemble_categories (rt : Runtime) (hrt : rt.Lawful) (st : BuildState)
    (c : Category) (hc : c ∈ (assemble rt st).Categories) :
    ∃ e ∈ st.categoryMap, c = assembleCategory rt st e.1 e.2 := by
  rw [assemble_categories] at hc
  have h1 := ((hrt.2 Category (fun c => c.Name) _).1.mem_iff).mp hc
  obtain ⟨e, he, rfl⟩ := List.mem_map.mp h1
  exact ⟨e, ((hrt.1 Category [] st.categoryMap).mem_iff).mp he, rfl⟩

theorem mem_assembleCategory_subcategories (rt : Runtime) (hrt : rt.Lawful) (st : BuildState)
    (k : Str) (c : Category) (s : Subcategory)
    (hs : s ∈ (assembleCategory rt st k c).Subcategories) :
    ∃ se ∈ (mapGet st.subcategoryMap k).getD [], s = assembleSubcategory rt se.2 := by
  rw [(assembleCategory_fields rt st k c).2.2] at hs
  have h1 := ((hrt.2 Subcategory (fun s => s.Name) _).1.mem_iff).mp hs
  obtain ⟨se, hse, rfl⟩ := List.mem_map.mp h1
  exact ⟨se, ((hrt.1 Subcategory k _).mem_iff).mp hse, rfl⟩

theorem assembleSubcategory_resources_perm (rt : Runtime) (hrt : rt.Lawful) (s : Subcategory) :
    (assembleSubcategory rt s).Resources.Perm s.Resources :=
  (hrt.2 Resource (fun r => r.Name) s.Resources).1

theorem assembleCategory_resources_perm (rt : Runtime) (hrt : rt.Lawful) (st : BuildState)
    (k : Str) (c : Category) :
    ((assembleCategory rt st k c).Subcategories.flatMap (fun s => s.Resources)).Perm
      (((mapGet st.subcategoryMap k).getD []).flatMap (fun se => se.2.Resources)) := by
  rw [(assembleCategory_fields rt st k c).2.2]
  refine ((hrt.2 Subcategory (fun s => s.Name) _).1.flatMap_right _).trans ?_
  rw [List.flatMap_map]
  refine ((hrt.1 Subcategory k _).flatMap_right _).trans ?_
  exact List.Perm.flatMap_left _ (fun se _ => assembleSubcategory_resources_perm rt hrt se.2)

theorem flatMap_mapGet_of_keys {V W R : Type} (cm : GoMap W) (sm : GoMap V)
    (G : Option V → List R) (hk : mapKeys cm = mapKeys sm) (hn : (mapKeys sm).Nodup) :
    cm.flatMap (fun e => G (mapGet sm e.1)) = sm.flatMap (fun e => G (some e.2)) := by
  have h1 : cm.flatMap (fun e => G (mapGet sm e.1)) =
      (mapKeys cm).flatMap (fun k => G (mapGet sm k)) := by
    unfold mapKeys
    rw [List.flatMap_map]
  have h2 : sm.flatMap (fun e => G (some e.2)) =
      (mapKeys sm).flatMap (fun k => G (mapGet sm k)) := by
    unfold mapKeys
    rw [List.flatMap_map]
    apply List.flatMap_congr
    intro e he
    rw [mapGet_of_mem_nodup sm e.1 e.2 hn he]
  rw [h1, h2, hk]

/-- The resources of the assembled catalog are those held by the builder's maps. -/
theorem assemble_resources_perm (rt : Runtime) (hrt : rt.Lawful) (st : BuildState)
    (h : BuildInv st) :
    (catalogResources (assemble rt st)).Perm (stateResources st) := by
  unfold catalogResources
  rw [assemble_categories]
  refine ((hrt.2 Category (fun c => c.Name) _).1.flatMap_right _).trans ?_
  rw [List.flatMap_map]
  refine ((hrt.1 Category [] _).flatMap_right _).trans ?_
  refine (List.Perm.flatMap_left _
    (fun e _ => assembleCategory_resources_perm rt hrt st e.1 e.2)).trans ?_
  rw [flatMap_mapGet_of_keys st.categoryMap st.subcategoryMap
    (fun o => (o.getD []).flatMap (fun se => se.2.Resources)) h.keys_eq h.keys_nodup]
  exact List.Perm.refl _

theorem countResources_eq_length (data : SiteData) :
    countResources data = (catalogResources data).length := by
  unfold countResources catalogResources
  rw [List.length_flatMap]
  congr 1
  apply List.map_congr_left
  intro c _
  show _ = (c.Subcategories.flatMap (fun s => s.Resources)).length
  rw [List.length_flatMap]
  rfl

theorem parseResourcesDir_ok (rt : Runtime) (tbl : Char → Char) (entries : List WalkEntry)
    (data : SiteData) (h : ParseResourcesDir rt tbl entries = .ok data) :
    ∃ st, walk tbl BuildState.init entries = .ok st ∧ data = assemble rt st := by
  unfold ParseResourcesDir at h
  cases hw : walk tbl BuildState.init entries with
  | error err => simp [hw] at h
  | ok st =>
    simp only [hw] at h
    cases h
    exact ⟨st, rfl, rfl⟩

theorem demoRuntime_lawful : demoRuntime.Lawful := by
  refine ⟨fun _ _ m => List.Perm.refl m, ?_⟩
  intro α key l
  haveI : IsTotal α (fun a b => strLt (key b) (key a) = false) := ⟨by
    intro a b
    cases h : strLt (key b) (key a) with
    | false => exact Or.inl rfl
    | true => exact Or.inr (strLt_asymm _ _ h)⟩
  haveI : IsTrans α (fun a b => strLt (key b) (key a) = false) := ⟨by
    intro a b c hab hbc
    rw [Bool.eq_false_iff]
    intro hca
    rcases strLt_negTrans (key a) (key b) (key c) hca with h | h
    · rw [hbc] at h; exact Bool.noConfusion h
    · rw [hab] at h; exact Bool.noConfusion h⟩
  exact ⟨List.perm_insertionSort _ l, List.sorted_insertionSort _ l⟩

theorem catalog_slugs (rt : Runtime) (hrt : rt.Lawful) (st : BuildState) (h : BuildInv st)
    (c : Category) (hc : c ∈ (assemble rt st).Categories)
    (s : Subcategory) (hs : s ∈ c.Subcategories) (r : Resource) (hr : r ∈ s.Resources) :
    r.CategorySlug = c.Slug ∧ r.SubcategorySlug = s.Slug ∧
      r.CategorySlug ≠ [] ∧ r.SubcategorySlug ≠ [] := by
  obtain ⟨e, he, rfl⟩ := mem_assemble_categories rt hrt st c hc
  obtain ⟨se, hse, rfl⟩ := mem_assembleCategory_subcategories rt hrt st e.1 e.2 s hs
  have hslug : (assembleCategory rt st e.1 e.2).Slug = e.1 := by
    rw [(assembleCategory_fields rt st e.1 e.2).2.1]
    exact h.cat_slug e he
  cases hg : mapGet st.subcategoryMap e.1 with
  | none =>
    rw [hg] at hse
    exact absurd hse (List.not_mem_nil se)
  | some inner =>
    rw [hg] at hse
    have hmem := mapGet_some_mem _ _ _ hg
    obtain ⟨h1, h2⟩ := h.sub_slug _ hmem se hse
    have hr' : r ∈ se.2.Resources :=
      ((assembleSubcategory_resources_perm rt hrt se.2).mem_iff).mp hr
    obtain ⟨a1, a2, a3, a4⟩ := h2 r hr'
    refine ⟨by rw [hslug]; exact a1, ?_, a3, a4⟩
    rw [a2]
    exact h1.symm

theorem parseWebsite_names (st : ParseState) (l : Str) :
    (parseWebsite st l).categoryName = st.categoryName ∧
    (parseWebsite st l).subcategoryName = st.subcategoryName := by
  unfold parseWebsite
  split <;> exact ⟨rfl, rfl⟩

theorem parseDetailsRow_names (st : ParseState) (l : Str) :
    (parseDetailsRow st l).categoryName = st.categoryName ∧
    (parseDetailsRow st l).subcategoryName = st.subcategoryName := by
  unfold parseDetailsRow
  split
  · dsimp only
    split_ifs <;> exact ⟨rfl, rfl⟩
  · exact ⟨rfl, rfl⟩

theorem parseLine_names (st : ParseState) (l : Str)
    (h : HasPrefix l "**Category:**".toList = false) :
    (parseLine st l).1.categoryName = st.categoryName ∧
    (parseLine st l).1.subcategoryName = st.subcategoryName := by
  obtain ⟨w1, w2⟩ := parseWebsite_names st l
  obtain ⟨d1, d2⟩ := parseDetailsRow_names st l
  unfold parseLine
  simp only [h, Bool.false_eq_true, if_false]
  split_ifs <;> first | exact ⟨rfl, rfl⟩ | exact ⟨w1, w2⟩ | exact ⟨d1, d2⟩

theorem scanLines_names (st : ParseState) (ls : List Str)
    (h : ∀ l ∈ ls, HasPrefix l "**Category:**".toList = false) :
    (scanLines st ls).categoryName = st.categoryName ∧
    (scanLines st ls).subcategoryName = st.subcategoryName := by
  induction ls generalizing st with
  | nil => exact ⟨rfl, rfl⟩
  | cons l ls ih =>
    obtain ⟨n1, n2⟩ := parseLine_names st l (h l (List.mem_cons_self _ _))
    rw [scanLines_cons]
    split_ifs
    · exact ⟨n1, n2⟩
    · obtain ⟨i1, i2⟩ := ih (parseLine st l).1 (fun x hx => h x (List.mem_cons_of_mem _ hx))
      exact ⟨i1.trans n1, i2.trans n2⟩

/-! ## Claims on `ParseResourcesDir` -/

/-- C3: in a catalog returned by `ParseResourcesDir`, `TotalResources` equals the
sum of `len(Resources)` over every subcategory of every category; it is also the
number of documents that parsed to a resource. -/
theorem C3_total_is_sum_of_lengths (rt : Runtime) (tbl : Char → Char)
    (entries : List WalkEntry) (data : SiteData) (hrt : rt.Lawful)
    (h : ParseResourcesDir rt tbl entries = .ok data) :
    data.TotalResources = countResources data ∧
    data.TotalResources = (parsedResources tbl entries).length := by
  obtain ⟨st, hw, rfl⟩ := parseResourcesDir_ok rt tbl entries data h
  obtain ⟨hi, ht, hp⟩ := walk_ok tbl entries BuildState.init st hw buildInv_init
  have ht' : st.totalResources = (parsedResources tbl entries).length := by
    rw [ht]; simp [BuildState.init]
  have hlen : (catalogResources (assemble rt st)).length =
      (parsedResources tbl entries).length := by
    rw [(assemble_resources_perm rt hrt st hi).length_eq, hp.length_eq]
    simp [stateResources, BuildState.init]
  refine ⟨?_, ht'⟩
  rw [countResources_eq_length, hlen]
  exact ht'

/-- Witness for C3: the sample content tree builds a catalog with two resources. -/
theorem C3_total_is_sum_of_lengths_witness :
    demoRuntime.Lawful ∧
    ∃ data, ParseResourcesDir demoRuntime (fun c => c) demoEntries = .ok data ∧
      data.TotalResources = countResources data ∧
      data.TotalResources = (parsedResources (fun c => c) demoEntries).length ∧
      data.TotalResources = 2 :=
  ⟨demoRuntime_lawful, _, rfl,
    (C3_total_is_sum_of_lengths demoRuntime (fun c => c) demoEntries _ demoRuntime_lawful rfl).1,
    (C3_total_is_sum_of_lengths demoRuntime (fun c => c) demoEntries _ demoRuntime_lawful rfl).2,
    by decide⟩

/-- C4: in a catalog returned by `ParseResourcesDir` the categories are in
ascending (non-decreasing) order of `Name`, so are the subcategories of every
category and the resources of every subcategory, under the lexicographic
comparison of Go strings. -/
theorem C4_sorted_by_name (rt : Runtime) (tbl : Char → Char)
    (entries : List WalkEntry) (data : SiteData) (hrt : rt.Lawful)
    (h : ParseResourcesDir rt tbl entries = .ok data) :
    AscendingBy (fun c => c.Name) data.Categories ∧
    ∀ c ∈ data.Categories,
      AscendingBy (fun s => s.Name) c.Subcategories ∧
      ∀ s ∈ c.Subcategories, AscendingBy (fun r => r.Name) s.Resources := by
  obtain ⟨st, hw, rfl⟩ := parseResourcesDir_ok rt tbl entries data h
  refine ⟨?_, ?_⟩
  · rw [assemble_categories]
    exact (hrt.2 Category (fun c => c.Name) _).2
  · intro c hc
    obtain ⟨e, he, rfl⟩ := mem_assemble_categories rt hrt st c hc
    refine ⟨?_, ?_⟩
    · rw [(assembleCategory_fields rt st e.1 e.2).2.2]
      exact (hrt.2 Subcategory (fun s => s.Name) _).2
    · intro s hs
      obtain ⟨se, _, rfl⟩ := mem_assembleCategory_subcategories rt hrt st e.1 e.2 s hs
      exact (hrt.2 Resource (fun r => r.Name) _).2

/-- Witness for C4: the catalog built from the sample content tree is sorted on
all three levels. -/
theorem C4_sorted_by_name_witness :
    demoRuntime.Lawful ∧
    ∃ data, ParseResourcesDir demoRuntime (fun c => c) demoEntries = .ok data ∧
      data.Categories.map (fun c => c.Name) = ["Tools".toList, "Uncategorized".toList] ∧
      AscendingBy (fun c => c.Name) data.Categories ∧
      ∀ c ∈ data.Categories,
        AscendingBy (fun s => s.Name) c.Subcategories ∧
        ∀ s ∈ c.Subcategories, AscendingBy (fun r => r.Name) s.Resources :=
  ⟨demoRuntime_lawful, _, rfl, by decide,
    C4_sorted_by_name demoRuntime (fun c => c) demoEntries _ demoRuntime_lawful rfl⟩

/-- C10: every parsed resource is stored, with the defaults applied, in the
category and subcategory whose slugs are its own; an empty category slug (as for a
document without a `**Category:**` line) becomes `uncategorized` with the name
"Uncategorized", an empty subcategory slug becomes `general` with the name
"General", non-empty ones are kept; so every resource of a built catalog has
non-empty `CategorySlug` and `SubcategorySlug`, equal to the slugs of the category
and subcategory that contain it. -/
theorem C10_defaults (rt : Runtime) (tbl : Char → Char)
    (entries : List WalkEntry) (data : SiteData) (hrt : rt.Lawful)
    (h : ParseResourcesDir rt tbl entries = .ok data) :
    (∀ r ∈ parsedResources tbl entries,
      ∃ c ∈ data.Categories, ∃ s ∈ c.Subcategories,
        withDefaults r ∈ s.Resources ∧ c.Slug = (withDefaults r).CategorySlug ∧
        s.Slug = (withDefaults r).SubcategorySlug) ∧
    (∀ c ∈ data.Categories, ∀ s ∈ c.Subcategories, ∀ r ∈ s.Resources,
      r.CategorySlug = c.Slug ∧ r.SubcategorySlug = s.Slug ∧
      r.CategorySlug ≠ [] ∧ r.SubcategorySlug ≠ []) ∧
    (∀ r : Resource,
      (r.CategorySlug = [] →
        (withDefaults r).CategorySlug = "uncategorized".toList ∧
        (withDefaults r).CategoryName = "Uncategorized".toList) ∧
      (r.CategorySlug ≠ [] →
        (withDefaults r).CategorySlug = r.CategorySlug ∧
        (withDefaults r).CategoryName = r.CategoryName) ∧
      (r.SubcategorySlug = [] →
        (withDefaults r).SubcategorySlug = "general".toList ∧
        (withDefaults r).SubcategoryName = "General".toList) ∧
      (r.SubcategorySlug ≠ [] →
        (withDefaults r).SubcategorySlug = r.SubcategorySlug ∧
        (withDefaults r).SubcategoryName = r.SubcategoryName)) ∧
    (∀ (lines : List Str) (r : Resource),
      (∀ l ∈ lines, HasPrefix l "**Category:**".toList = false) →
      parseResourceFile tbl (.text lines false) = .ok (some r) →
      r.CategorySlug = [] ∧ r.SubcategorySlug = []) := by
  obtain ⟨st, hw, rfl⟩ := parseResourcesDir_ok rt tbl entries data h
  obtain ⟨hi, _, hp⟩ := walk_ok tbl entries BuildState.init st hw buildInv_init
  have hslugs := catalog_slugs rt hrt st hi
  refine ⟨?_, hslugs, ?_, ?_⟩
  · intro r hr
    have h1 : withDefaults r ∈ stateResources st := by
      refine (hp.mem_iff).mpr ?_
      exact List.mem_append_right _ (List.mem_map_of_mem _ hr)
    have h2 : withDefaults r ∈ catalogResources (assemble rt st) :=
      ((assemble_resources_perm rt hrt st hi).mem_iff).mpr h1
    unfold catalogResources at h2
    obtain ⟨c, hc, h3⟩ := List.mem_flatMap.mp h2
    obtain ⟨s, hs, h4⟩ := List.mem_flatMap.mp h3
    obtain ⟨a1, a2, _, _⟩ := hslugs c hc s hs _ h4
    exact ⟨c, hc, s, hs, h4, a1.symm, a2.symm⟩
  · intro r
    unfold withDefaults
    by_cases h1 : r.CategorySlug = [] <;> by_cases h2 : r.SubcategorySlug = [] <;>
      simp [h1, h2]
  · intro lines r hl hr
    rw [parseResourceFile_text] at hr
    injection hr with hr
    obtain ⟨_, _, _, _, _, _, _, h8, h9, _⟩ := buildResource_some tbl _ r hr
    obtain ⟨n1, n2⟩ := scanLines_names ParseState.init lines hl
    rw [h8, h9, n1, n2]
    exact ⟨rfl, rfl⟩

/-- Witness for C10: in the catalog built from the sample content tree, the
document `# Map Genie` without category line is placed under `uncategorized` /
"Uncategorized" and `general` / "General". -/
theorem C10_defaults_witness :
    demoRuntime.Lawful ∧
    ∃ data, ParseResourcesDir demoRuntime (fun c => c) demoEntries = .ok data ∧
      (data.Categories.map (fun c => (c.Slug, c.Name, c.Subcategories.map (fun s =>
        (s.Slug, s.Name, s.Resources.map (fun r =>
          (r.Name, r.CategorySlug, r.CategoryName, r.SubcategorySlug, r.SubcategoryName))))))
        = [ ("tools".toList, "Tools".toList,
              [("trackers".toList, "Trackers".toList,
                [("Tarkov Tracker".toList, "tools".toList, "Tools".toList,
                  "trackers".toList, "Trackers".toList)])]),
            ("uncategorized".toList, "Uncategorized".toList,
              [("general".toList, "General".toList,
                [("Map Genie".toList, "uncategorized".toList, "Uncategorized".toList,
                  "general".toList, "General".toList)])]) ]) ∧
      (∀ c ∈ data.Categories, ∀ s ∈ c.Subcategories, ∀ r ∈ s.Resources,
        r.CategorySlug = c.Slug ∧ r.SubcategorySlug = s.Slug ∧
        r.CategorySlug ≠ [] ∧ r.SubcategorySlug ≠ []) :=
  ⟨demoRuntime_lawful, _, rfl, rfl,
    (C10_defaults demoRuntime (fun c => c) demoEntries _ demoRuntime_lawful rfl).2.1⟩

/-! ## Lemmas on the lookups -/

theorem getCategoryLoop_eq_find (slug : Str) (l : List Category) :
    getCategoryLoop slug l = l.find? (fun c => c.Slug = slug) := by
  induction l with
  | nil => rfl
  | cons c cs ih =>
    unfold getCategoryLoop
    by_cases h : c.Slug = slug
    · simp [h]
    · simp [h, ih]

theorem getResourceInResources_eq_find (rs : Str) (l : List Resource) :
    getResourceInResources rs l = l.find? (fun r => r.Slug = rs) := by
  induction l with
  | nil => rfl
  | cons r l ih =>
    unfold getResourceInResources
    by_cases h : r.Slug = rs
    · simp [h]
    · simp [h, ih]

theorem find?_append_eq {α : Type} (p : α → Bool) (l1 l2 : List α) :
    (l1 ++ l2).find? p = match l1.find? p with
      | some a => some a
      | none => l2.find? p := by
  induction l1 with
  | nil => rfl
  | cons a l ih =>
    by_cases h : p a = true
    · simp [List.find?_cons, h]
    · simp [List.find?_cons, h, ih]

theorem getResourceInSubcategories_eq_find (rs : Str) (l : List Subcategory) :
    getResourceInSubcategories rs l =
      (l.flatMap (fun s => s.Resources)).find? (fun r => r.Slug = rs) := by
  induction l with
  | nil => rfl
  | cons s l ih =>
    unfold getResourceInSubcategories
    rw [List.flatMap_cons, find?_append_eq, getResourceInResources_eq_find, ih]
    cases s.Resources.find? (fun r => r.Slug = rs) <;> rfl

theorem getResourceLoop_none_of_no_category (cs rs : Str) (l : List Category)
    (h : ∀ c ∈ l, c.Slug ≠ cs) : getResourceLoop cs rs l = none := by
  induction l with
  | nil => rfl
  | cons c l ih =>
    unfold getResourceLoop
    rw [if_neg (h c (List.mem_cons_self _ _))]
    exact ih (fun x hx => h x (List.mem_cons_of_mem _ hx))

theorem getResourceLoop_eq_spec (cs rs : Str) (l : List Category)
    (hn : (l.map (fun c => c.Slug)).Nodup) :
    getResourceLoop cs rs l =
      match l.find? (fun c => c.Slug = cs) with
      | none => none
      | some c => (categoryResources c).find? (fun r => r.Slug = rs) := by
  induction l with
  | nil => rfl
  | cons c l ih =>
    simp only [List.map_cons, List.nodup_cons] at hn
    unfold getResourceLoop
    by_cases h : c.Slug = cs
    · have hrest : ∀ x ∈ l, x.Slug ≠ cs := by
        intro x hx hxs
        apply hn.1
        rw [h, ← hxs]
        exact List.mem_map_of_mem _ hx
      rw [if_pos h, getResourceLoop_none_of_no_category cs rs l hrest,
        getResourceInSubcategories_eq_find]
      simp only [List.find?_cons, h, decide_True]
      unfold categoryResources
      cases (c.Subcategories.flatMap (fun s => s.Resources)).find? (fun r => r.Slug = rs) <;> rfl
    · rw [if_neg h, ih hn.2]
      simp only [List.find?_cons, h, decide_False]

/-! ## Claims on the lookups -/

/-- C14: `GetCategoryBySlug` returns "not found" exactly when no category of the
catalog has the slug, and otherwise the first category in catalog order whose
`Slug` is the requested one, as it stands in the catalog. -/
theorem C14_get_category_by_slug (data : SiteData) (slug : Str) :
    (GetCategoryBySlug data slug = none ↔ ∀ c ∈ data.Categories, c.Slug ≠ slug) ∧
    GetCategoryBySlug data slug = data.Categories.find? (fun c => c.Slug = slug) ∧
    (∀ c, GetCategoryBySlug data slug = some c →
      c.Slug = slug ∧
      ∃ before after, data.Categories = before ++ c :: after ∧
        ∀ x ∈ before, x.Slug ≠ slug) := by
  have heq : GetCategoryBySlug data slug = data.Categories.find? (fun c => c.Slug = slug) :=
    getCategoryLoop_eq_find slug data.Categories
  refine ⟨?_, heq, ?_⟩
  · rw [heq, List.find?_eq_none]
    simp
  · intro c hc
    rw [heq] at hc
    obtain ⟨h1, before, after, h2, h3⟩ := List.find?_eq_some.mp hc
    refine ⟨by simpa using h1, before, after, h2, ?_⟩
    intro x hx
    simpa using h3 x hx

/-- C15: in a catalog whose category slugs are unique, `GetResourceBySlug` returns
the first resource with the requested slug, scanning the subcategories of the
category with the requested slug in order and the resources of each in order; it
returns "not found" exactly when no category has the category slug or no resource
of that category has the resource slug; a returned resource lies in a category
with the requested slug. -/
theorem C15_get_resource_by_slug (data : SiteData) (categorySlug resourceSlug : Str)
    (hn : (data.Categories.map (fun c => c.Slug)).Nodup) :
    GetResourceBySlug data categorySlug resourceSlug =
      getResourceSpec data categorySlug resourceSlug ∧
    (GetResourceBySlug data categorySlug resourceSlug = none ↔
      (∀ c ∈ data.Categories, c.Slug ≠ categorySlug) ∨
      (∀ c ∈ data.Categories, c.Slug = categorySlug →
        ∀ s ∈ c.Subcategories, ∀ r ∈ s.Resources, r.Slug ≠ resourceSlug)) ∧
    (∀ r, GetResourceBySlug data categorySlug resourceSlug = some r →
      r.Slug = resourceSlug ∧
      ∃ c ∈ data.Categories, c.Slug = categorySlug ∧ ∃ s ∈ c.Subcategories, r ∈ s.Resources) := by
  have heq : GetResourceBySlug data categorySlug resourceSlug =
      getResourceSpec data categorySlug resourceSlug :=
    getResourceLoop_eq_spec categorySlug resourceSlug data.Categories hn
  have hsome : ∀ r, GetResourceBySlug data categorySlug resourceSlug = some r →
      r.Slug = resourceSlug ∧
      ∃ c ∈ data.Categories, c.Slug = categorySlug ∧ ∃ s ∈ c.Subcategories, r ∈ s.Resources := by
    intro r hr
    rw [heq] at hr
    unfold getResourceSpec at hr
    cases hc : data.Categories.find? (fun c => c.Slug = categorySlug) with
    | none => simp [hc] at hr
    | some c =>
      simp only [hc] at hr
      have h1 := List.find?_some hr
      have h2 := List.mem_of_find?_eq_some hr
      unfold categoryResources at h2
      obtain ⟨s, hs, hrs⟩ := List.mem_flatMap.mp h2
      exact ⟨by simpa using h1, c, List.mem_of_find?_eq_some hc,
        by simpa using List.find?_some hc, s, hs, hrs⟩
  refine ⟨heq, ?_, hsome⟩
  constructor
  · intro hnone
    by_cases hex : ∃ c ∈ data.Categories, c.Slug = categorySlug
    · right
      obtain ⟨c0, hc0, hs0⟩ := hex
      intro c hc hcs s hs r hr hrs
      have hcc : c = c0 :=
        List.inj_on_of_nodup_map hn hc hc0 (hcs.trans hs0.symm)
      rw [heq] at hnone
      unfold getResourceSpec at hnone
      cases hf : data.Categories.find? (fun c => c.Slug = categorySlug) with
      | none =>
        rw [List.find?_eq_none] at hf
        exact absurd hs0 (by simpa using hf c0 hc0)
      | some c1 =>
        have hc1 : c1 = c0 :=
          List.inj_on_of_nodup_map hn (List.mem_of_find?_eq_some hf) hc0
            ((by simpa using List.find?_some hf : c1.Slug = categorySlug).trans hs0.symm)
        simp only [hf] at hnone
        rw [List.find?_eq_none] at hnone
        have hmem : r ∈ categoryResources c1 := by
          rw [hc1, ← hcc]
          exact List.mem_flatMap.mpr ⟨s, hs, hr⟩
        exact absurd hrs (by simpa using hnone r hmem)
    · left
      intro c hc hcs
      exact hex ⟨c, hc, hcs⟩
  · intro h
    cases hres : GetResourceBySlug data categorySlug resourceSlug with
    | none => rfl
    | some r =>
      obtain ⟨h1, c, hc, hcs, s, hs, hr⟩ := hsome r hres
      rcases h with h | h
      · exact absurd hcs (h c hc)
      · exact absurd h1 (h c hc hcs s hs r hr)

/-- Witness for C15: in the sample catalog the lookup of `tools` / `map-genie`
finds the resource. -/
theorem C15_get_resource_by_slug_witness :
    (demoCatalog.Categories.map (fun c => c.Slug)).Nodup ∧
    GetResourceBySlug demoCatalog "tools".toList "map-genie".toList = some demoResource ∧
    GetResourceBySlug demoCatalog "tools".toList "map-genie".toList =
      getResourceSpec demoCatalog "tools".toList "map-genie".toList :=
  ⟨by decide, by decide,
    (C15_get_resource_by_slug demoCatalog "tools".toList "map-genie".toList (by decide)).1⟩

/-! ## Lemmas on `parseCategoryDescription` -/

theorem scanCategory_skip_before (pre rest : List Str)
    (h : ∀ l ∈ pre, isBareRule l = false) :
    scanCategoryLines false false (pre ++ rest) = scanCategoryLines false false rest := by
  induction pre with
  | nil => rfl
  | cons l pre ih =>
    have hl : ¬ TrimSpace l = "---".toList := by
      have := h l (List.mem_cons_self _ _)
      simpa [isBareRule] using this
    rw [List.cons_append, scanCategoryLines, if_neg hl]
    simp only [Bool.false_and, Bool.false_eq_true, if_false]
    exact ih (fun x hx => h x (List.mem_cons_of_mem _ hx))

theorem scanCategory_open (flag : Bool) (l : Str) (rest : List Str)
    (h : isBareRule l = true) :
    scanCategoryLines false flag (l :: rest) = scanCategoryLines true flag rest := by
  have hl : TrimSpace l = "---".toList := by simpa [isBareRule] using h
  rw [scanCategoryLines, if_pos hl]
  simp

theorem scanCategory_close (flag : Bool) (l : Str) (rest : List Str)
    (h : isBareRule l = true) :
    scanCategoryLines true flag (l :: rest) = scanCategoryLines true true rest := by
  have hl : TrimSpace l = "---".toList := by simpa [isBareRule] using h
  rw [scanCategoryLines, if_pos hl]
  simp

theorem scanCategory_block (block rest : List Str)
    (h : ∀ l ∈ block, isBareRule l = false) :
    scanCategoryLines true false (block ++ rest) =
      match block.find? (fun l => HasPrefix l "description:".toList) with
      | some l => descriptionValue l
      | none => scanCategoryLines true false rest := by
  induction block with
  | nil => rfl
  | cons l block ih =>
    have hl : ¬ TrimSpace l = "---".toList := by
      have := h l (List.mem_cons_self _ _)
      simpa [isBareRule] using this
    rw [List.cons_append, scanCategoryLines, if_neg hl]
    by_cases hd : HasPrefix l "description:".toList = true
    · rw [List.find?_cons, hd]
      simp only [Bool.not_false, Bool.and_self, Bool.true_and, hd, if_true]
      rfl
    · have hd' : HasPrefix l "description:".toList = false := by simpa using hd
      rw [List.find?_cons, hd']
      simp only [hd', Bool.and_false, Bool.false_eq_true, if_false, Bool.false_and]
      exact ih (fun x hx => h x (List.mem_cons_of_mem _ hx))

theorem scanCategory_after (post : List Str) :
    scanCategoryLines true true post =
      match post.find? (fun l => !isBareRule l && TrimSpace l ≠ []) with
      | some l => TrimSpace l
      | none => [] := by
  induction post with
  | nil => rfl
  | cons l post ih =>
    rw [scanCategoryLines]
    by_cases hl : TrimSpace l = "---".toList
    · have hb : isBareRule l = true := by simpa [isBareRule] using hl
      rw [if_pos hl, List.find?_cons, hb]
      simp only [Bool.not_true, Bool.false_eq_true, if_false, Bool.false_and]
      exact ih
    · have hb : isBareRule l = false := by simpa [isBareRule] using hl
      rw [if_neg hl, List.find?_cons, hb]
      by_cases he : TrimSpace l = []
      · simp only [he, Bool.not_true, Bool.and_false, Bool.false_and, Bool.false_eq_true,
          if_false, ne_eq, not_true_eq_false, decide_False, Bool.and_false]
        exact ih
      · simp [he]

theorem parseCategoryDescription_text (lines : List Str) (scanErr : Bool) :
    parseCategoryDescription (.text lines scanErr) = scanCategoryLines false false lines := rfl

/-! ## Claims on `parseCategoryDescription` and on the description of a resource -/

/-- C18 (the code at the failing inputs): a line of text that stands before the
`## Overview` marker is captured as the description, and so is a line of text in a
document without the marker; the line after the marker is not the description. -/
theorem C18_description_ignores_overview_marker :
    (∃ r, parseResourceFile (fun c => c) (.text demoDocumentIntro false) = .ok (some r) ∧
      r.Description = "Intro line before the overview".toList ∧
      r.Description ≠ "Interactive maps".toList) ∧
    (∃ r, parseResourceFile (fun c => c) (.text demoDocumentNoOverview false) = .ok (some r) ∧
      r.Description = "Some text".toList) :=
  ⟨⟨_, rfl, rfl, by decide⟩, ⟨_, rfl, rfl⟩⟩

/-- C19: for a description document with a metadata block, that is lines `pre`
without bare rule, a bare rule, the lines `block` without bare rule, a bare rule,
and the lines `post`, `parseCategoryDescription` returns the value of the first
line of the block that starts with `description:`, trimmed and with the quote
characters at both ends removed, and otherwise the trimmed first non-blank line of
`post` that is not a bare rule, or the empty string when there is none. -/
theorem C19_description_from_block (pre block post : List Str) (opening closing : Str)
    (scanErr : Bool)
    (hpre : ∀ l ∈ pre, isBareRule l = false) (hopen : isBareRule opening = true)
    (hblock : ∀ l ∈ block, isBareRule l = false) (hclose : isBareRule closing = true) :
    parseCategoryDescription
        (.text (pre ++ opening :: (block ++ closing :: post)) scanErr) =
      categoryDescriptionSpec block post ∧
    (∀ l, block.find? (fun l => HasPrefix l "description:".toList) = some l →
      parseCategoryDescription
          (.text (pre ++ opening :: (block ++ closing :: post)) scanErr) =
        Trim (TrimSpace (TrimPrefix l "description:".toList)) "\"'".toList ∧
      (∀ x, (descriptionValue l).head? = some x → x ≠ '"' ∧ x ≠ Char.ofNat 39) ∧
      (∀ x, (descriptionValue l).getLast? = some x → x ≠ '"' ∧ x ≠ Char.ofNat 39)) := by
  have hmain : parseCategoryDescription
        (.text (pre ++ opening :: (block ++ closing :: post)) scanErr) =
      categoryDescriptionSpec block post := by
    unfold categoryDescriptionSpec
    rw [parseCategoryDescription_text, scanCategory_skip_before pre _ hpre, scanCategory_open false opening _ hopen,
      scanCategory_block block _ hblock, scanCategory_close false closing post hclose,
      scanCategory_after]
  refine ⟨hmain, ?_⟩
  intro l hl
  have hquote : ∀ x : Char, ("\"'".toList).contains x = false → x ≠ '"' ∧ x ≠ Char.ofNat 39 := by
    intro x hx
    constructor
    · intro h; rw [h] at hx; exact absurd hx (by decide)
    · intro h; rw [h] at hx; exact absurd hx (by decide)
  refine ⟨?_, ?_, ?_⟩
  · rw [hmain]
    unfold categoryDescriptionSpec
    rw [hl]
    rfl
  · intro x hx
    exact hquote x (trimFunc_head_not _ _ x hx)
  · intro x hx
    exact hquote x (trimFunc_getLast_not _ _ x hx)

/-- Witness for C19: a block with a quoted description. -/
theorem C19_description_from_block_witness :
    parseCategoryDescription
        (.text ([] ++ "---".toList ::
          (["title: Tools".toList, "description: \"Useful tools\"".toList] ++
            "---".toList :: ["Body text".toList])) false) =
      categoryDescriptionSpec ["title: Tools".toList, "description: \"Useful tools\"".toList]
        ["Body text".toList] ∧
    categoryDescriptionSpec ["title: Tools".toList, "description: \"Useful tools\"".toList]
        ["Body text".toList] = "Useful tools".toList :=
  ⟨(C19_description_from_block [] ["title: Tools".toList,
      "description: \"Useful tools\"".toList] ["Body text".toList] "---".toList "---".toList
      false (by decide) (by decide) (by decide) (by decide)).1, by decide⟩

/-- C20 (as stated, refuted): a description document that consists of one line of
text and holds no bare rule yields the empty description, not that line. -/
theorem C20_no_block_gives_empty :
    parseCategoryDescription (.text ["Useful tools".toList] false) = [] ∧
    parseCategoryDescription (.text ["Useful tools".toList] false) ≠
      TrimSpace "Useful tools".toList := by
  decide

/-- C20 (amended): for a description document without any bare rule line,
`parseCategoryDescription` returns the empty string, whatever its lines are: the
first non-blank line is only used after a closed metadata block. -/
theorem C20_no_block_empty_description (lines : List Str) (scanErr : Bool)
    (h : ∀ l ∈ lines, isBareRule l = false) :
    parseCategoryDescription (.text lines scanErr) = [] := by
  have := scanCategory_skip_before lines [] h
  rw [List.append_nil] at this
  rw [parseCategoryDescription_text, this]
  rfl

/-- Witness for C20: two lines of text, no rule. -/
theorem C20_no_block_empty_description_witness :
    (∀ l ∈ ["Useful tools".toList, "More text".toList], isBareRule l = false) ∧
    parseCategoryDescription
      (.text ["Useful tools".toList, "More text".toList] false) = [] :=
  ⟨by decide, C20_no_block_empty_description _ false (by decide)⟩

/-! ## Lemmas on errors of the walk -/

theorem visit_of_walkErr (tbl : Char → Char) (st : BuildState) (e : WalkEntry)
    (h : e.walkErr = true) : visit tbl st e = .error .walkFailed := by
  unfold visit
  rw [if_pos h]

theorem visit_total (tbl : Char → Char) (st : BuildState) (e : WalkEntry)
    (h : e.walkErr = false) : ∃ st', visit tbl st e = .ok st' := by
  unfold visit
  rw [if_neg (by rw [h]; exact Bool.false_ne_true)]
  by_cases h1 : (e.isDir || !HasSuffix e.path ".md".toList) = true
  · rw [if_pos h1]
    exact ⟨_, rfl⟩
  rw [if_neg h1]
  by_cases h2 : HasSuffix e.path "_category.md".toList = true
  · rw [if_pos h2]
    dsimp only
    split_ifs <;> exact ⟨_, rfl⟩
  rw [if_neg h2]
  split <;> exact ⟨_, rfl⟩

theorem visit_skips_failed_document (tbl : Char → Char) (st : BuildState) (e : WalkEntry)
    (err : IOError) (hw : e.walkErr = false) (hdoc : isResourceDocument e = true)
    (hp : parseResourceFile tbl e.content = .error err) : visit tbl st e = .ok st := by
  unfold isResourceDocument at hdoc
  simp only [Bool.and_eq_true, Bool.not_eq_true', Bool.not_eq_true] at hdoc
  obtain ⟨⟨h1, h2⟩, h3⟩ := hdoc
  unfold visit
  rw [if_neg (by rw [hw]; exact Bool.false_ne_true), if_neg (by rw [h1, h2]; decide),
    if_neg (by rw [h3]; exact Bool.false_ne_true), hp]

theorem walk_total (tbl : Char → Char) (entries : List WalkEntry) (st : BuildState)
    (h : ∀ e ∈ entries, e.walkErr = false) : ∃ st', walk tbl st entries = .ok st' := by
  induction entries generalizing st with
  | nil => exact ⟨st, rfl⟩
  | cons e es ih =>
    obtain ⟨st1, h1⟩ := visit_total tbl st e (h e (List.mem_cons_self _ _))
    unfold walk
    rw [h1]
    exact ih st1 (fun x hx => h x (List.mem_cons_of_mem _ hx))

theorem walk_fails (tbl : Char → Char) (entries : List WalkEntry) (st : BuildState)
    (h : ∃ e ∈ entries, e.walkErr = true) : walk tbl st entries = .error .walkFailed := by
  induction entries generalizing st with
  | nil =>
    obtain ⟨e, he, _⟩ := h
    exact absurd he (List.not_mem_nil e)
  | cons e es ih =>
    unfold walk
    cases hw : e.walkErr with
    | true => rw [visit_of_walkErr tbl st e hw]
    | false =>
      obtain ⟨st1, h1⟩ := visit_total tbl st e hw
      rw [h1]
      apply ih
      obtain ⟨x, hx, hxe⟩ := h
      rcases List.mem_cons.mp hx with rfl | hx
      · rw [hw] at hxe; exact absurd hxe Bool.false_ne_true
      · exact ⟨x, hx, hxe⟩

/-! ## Claims on errors and on the uniqueness of slugs -/

/-- C16 (as stated, refuted): a content tree whose only resource document cannot be
opened builds an empty catalog; no error is returned. -/
theorem C16_unreadable_document_builds_catalog :
    isResourceDocument
      { path := "resources/broken.md".toList, isDir := false, walkErr := false,
        content := .unreadable } = true ∧
    parseResourceFile (fun c => c) .unreadable = .error .openFailed ∧
    ParseResourcesDir demoRuntime (fun c => c) demoEntriesUnreadable =
      .ok { Categories := [], TotalResources := 0 } :=
  ⟨rfl, rfl, rfl⟩

/-- C16 (amended): a resource document that fails to open or to be read is skipped
by the walk callback, which leaves the builder's state as it was and reports no
error; a walk in which `filepath.Walk` reports no error of its own always returns a
catalog, and the build is aborted with an error exactly when the walk reports an
error for an entry. -/
theorem C16_failed_document_is_skipped (rt : Runtime) (tbl : Char → Char) :
    (∀ (st : BuildState) (e : WalkEntry) (err : IOError),
      e.walkErr = false → isResourceDocument e = true →
      parseResourceFile tbl e.content = .error err → visit tbl st e = .ok st) ∧
    (∀ entries : List WalkEntry, (∀ e ∈ entries, e.walkErr = false) →
      ∃ data, ParseResourcesDir rt tbl entries = .ok data) ∧
    (∀ entries : List WalkEntry, (∃ e ∈ entries, e.walkErr = true) →
      ParseResourcesDir rt tbl entries = .error .walkFailed) ∧
    parseResourceFile tbl .unreadable = .error .openFailed ∧
    (∀ lines, parseResourceFile tbl (.text lines true) = .error .readFailed) := by
  refine ⟨visit_skips_failed_document tbl, ?_, ?_, rfl, fun _ => rfl⟩
  · intro entries h
    obtain ⟨st, hs⟩ := walk_total tbl entries BuildState.init h
    refine ⟨assemble rt st, ?_⟩
    unfold ParseResourcesDir
    rw [hs]
  · intro entries h
    unfold ParseResourcesDir
    rw [walk_fails tbl entries BuildState.init h]

/-- Witness for C16: the callback on a document that cannot be opened, and on a
document whose read fails. -/
theorem C16_failed_document_is_skipped_witness :
    visit (fun c => c) BuildState.init
      { path := "resources/broken.md".toList, isDir := false, walkErr := false,
        content := .unreadable } = .ok BuildState.init ∧
    visit (fun c => c) BuildState.init
      { path := "resources/cut.md".toList, isDir := false, walkErr := false,
        content := .text demoDocument true } = .ok BuildState.init :=
  ⟨(C16_failed_document_is_skipped demoRuntime (fun c => c)).1 BuildState.init _ .openFailed
      rfl (by decide) rfl,
   (C16_failed_document_is_skipped demoRuntime (fun c => c)).1 BuildState.init _ .readFailed
      rfl (by decide) rfl⟩

theorem assemble_category_slugs (rt : Runtime) (hrt : rt.Lawful) (st : BuildState)
    (h : BuildInv st) :
    ((assemble rt st).Categories.map (fun c => c.Slug)).Perm (mapKeys st.categoryMap) := by
  rw [assemble_categories]
  refine ((hrt.2 Category (fun c => c.Name) _).1.map _).trans ?_
  rw [List.map_map]
  refine ((hrt.1 Category [] _).map _).trans ?_
  refine List.Perm.of_eq (List.map_congr_left ?_)
  intro e he
  show (assembleCategory rt st e.1 e.2).Slug = e.1
  rw [(assembleCategory_fields rt st e.1 e.2).2.1]
  exact h.cat_slug e he

theorem assembleCategory_subcategory_slugs (rt : Runtime) (hrt : rt.Lawful) (st : BuildState)
    (h : BuildInv st) (k : Str) (c : Category) (inner : GoMap Subcategory)
    (hg : mapGet st.subcategoryMap k = some inner) :
    ((assembleCategory rt st k c).Subcategories.map (fun s => s.Slug)).Perm (mapKeys inner) := by
  rw [(assembleCategory_fields rt st k c).2.2, hg]
  refine ((hrt.2 Subcategory (fun s => s.Name) _).1.map _).trans ?_
  rw [List.map_map]
  refine ((hrt.1 Subcategory k _).map _).trans ?_
  refine List.Perm.of_eq (List.map_congr_left ?_)
  intro se hse
  exact (h.sub_slug _ (mapGet_some_mem _ _ _ hg) se hse).1

theorem mapGet_isSome_of_keys {V W : Type} (cm : GoMap W) (sm : GoMap V) (e : Str × W)
    (hk : mapKeys cm = mapKeys sm) (he : e ∈ cm) : ∃ v, mapGet sm e.1 = some v := by
  cases hg : mapGet sm e.1 with
  | some v => exact ⟨v, rfl⟩
  | none =>
    rw [mapGet_none_iff, ← hk] at hg
    exact absurd (List.mem_map_of_mem Prod.fst he) hg

/-- C12: in a catalog returned by `ParseResourcesDir` no two categories have the
same `Slug`, and within every category no two subcategories have the same
`Slug`. -/
theorem C12_slugs_unique (rt : Runtime) (tbl : Char → Char)
    (entries : List WalkEntry) (data : SiteData) (hrt : rt.Lawful)
    (h : ParseResourcesDir rt tbl entries = .ok data) :
    (data.Categories.map (fun c => c.Slug)).Nodup ∧
    ∀ c ∈ data.Categories, (c.Subcategories.map (fun s => s.Slug)).Nodup := by
  obtain ⟨st, hw, rfl⟩ := parseResourcesDir_ok rt tbl entries data h
  obtain ⟨hi, _, _⟩ := walk_ok tbl entries BuildState.init st hw buildInv_init
  refine ⟨?_, ?_⟩
  · rw [(assemble_category_slugs rt hrt st hi).nodup_iff, hi.keys_eq]
    exact hi.keys_nodup
  · intro c hc
    obtain ⟨e, he, rfl⟩ := mem_assemble_categories rt hrt st c hc
    obtain ⟨inner, hg⟩ := mapGet_isSome_of_keys _ _ e hi.keys_eq he
    rw [(assembleCategory_subcategory_slugs rt hrt st hi e.1 e.2 inner hg).nodup_iff]
    exact hi.inner_nodup _ (mapGet_some_mem _ _ _ hg)

/-- Witness for C12: the catalog built from the sample content tree. -/
theorem C12_slugs_unique_witness :
    demoRuntime.Lawful ∧
    ∃ data, ParseResourcesDir demoRuntime (fun c => c) demoEntries = .ok data ∧
      data.Categories.map (fun c => c.Slug) = ["tools".toList, "uncategorized".toList] ∧
      (data.Categories.map (fun c => c.Slug)).Nodup ∧
      ∀ c ∈ data.Categories, (c.Subcategories.map (fun s => s.Slug)).Nodup :=
  ⟨demoRuntime_lawful, _, rfl, rfl,
    C12_slugs_unique demoRuntime (fun c => c) demoEntries _ demoRuntime_lawful rfl⟩

/-! ## Lemmas on lookups in updated maps -/

theorem mapGet_mapSet {V : Type} (m : GoMap V) (k : Str) (v : V) (kk : Str) :
    mapGet (mapSet m k v) kk = if kk = k then some v else mapGet m kk := by
  induction m with
  | nil =>
    unfold mapSet mapGet
    by_cases h : kk = k
    · rw [if_pos h.symm, if_pos h]
    · rw [if_neg (fun h' => h h'.symm), if_neg h]
      rfl
  | cons e m ih =>
    obtain ⟨k', v'⟩ := e
    unfold mapSet
    by_cases h1 : k' = k
    · rw [if_pos h1, mapGet, mapGet]
      by_cases h2 : kk = k
      · rw [if_pos h2.symm, if_pos h2]
      · rw [if_neg (fun h' => h2 h'.symm), if_neg h2,
          if_neg (fun h' => h2 (h'.symm.trans h1))]
    · rw [if_neg h1, mapGet, ih, mapGet]
      by_cases h3 : k' = kk
      · rw [if_pos h3, if_neg (fun h' => h1 (h3.trans h')), if_pos h3]
      · rw [if_neg h3, if_neg h3]

theorem mapGet_mapUpsert {V : Type} (m : GoMap V) (k : Str) (init : V) (f : V → V)
    (kk : Str) :
    mapGet (mapUpsert m k init f) kk =
      if kk = k then some (f ((mapGet m k).getD init)) else mapGet m kk := by
  unfold mapUpsert
  cases hg : mapGet m k with
  | none =>
    simp only [Option.isNone_none, if_true, mapGet_mapSet_self, mapGet_mapSet,
      Option.getD_none]
    by_cases h : kk = k
    · simp only [h, if_true]
    · simp only [h, if_false]
  | some v =>
    simp only [Option.isNone_some, Bool.false_eq_true, if_false, hg, mapGet_mapSet,
      Option.getD_some]

theorem mapGet_mapUpsert_self {V : Type} (m : GoMap V) (k : Str) (init : V) (f : V → V) :
    ∃ v, mapGet (mapUpsert m k init f) k = some v :=
  ⟨f ((mapGet m k).getD init), by rw [mapGet_mapUpsert, if_pos rfl]⟩

theorem mapGet_nil {V : Type} (k : Str) : mapGet ([] : GoMap V) k = none := rfl

/-! ## Lemmas on grouping -/

theorem inCategory_iff (k : Str) (r : Resource) : inCategory k r = true ↔ r.CategorySlug = k := by
  simp [inCategory]

theorem inSubcategory_iff (k k2 : Str) (r : Resource) :
    inSubcategory k k2 r = true ↔ r.CategorySlug = k ∧ r.SubcategorySlug = k2 := by
  simp [inSubcategory]

theorem find?_append_of_some {α : Type} (p : α → Bool) (l1 l2 : List α) (a : α)
    (h : l1.find? p = some a) : (l1 ++ l2).find? p = some a := by
  rw [find?_append_eq, h]

theorem find?_append_of_none {α : Type} (p : α → Bool) (l1 l2 : List α)
    (h : l1.find? p = none) : (l1 ++ l2).find? p = l2.find? p := by
  rw [find?_append_eq, h]

theorem find?_singleton_of {α : Type} (p : α → Bool) (a : α) (h : p a = true) :
    [a].find? p = some a := by
  simp [List.find?_cons, h]

theorem filter_append_singleton {α : Type} (p : α → Bool) (l : List α) (a : α) :
    (l ++ [a]).filter p = if p a = true then l.filter p ++ [a] else l.filter p := by
  rw [List.filter_append]
  by_cases h : p a = true
  · simp [h]
  · simp [h]

theorem addResource_fields (st : BuildState) (r : Resource) :
    (addResource st r).categoryDescriptions = st.categoryDescriptions ∧
    (addResource st r).categoryMap =
      (if (mapGet st.categoryMap (withDefaults r).CategorySlug).isNone then
        mapSet st.categoryMap (withDefaults r).CategorySlug
          { Name := (withDefaults r).CategoryName, Slug := (withDefaults r).CategorySlug,
            Description := [], Subcategories := [] }
       else st.categoryMap) := by
  rw [addResource_eq]
  exact ⟨rfl, rfl⟩

/-- Adding a resource keeps the grouping relation, for the sequence extended by
the resource with its defaults. -/
theorem addResource_groupInv (st : BuildState) (r : Resource) (P : List Resource)
    (D : List (Str × Str)) (hb : BuildInv st) (hg : GroupInv st P D) :
    GroupInv (addResource st r) (P ++ [withDefaults r]) D := by
  obtain ⟨hdesc, hcm⟩ := addResource_fields st r
  have hsm := addResource_subcategoryMap st r hb.keys_eq
  have hk1 : inCategory (withDefaults r).CategorySlug (withDefaults r) = true :=
    (inCategory_iff _ _).mpr rfl
  have hk2 : inSubcategory (withDefaults r).CategorySlug (withDefaults r).SubcategorySlug
      (withDefaults r) = true := (inSubcategory_iff _ _ _).mpr ⟨rfl, rfl⟩
  constructor
  · -- categories
    intro kk c hc
    rw [hcm] at hc
    have hold : mapGet st.categoryMap kk = some c →
        c.Description = [] ∧
        ∃ r0, (P ++ [withDefaults r]).find? (inCategory kk) = some r0 ∧
          c.Name = r0.CategoryName := by
      intro h
      obtain ⟨h1, r0, h2, h3⟩ := hg.cat kk c h
      exact ⟨h1, r0, find?_append_of_some _ _ _ _ h2, h3⟩
    cases hget : mapGet st.categoryMap (withDefaults r).CategorySlug with
    | some c0 =>
      rw [hget] at hc
      simp only [Option.isNone_some, Bool.false_eq_true, if_false] at hc
      exact hold hc
    | none =>
      rw [hget] at hc
      simp only [Option.isNone_none, if_true, mapGet_mapSet] at hc
      by_cases hkk : kk = (withDefaults r).CategorySlug
      · rw [if_pos hkk] at hc
        injection hc with hc
        subst hc
        refine ⟨rfl, withDefaults r, ?_, rfl⟩
        have hnone : P.find? (inCategory kk) = none := by
          rw [List.find?_eq_none]
          intro x hx hxin
          obtain ⟨⟨c1, hc1⟩, _⟩ := hg.complete x hx
          rw [(inCategory_iff _ _).mp hxin, hkk, hget] at hc1
          exact Option.noConfusion hc1
        rw [find?_append_of_none _ _ _ hnone, hkk]
        exact find?_singleton_of _ _ hk1
      · rw [if_neg hkk] at hc
        exact hold hc
  · -- subcategories
    intro kk inner hinner kk2 s hs
    rw [hsm, mapGet_mapUpsert] at hinner
    have hold : ∀ inner0, mapGet st.subcategoryMap kk = some inner0 →
        mapGet inner0 kk2 = some s →
        inSubcategory kk kk2 (withDefaults r) = false →
        s.Resources = resourcesOf (P ++ [withDefaults r]) kk kk2 ∧
        ∃ r0, (P ++ [withDefaults r]).find? (inSubcategory kk kk2) = some r0 ∧
          s.Name = r0.SubcategoryName := by
      intro inner0 h0 h1 hno
      obtain ⟨a1, r0, a2, a3⟩ := hg.sub kk inner0 h0 kk2 s h1
      refine ⟨?_, r0, find?_append_of_some _ _ _ _ a2, a3⟩
      unfold resourcesOf
      rw [filter_append_singleton, if_neg (by rw [hno]; exact Bool.false_ne_true)]
      exact a1
    by_cases hkk : kk = (withDefaults r).CategorySlug
    · rw [if_pos hkk] at hinner
      injection hinner with hinner
      rw [← hinner, mapGet_mapUpsert] at hs
      by_cases hkk2 : kk2 = (withDefaults r).SubcategorySlug
      · rw [if_pos hkk2] at hs
        injection hs with hs
        cases hget : mapGet st.subcategoryMap (withDefaults r).CategorySlug with
        | none =>
          rw [hget] at hs
          simp only [Option.getD_none, mapGet_nil] at hs
          have hnone : P.find? (inSubcategory kk kk2) = none := by
            rw [List.find?_eq_none]
            intro x hx hxin
            obtain ⟨_, inner1, s1, h1, _⟩ := hg.complete x hx
            rw [((inSubcategory_iff _ _ _).mp hxin).1, hkk, hget] at h1
            exact Option.noConfusion h1
          have hfil : resourcesOf P kk kk2 = [] := by
            unfold resourcesOf
            rw [List.filter_eq_nil_iff]
            intro x hx
            exact List.find?_eq_none.mp hnone x hx
          rw [← hs]
          refine ⟨?_, withDefaults r, ?_, rfl⟩
          · unfold resourcesOf at hfil ⊢
            rw [filter_append_singleton, hkk, hkk2, if_pos hk2, ← hkk, ← hkk2, hfil]
          · rw [find?_append_of_none _ _ _ hnone, hkk, hkk2]
            exact find?_singleton_of _ _ hk2
        | some inner0 =>
          rw [hget] at hs
          simp only [Option.getD_some] at hs
          cases hget2 : mapGet inner0 (withDefaults r).SubcategorySlug with
          | none =>
            rw [hget2] at hs
            simp only [Option.getD_none] at hs
            have hnone : P.find? (inSubcategory kk kk2) = none := by
              rw [List.find?_eq_none]
              intro x hx hxin
              obtain ⟨_, inner1, s1, h1, h2⟩ := hg.complete x hx
              rw [((inSubcategory_iff _ _ _).mp hxin).1, hkk, hget] at h1
              injection h1 with h1
              rw [((inSubcategory_iff _ _ _).mp hxin).2, hkk2, ← h1, hget2] at h2
              exact Option.noConfusion h2
            have hfil : resourcesOf P kk kk2 = [] := by
              unfold resourcesOf
              rw [List.filter_eq_nil_iff]
              intro x hx
              exact List.find?_eq_none.mp hnone x hx
            rw [← hs]
            refine ⟨?_, withDefaults r, ?_, rfl⟩
            · unfold resourcesOf at hfil ⊢
              rw [filter_append_singleton, hkk, hkk2, if_pos hk2, ← hkk, ← hkk2, hfil]
            · rw [find?_append_of_none _ _ _ hnone, hkk, hkk2]
              exact find?_singleton_of _ _ hk2
          | some s0 =>
            rw [hget2] at hs
            simp only [Option.getD_some] at hs
            obtain ⟨a1, r0, a2, a3⟩ :=
              hg.sub _ inner0 hget _ s0 hget2
            rw [← hs]
            refine ⟨?_, r0, ?_, a3⟩
            · unfold resourcesOf at a1 ⊢
              rw [filter_append_singleton, hkk, hkk2, if_pos hk2, ← a1]
            · rw [hkk, hkk2]
              exact find?_append_of_some _ _ _ _ a2
      · rw [if_neg hkk2] at hs
        have hno : inSubcategory kk kk2 (withDefaults r) = false := by
          rw [Bool.eq_false_iff]
          intro h
          exact hkk2 ((inSubcategory_iff _ _ _).mp h).2.symm
        cases hget : mapGet st.subcategoryMap (withDefaults r).CategorySlug with
        | none =>
          rw [hget] at hs
          simp only [Option.getD_none, mapGet_nil] at hs
          exact Option.noConfusion hs
        | some inner0 =>
          rw [hget] at hs
          simp only [Option.getD_some] at hs
          exact hold inner0 (by rw [hkk]; exact hget) hs hno
    · rw [if_neg hkk] at hinner
      have hno : inSubcategory kk kk2 (withDefaults r) = false := by
        rw [Bool.eq_false_iff]
        intro h
        exact hkk ((inSubcategory_iff _ _ _).mp h).1.symm
      exact hold inner hinner hs hno
  · -- completeness
    intro x hx
    have hnew : (∃ c, mapGet (addResource st r).categoryMap (withDefaults r).CategorySlug
          = some c) ∧
        ∃ inner s, mapGet (addResource st r).subcategoryMap (withDefaults r).CategorySlug
            = some inner ∧
          mapGet inner (withDefaults r).SubcategorySlug = some s := by
      refine ⟨?_, ?_⟩
      · rw [hcm]
        cases hget : mapGet st.categoryMap (withDefaults r).CategorySlug with
        | some c0 =>
          simp only [Option.isNone_some, Bool.false_eq_true, if_false]
          exact ⟨c0, hget⟩
        | none =>
          simp only [Option.isNone_none, if_true, mapGet_mapSet_self]
          exact ⟨_, rfl⟩
      · rw [hsm, mapGet_mapUpsert, if_pos rfl]
        obtain ⟨v, hv⟩ := mapGet_mapUpsert_self
          ((mapGet st.subcategoryMap (withDefaults r).CategorySlug).getD [])
          (withDefaults r).SubcategorySlug
          { Name := (withDefaults r).SubcategoryName,
            Slug := (withDefaults r).SubcategorySlug, Resources := [] }
          (fun s => { s with Resources := s.Resources ++ [withDefaults r] })
        exact ⟨_, v, rfl, hv⟩
    rcases List.mem_append.mp hx with hx | hx
    · obtain ⟨⟨c, hc⟩, inner, s, h1, h2⟩ := hg.complete x hx
      by_cases hkk : x.CategorySlug = (withDefaults r).CategorySlug
      · rw [hkk]
        refine ⟨hnew.1, ?_⟩
        rw [hsm, mapGet_mapUpsert, if_pos rfl]
        by_cases hkk2 : x.SubcategorySlug = (withDefaults r).SubcategorySlug
        · rw [hkk2]
          obtain ⟨v, hv⟩ := mapGet_mapUpsert_self
            ((mapGet st.subcategoryMap (withDefaults r).CategorySlug).getD [])
            (withDefaults r).SubcategorySlug
            { Name := (withDefaults r).SubcategoryName,
              Slug := (withDefaults r).SubcategorySlug, Resources := [] }
            (fun s => { s with Resources := s.Resources ++ [withDefaults r] })
          exact ⟨_, v, rfl, hv⟩
        · exact ⟨_, s, rfl, by rw [mapGet_mapUpsert, if_neg hkk2, ← hkk, h1]; exact h2⟩
      · refine ⟨?_, ?_⟩
        · rw [hcm]
          cases hget : mapGet st.categoryMap (withDefaults r).CategorySlug with
          | some c0 =>
            simp only [Option.isNone_some, Bool.false_eq_true, if_false]
            exact ⟨c, hc⟩
          | none =>
            simp only [Option.isNone_none, if_true, mapGet_mapSet, if_neg hkk]
            exact ⟨c, hc⟩
        · rw [hsm, mapGet_mapUpsert, if_neg hkk]
          exact ⟨inner, s, h1, h2⟩
    · rw [List.mem_singleton.mp hx]
      exact hnew
  · -- descriptions
    intro kk
    rw [hdesc]
    exact hg.desc kk

/-! ## Lemmas on grouping along the walk -/

theorem descriptionFor_append (D : List (Str × Str)) (k0 d k : Str) :
    descriptionFor (D ++ [(k0, d)]) k = if k = k0 then some d else descriptionFor D k := by
  unfold descriptionFor
  rw [List.reverse_append, List.reverse_singleton, List.singleton_append, List.find?_cons]
  by_cases h : k = k0
  · rw [if_pos h]
    simp [h]
  · rw [if_neg h]
    have : decide (k0 = k) = false := by
      rw [decide_eq_false_iff_not]
      exact fun h' => h h'.symm
    simp only [this]

theorem groupInv_init : GroupInv BuildState.init [] [] :=
  { cat := fun _ _ h => Option.noConfusion h
    sub := fun _ _ h => Option.noConfusion h
    complete := fun r hr => absurd hr (List.not_mem_nil r)
    desc := fun _ => rfl }

/-- One callback call that does not fail keeps the grouping relation, for the
sequences extended by what the entry contributes. -/
theorem visit_group (tbl : Char → Char) (st st' : BuildState) (e : WalkEntry)
    (P : List Resource) (D : List (Str × Str))
    (hv : visit tbl st e = .ok st') (hb : BuildInv st) (hg : GroupInv st P D) :
    GroupInv st' (P ++ (parsedOf tbl e).toList.map withDefaults)
      (D ++ (describedOf e).toList) := by
  unfold visit at hv
  unfold parsedOf describedOf isResourceDocument isDescriptionDocument
  by_cases hE : e.walkErr = true
  · rw [if_pos hE] at hv
    cases hv
  rw [if_neg hE] at hv
  by_cases hS : (e.isDir || !HasSuffix e.path ".md".toList) = true
  · rw [if_pos hS] at hv
    cases hv
    have : (!e.isDir && HasSuffix e.path ".md".toList) = false := by
      cases hd : e.isDir <;> simp_all
    simp only [this, Bool.false_and, Bool.false_eq_true, if_false, false_and]
    simpa using hg
  rw [if_neg hS] at hv
  have hmd : (!e.isDir && HasSuffix e.path ".md".toList) = true := by
    cases hd : e.isDir <;> simp_all
  by_cases hC : HasSuffix e.path "_category.md".toList = true
  · rw [if_pos hC] at hv
    simp only [hC, hmd, Bool.not_true, Bool.and_false, Bool.false_eq_true, if_false,
      Bool.and_self, true_and]
    dsimp only at hv
    split_ifs at hv with hd
    · cases hv
      rw [if_pos hd]
      simp only [Option.toList, List.map_nil, List.append_nil]
      exact
        { cat := hg.cat
          sub := hg.sub
          complete := hg.complete
          desc := fun k => by
            show mapGet (mapSet st.categoryDescriptions _ _) k = _
            rw [mapGet_mapSet, descriptionFor_append, hg.desc k] }
    · cases hv
      rw [if_neg hd]
      simpa using hg
  rw [if_neg hC] at hv
  have hC' : HasSuffix e.path "_category.md".toList = false := by simpa using hC
  simp only [hC', hmd, Bool.not_false, Bool.and_self, if_true, Bool.and_false,
    Bool.false_eq_true, false_and, if_false]
  cases hp : parseResourceFile tbl e.content with
  | error err =>
    simp only [hp] at hv
    cases hv
    simpa using hg
  | ok o =>
    cases o with
    | none =>
      simp only [hp] at hv
      cases hv
      simpa using hg
    | some r =>
      simp only [hp] at hv
      cases hv
      simpa using addResource_groupInv st r P D hb hg

/-- The state after a walk that did not fail is in the grouping relation with the
parsed resources and the keyed descriptions of the entries. -/
theorem walk_group (tbl : Char → Char) (entries : List WalkEntry) (st st' : BuildState)
    (P : List Resource) (D : List (Str × Str))
    (hw : walk tbl st entries = .ok st') (hb : BuildInv st) (hg : GroupInv st P D) :
    GroupInv st' (P ++ (parsedResources tbl entries).map withDefaults)
      (D ++ descriptionDocs entries) := by
  induction entries generalizing st P D with
  | nil =>
    cases hw
    simpa [parsedResources, descriptionDocs] using hg
  | cons e es ih =>
    unfold walk at hw
    cases hv : visit tbl st e with
    | error err => simp [hv] at hw
    | ok st1 =>
      simp only [hv] at hw
      obtain ⟨i1, _, _⟩ := visit_ok tbl st st1 e hv hb
      have g1 := visit_group tbl st st1 e P D hv hb hg
      have g2 := ih st1 _ _ hw i1 g1
      have hp : parsedResources tbl (e :: es) =
          (parsedOf tbl e).toList ++ parsedResources tbl es :=
        filterMap_cons_toList _ _ _
      have hd : descriptionDocs (e :: es) = (describedOf e).toList ++ descriptionDocs es :=
        filterMap_cons_toList _ _ _
      rw [hp, hd, List.map_append, ← List.append_assoc, ← List.append_assoc]
      exact g2

theorem assembleCategory_description (rt : Runtime) (st : BuildState) (k : Str) (c : Category) :
    (assembleCategory rt st k c).Description =
      (mapGet st.categoryDescriptions k).getD c.Description := by
  unfold assembleCategory
  split
  · next d hd => rw [hd]; rfl
  · next hd => rw [hd]; rfl

theorem assembleSubcategory_mem (rt : Runtime) (hrt : rt.Lawful) (st : BuildState)
    (k : Str) (c : Category) (inner : GoMap Subcategory)
    (hg : mapGet st.subcategoryMap k = some inner) (se : Str × Subcategory) (hse : se ∈ inner) :
    assembleSubcategory rt se.2 ∈ (assembleCategory rt st k c).Subcategories := by
  rw [(assembleCategory_fields rt st k c).2.2, hg]
  refine ((hrt.2 Subcategory (fun s => s.Name) _).1.mem_iff).mpr ?_
  refine List.mem_map.mpr ⟨se, ?_, rfl⟩
  exact ((hrt.1 Subcategory k _).mem_iff).mpr hse

/-- The grouping of the assembled catalog: name and description of every category,
name and resources of every subcategory, in terms of the resources added and the
descriptions recorded. -/
theorem catalog_groups (rt : Runtime) (hrt : rt.Lawful) (st : BuildState)
    (P : List Resource) (D : List (Str × Str)) (hb : BuildInv st) (hg : GroupInv st P D) :
    ∀ c ∈ (assemble rt st).Categories,
      (∃ r0, P.find? (inCategory c.Slug) = some r0 ∧ c.Name = r0.CategoryName) ∧
      c.Description = (descriptionFor D c.Slug).getD [] ∧
      (∀ s ∈ c.Subcategories,
        s.Resources.Perm (resourcesOf P c.Slug s.Slug) ∧
        ∃ r0, P.find? (inSubcategory c.Slug s.Slug) = some r0 ∧
          s.Name = r0.SubcategoryName) ∧
      (∀ r ∈ P, r.CategorySlug = c.Slug →
        ∃ s ∈ c.Subcategories, s.Slug = r.SubcategorySlug ∧ r ∈ s.Resources) := by
  intro c hc
  obtain ⟨e, he, rfl⟩ := mem_assemble_categories rt hrt st c hc
  have hslug : (assembleCategory rt st e.1 e.2).Slug = e.1 := by
    rw [(assembleCategory_fields rt st e.1 e.2).2.1]
    exact hb.cat_slug e he
  have hget : mapGet st.categoryMap e.1 = some e.2 :=
    mapGet_of_mem_nodup _ _ _ (by rw [hb.keys_eq]; exact hb.keys_nodup) he
  obtain ⟨inner, hinner⟩ := mapGet_isSome_of_keys _ _ e hb.keys_eq he
  have hmem := mapGet_some_mem _ _ _ hinner
  obtain ⟨hd, r0, hf, hn⟩ := hg.cat e.1 e.2 hget
  rw [hslug]
  refine ⟨⟨r0, hf, by rw [(assembleCategory_fields rt st e.1 e.2).1]; exact hn⟩, ?_, ?_, ?_⟩
  · rw [assembleCategory_description, hg.desc, hd]
  · intro s hs
    obtain ⟨se, hse, rfl⟩ := mem_assembleCategory_subcategories rt hrt st e.1 e.2 s hs
    rw [hinner] at hse
    have hse' : se ∈ inner := hse
    have hget2 : mapGet inner se.1 = some se.2 :=
      mapGet_of_mem_nodup _ _ _ (hb.inner_nodup _ hmem) hse'
    obtain ⟨a1, r1, a2, a3⟩ := hg.sub e.1 inner hinner se.1 se.2 hget2
    have hs2 : (assembleSubcategory rt se.2).Slug = se.1 := (hb.sub_slug _ hmem se hse').1
    rw [hs2]
    refine ⟨?_, r1, a2, a3⟩
    rw [← a1]
    exact assembleSubcategory_resources_perm rt hrt se.2
  · intro r hr hrk
    obtain ⟨_, inner1, s1, b1, b2⟩ := hg.complete r hr
    rw [hrk, hinner] at b1
    injection b1 with b1
    subst b1
    have hse : (r.SubcategorySlug, s1) ∈ inner := mapGet_some_mem _ _ _ b2
    refine ⟨assembleSubcategory rt s1,
      assembleSubcategory_mem rt hrt st e.1 e.2 inner hinner _ hse,
      (hb.sub_slug _ hmem _ hse).1, ?_⟩
    refine ((assembleSubcategory_resources_perm rt hrt s1).mem_iff).mpr ?_
    rw [(hg.sub e.1 inner hinner _ s1 b2).1]
    unfold resourcesOf
    exact List.mem_filter.mpr ⟨hr, (inSubcategory_iff _ _ _).mpr ⟨hrk, rfl⟩⟩

/-- A catalog returned by `ParseResourcesDir` comes from a state that satisfies the
builder's invariant and the grouping relation. -/
theorem parseResourcesDir_groups (rt : Runtime) (tbl : Char → Char) (entries : List WalkEntry)
    (data : SiteData) (h : ParseResourcesDir rt tbl entries = .ok data) :
    ∃ st, data = assemble rt st ∧ BuildInv st ∧
      GroupInv st ((parsedResources tbl entries).map withDefaults) (descriptionDocs entries) := by
  obtain ⟨st, hw, rfl⟩ := parseResourcesDir_ok rt tbl entries data h
  obtain ⟨hi, _, _⟩ := walk_ok tbl entries BuildState.init st hw buildInv_init
  have hg := walk_group tbl entries BuildState.init st [] [] hw buildInv_init groupInv_init
  exact ⟨st, rfl, hi, by simpa using hg⟩

theorem parseResourceFile_some_slug (tbl : Char → Char) (fc : FileContent) (r : Resource)
    (h : parseResourceFile tbl fc = .ok (some r)) : r.Slug = slugify tbl r.Name := by
  cases fc with
  | unreadable => exact Except.noConfusion h
  | text lines scanErr =>
    cases scanErr with
    | true => exact Except.noConfusion h
    | false =>
      rw [parseResourceFile_text] at h
      injection h with h
      obtain ⟨_, _, h3, _, _, _, _, _, _, h10⟩ := buildResource_some tbl _ r h
      rw [h10, h3]

theorem parsedOf_some (tbl : Char → Char) (e : WalkEntry) (r : Resource)
    (h : parsedOf tbl e = some r) : parseResourceFile tbl e.content = .ok (some r) := by
  unfold parsedOf at h
  split_ifs at h
  split at h
  · next r' hr => injection h with h; rw [hr, h]
  · exact Option.noConfusion h

theorem parsedResources_slug (tbl : Char → Char) (entries : List WalkEntry) (r : Resource)
    (h : r ∈ parsedResources tbl entries) : r.Slug = slugify tbl r.Name := by
  unfold parsedResources at h
  obtain ⟨e, _, he⟩ := List.mem_filterMap.mp h
  exact parseResourceFile_some_slug tbl e.content r (parsedOf_some tbl e r he)

theorem withDefaults_name_slug (r : Resource) :
    (withDefaults r).Name = r.Name ∧ (withDefaults r).Slug = r.Slug := by
  unfold withDefaults
  by_cases h1 : r.CategorySlug = [] <;> by_cases h2 : r.SubcategorySlug = [] <;>
    simp [h1, h2]

/-! ## Claims on grouping, resource slugs and category descriptions -/

/-- C11: grouping is by slug. With `P` the parsed resources in walk order, their
defaults applied: every category of the catalog has the category name of the first
resource of `P` with its slug, and contains every resource of `P` with its slug;
every subcategory has the subcategory name of the first resource of `P` with its
pair of slugs, and holds exactly the resources of `P` with that pair of slugs. As no
two categories share a slug, resources with the same category slug lie in one
category, whatever names they carry. -/
theorem C11_grouping_by_slug (rt : Runtime) (tbl : Char → Char)
    (entries : List WalkEntry) (data : SiteData) (hrt : rt.Lawful)
    (h : ParseResourcesDir rt tbl entries = .ok data) :
    (data.Categories.map (fun c => c.Slug)).Nodup ∧
    ∀ c ∈ data.Categories,
      (∃ r0, ((parsedResources tbl entries).map withDefaults).find? (inCategory c.Slug)
          = some r0 ∧ c.Name = r0.CategoryName) ∧
      (∀ r ∈ (parsedResources tbl entries).map withDefaults, r.CategorySlug = c.Slug →
        ∃ s ∈ c.Subcategories, s.Slug = r.SubcategorySlug ∧ r ∈ s.Resources) ∧
      (c.Subcategories.map (fun s => s.Slug)).Nodup ∧
      ∀ s ∈ c.Subcategories,
        (∃ r0, ((parsedResources tbl entries).map withDefaults).find?
            (inSubcategory c.Slug s.Slug) = some r0 ∧ s.Name = r0.SubcategoryName) ∧
        s.Resources.Perm
          (resourcesOf ((parsedResources tbl entries).map withDefaults) c.Slug s.Slug) := by
  obtain ⟨st, rfl, hb, hg⟩ := parseResourcesDir_groups rt tbl entries data h
  have hcat : ((assemble rt st).Categories.map (fun c => c.Slug)).Nodup := by
    rw [(assemble_category_slugs rt hrt st hb).nodup_iff, hb.keys_eq]
    exact hb.keys_nodup
  refine ⟨hcat, ?_⟩
  intro c hc
  obtain ⟨h1, _, h3, h4⟩ := catalog_groups rt hrt st _ _ hb hg c hc
  refine ⟨h1, h4, ?_, ?_⟩
  · obtain ⟨e, he, rfl⟩ := mem_assemble_categories rt hrt st c hc
    obtain ⟨inner, hget⟩ := mapGet_isSome_of_keys _ _ e hb.keys_eq he
    rw [(assembleCategory_subcategory_slugs rt hrt st hb e.1 e.2 inner hget).nodup_iff]
    exact hb.inner_nodup _ (mapGet_some_mem _ _ _ hget)
  · intro s hs
    obtain ⟨a1, a2⟩ := h3 s hs
    exact ⟨a2, a1⟩

/-- Witness for C11: two documents with the category names "Tools" and "TOOLS!"
and the subcategory names "Trackers" and "trackers" end up in one category named
"Tools" with one subcategory named "Trackers". -/
theorem C11_grouping_by_slug_witness :
    demoRuntime.Lawful ∧
    ∃ data, ParseResourcesDir demoRuntime (fun c => c) demoEntriesMerged = .ok data ∧
      (data.Categories.map (fun c => (c.Slug, c.Name, c.Subcategories.map (fun s =>
        (s.Slug, s.Name, s.Resources.map (fun r => (r.Name, r.CategoryName))))))
        = [ ("tools".toList, "Tools".toList,
              [("trackers".toList, "Trackers".toList,
                [("Alpha".toList, "Tools".toList), ("Beta".toList, "TOOLS!".toList)])]) ]) ∧
      (data.Categories.map (fun c => c.Slug)).Nodup :=
  ⟨demoRuntime_lawful, _, rfl, rfl,
    (C11_grouping_by_slug demoRuntime (fun c => c) demoEntriesMerged _
      demoRuntime_lawful rfl).1⟩

/-- C13 (as stated, refuted): two documents with the same heading and no category
line give a subcategory that holds two resources with the slug `map-genie`. -/
theorem C13_duplicate_resource_slugs :
    ∃ data, ParseResourcesDir demoRuntime (fun c => c) demoEntriesDuplicate = .ok data ∧
      data.Categories.map (fun c => c.Subcategories.map (fun s =>
        s.Resources.map (fun r => r.Slug)))
        = [[["map-genie".toList, "map-genie".toList]]] ∧
      ∃ c ∈ data.Categories, ∃ s ∈ c.Subcategories,
        ¬ (s.Resources.map (fun r => r.Slug)).Nodup :=
  ⟨_, rfl, rfl, _, List.mem_cons_self _ _, _, List.mem_cons_self _ _, by decide⟩

/-- C13 (amended): in a catalog returned by `ParseResourcesDir` the `Slug` of every
resource is `Slugify` of its `Name`, and the resources of a subcategory are, up to
order, all parsed resources with its pair of slugs: so the resource slugs of a
subcategory are pairwise distinct exactly when the parsed resources with that pair
of slugs have pairwise distinct slugs; a document is never dropped or renamed to
make them distinct. -/
theorem C13_resource_slugs (rt : Runtime) (tbl : Char → Char)
    (entries : List WalkEntry) (data : SiteData) (hrt : rt.Lawful)
    (h : ParseResourcesDir rt tbl entries = .ok data) :
    ∀ c ∈ data.Categories, ∀ s ∈ c.Subcategories,
      (∀ r ∈ s.Resources, r.Slug = Slugify tbl r.Name) ∧
      s.Resources.Perm
        (resourcesOf ((parsedResources tbl entries).map withDefaults) c.Slug s.Slug) ∧
      ((s.Resources.map (fun r => r.Slug)).Nodup ↔
        ((resourcesOf ((parsedResources tbl entries).map withDefaults) c.Slug s.Slug).map
          (fun r => r.Slug)).Nodup) := by
  obtain ⟨st, rfl, hb, hg⟩ := parseResourcesDir_groups rt tbl entries data h
  intro c hc s hs
  obtain ⟨_, _, h3, _⟩ := catalog_groups rt hrt st _ _ hb hg c hc
  obtain ⟨hperm, _⟩ := h3 s hs
  refine ⟨?_, hperm, (hperm.map _).nodup_iff⟩
  intro r hr
  have h1 : r ∈ resourcesOf ((parsedResources tbl entries).map withDefaults) c.Slug s.Slug :=
    (hperm.mem_iff).mp hr
  unfold resourcesOf at h1
  obtain ⟨r0, hr0, rfl⟩ := List.mem_map.mp (List.mem_filter.mp h1).1
  obtain ⟨n1, n2⟩ := withDefaults_name_slug r0
  rw [n1, n2]
  exact parsedResources_slug tbl entries r0 hr0

/-- Witness for C13: the catalog built from the sample content tree. -/
theorem C13_resource_slugs_witness :
    demoRuntime.Lawful ∧
    ∃ data, ParseResourcesDir demoRuntime (fun c => c) demoEntries = .ok data ∧
      ∀ c ∈ data.Categories, ∀ s ∈ c.Subcategories,
        (∀ r ∈ s.Resources, r.Slug = Slugify (fun c => c) r.Name) ∧
        s.Resources.Perm
          (resourcesOf ((parsedResources (fun c => c) demoEntries).map withDefaults)
            c.Slug s.Slug) ∧
        ((s.Resources.map (fun r => r.Slug)).Nodup ↔
          ((resourcesOf ((parsedResources (fun c => c) demoEntries).map withDefaults)
            c.Slug s.Slug).map (fun r => r.Slug)).Nodup) :=
  ⟨demoRuntime_lawful, _, rfl,
    C13_resource_slugs demoRuntime (fun c => c) demoEntries _ demoRuntime_lawful rfl⟩

theorem descriptionFor_none (docs : List (Str × Str)) (k : Str)
    (h : ∀ p ∈ docs, p.1 ≠ k) : descriptionFor docs k = none := by
  unfold descriptionFor
  rw [Option.map_eq_none', List.find?_eq_none]
  intro p hp
  have := h p (List.mem_reverse.mp hp)
  simpa using this

theorem descriptionFor_last (before after : List (Str × Str)) (k d : Str)
    (h : ∀ p ∈ after, p.1 ≠ k) :
    descriptionFor (before ++ (k, d) :: after) k = some d := by
  unfold descriptionFor
  rw [List.reverse_append, List.reverse_cons, List.append_assoc, find?_append_of_none]
  · simp
  · rw [List.find?_eq_none]
    intro p hp
    have := h p (List.mem_reverse.mp hp)
    simpa using this

/-- C17 (as stated, refuted): with the category directory named `Tools`, the
description document is keyed `Tools`; the category with the slug `tools`, which is
`Slugify` of the directory name, keeps an empty description. -/
theorem C17_directory_name_not_slugified :
    descriptionDocs demoEntriesCapitalDir = [("Tools".toList, "Useful tools".toList)] ∧
    Slugify (fun c => c) "Tools".toList = "tools".toList ∧
    ∃ data, ParseResourcesDir demoRuntime (fun c => c) demoEntriesCapitalDir = .ok data ∧
      data.Categories.map (fun c => (c.Slug, c.Description)) = [("tools".toList, [])] :=
  ⟨by decide, by decide, _, rfl, rfl⟩

/-- C17 (amended): a description document with a non-empty description is keyed by
the name of its containing directory as it stands, and a category of the catalog
gets as `Description` the description of the last visited description document
whose key equals the category's `Slug`; a category without such a document has an
empty `Description`. -/
theorem C17_description_by_directory_name (rt : Runtime) (tbl : Char → Char)
    (entries : List WalkEntry) (data : SiteData) (hrt : rt.Lawful)
    (h : ParseResourcesDir rt tbl entries = .ok data) :
    ∀ c ∈ data.Categories,
      c.Description = (descriptionFor (descriptionDocs entries) c.Slug).getD [] ∧
      ((∀ p ∈ descriptionDocs entries, p.1 ≠ c.Slug) → c.Description = []) ∧
      (∀ before after d, descriptionDocs entries = before ++ (c.Slug, d) :: after →
        (∀ p ∈ after, p.1 ≠ c.Slug) → c.Description = d) ∧
      (∀ e ∈ entries, ∀ p, describedOf e = some p →
        p.1 = pathBase (pathDir e.path) ∧ p.2 = parseCategoryDescription e.content ∧
        p.2 ≠ [] ∧ isDescriptionDocument e = true) := by
  obtain ⟨st, rfl, hb, hg⟩ := parseResourcesDir_groups rt tbl entries data h
  intro c hc
  obtain ⟨_, h2, _, _⟩ := catalog_groups rt hrt st _ _ hb hg c hc
  refine ⟨h2, ?_, ?_, ?_⟩
  · intro hno
    rw [h2, descriptionFor_none _ _ hno]
    rfl
  · intro before after d hd hafter
    rw [h2, hd, descriptionFor_last _ _ _ _ hafter]
    rfl
  · intro e _ p hp
    unfold describedOf at hp
    split_ifs at hp with hcond
    injection hp with hp
    rw [← hp]
    exact ⟨rfl, rfl, hcond.2, hcond.1⟩

/-- Witness for C17: in the sample content tree the directory is named `tools`, and
the category with the slug `tools` gets the description of its document. -/
theorem C17_description_by_directory_name_witness :
    demoRuntime.Lawful ∧
    descriptionDocs demoEntries = [("tools".toList, "Useful tools".toList)] ∧
    ∃ data, ParseResourcesDir demoRuntime (fun c => c) demoEntries = .ok data ∧
      data.Categories.map (fun c => (c.Slug, c.Description))
        = [("tools".toList, "Useful tools".toList), ("uncategorized".toList, [])] ∧
      ∀ c ∈ data.Categories,
        c.Description = (descriptionFor (descriptionDocs demoEntries) c.Slug).getD [] :=
  ⟨demoRuntime_lawful, by decide, _, rfl, rfl,
    fun c hc => (C17_description_by_directory_name demoRuntime (fun c => c) demoEntries _
      demoRuntime_lawful rfl c hc).1⟩

/-! ## Lemmas on the redirect handler -/

theorem getResourceInResources_mem (rs : Str) (l : List Resource) (r : Resource)
    (h : getResourceInResources rs l = some r) : r ∈ l ∧ r.Slug = rs := by
  rw [getResourceInResources_eq_find] at h
  exact ⟨List.mem_of_find?_eq_some h, by simpa using List.find?_some h⟩

theorem getResourceInSubcategories_mem (rs : Str) (l : List Subcategory) (r : Resource)
    (h : getResourceInSubcategories rs l = some r) :
    r.Slug = rs ∧ ∃ s ∈ l, r ∈ s.Resources := by
  rw [getResourceInSubcategories_eq_find] at h
  obtain ⟨s, hs, hr⟩ := List.mem_flatMap.mp (List.mem_of_find?_eq_some h)
  exact ⟨by simpa using List.find?_some h, s, hs, hr⟩

/-- A resource returned by the lookup lies in a category of the catalog with the
requested slug, whether or not the category slugs are unique. -/
theorem getResourceLoop_mem (cs rs : Str) (l : List Category) (r : Resource)
    (h : getResourceLoop cs rs l = some r) :
    r.Slug = rs ∧ ∃ c ∈ l, c.Slug = cs ∧ ∃ s ∈ c.Subcategories, r ∈ s.Resources := by
  induction l with
  | nil => exact Option.noConfusion h
  | cons c l ih =>
    unfold getResourceLoop at h
    have hrest : getResourceLoop cs rs l = some r →
        r.Slug = rs ∧ ∃ c' ∈ c :: l, c'.Slug = cs ∧ ∃ s ∈ c'.Subcategories, r ∈ s.Resources := by
      intro h'
      obtain ⟨h1, c', hc', h2⟩ := ih h'
      exact ⟨h1, c', List.mem_cons_of_mem _ hc', h2⟩
    by_cases hc : c.Slug = cs
    · rw [if_pos hc] at h
      cases hsub : getResourceInSubcategories rs c.Subcategories with
      | some r' =>
        rw [hsub] at h
        injection h with h
        subst h
        obtain ⟨h1, s, hs, hr⟩ := getResourceInSubcategories_mem rs _ _ hsub
        exact ⟨h1, c, List.mem_cons_self _ _, hc, s, hs, hr⟩
      | none =>
        rw [hsub] at h
        exact hrest h
    · rw [if_neg hc] at h
      exact hrest h

theorem redirectTarget_no_panic (resource : Resource) (linkIndex : Int) :
    redirectTarget resource linkIndex ≠ .indexPanic := by
  unfold redirectTarget
  split_ifs with h1 h2 h3 h4
  · exact fun h => RedirectOutcome.noConfusion h
  · have hlt : linkIndex.toNat < resource.URLs.length := by omega
    rw [List.getElem?_eq_getElem hlt]
    exact fun h => RedirectOutcome.noConfusion h
  · exact fun h => RedirectOutcome.noConfusion h
  · exact fun h => RedirectOutcome.noConfusion h
  · exact fun h => RedirectOutcome.noConfusion h

theorem redirectTarget_page (resource : Resource) (linkIndex : Int) (url name : Str)
    (h : redirectTarget resource linkIndex = .page url name) :
    name = resource.Name ∧
    ((∃ link, 0 ≤ linkIndex ∧ linkIndex < resource.URLs.length ∧
        resource.URLs[linkIndex.toNat]? = some link ∧ url = link.URL) ∨
     (resource.URLs = [] ∧ linkIndex = 0 ∧ url = resource.URL ∧ resource.URL ≠ [])) := by
  unfold redirectTarget at h
  split_ifs at h with h1 h2 h3 h4
  · have hlt : linkIndex.toNat < resource.URLs.length := by omega
    rw [List.getElem?_eq_getElem hlt] at h
    simp only [RedirectOutcome.page.injEq] at h
    refine ⟨h.2.symm, Or.inl ⟨_, by omega, by omega, List.getElem?_eq_getElem hlt, h.1.symm⟩⟩
  · simp only [RedirectOutcome.page.injEq] at h
    have hnil : resource.URLs = [] := List.eq_nil_of_length_eq_zero (by omega)
    have h0 : linkIndex = 0 := by
      by_contra hne
      exact h4 hne
    exact ⟨h.2.symm, Or.inr ⟨hnil, h0, h.1.symm, h3⟩⟩

theorem redirectTarget_notFound (resource : Resource) (linkIndex : Int) :
    (resource.URLs ≠ [] → (linkIndex < 0 ∨ linkIndex ≥ resource.URLs.length) →
      redirectTarget resource linkIndex = .notFound) ∧
    (resource.URLs = [] → linkIndex ≠ 0 → redirectTarget resource linkIndex = .notFound) ∧
    (resource.URLs = [] → resource.URL = [] →
      redirectTarget resource linkIndex = .notFound) := by
  unfold redirectTarget
  refine ⟨?_, ?_, ?_⟩
  · intro hne hidx
    have hpos : resource.URLs.length > 0 := List.length_pos.mpr hne
    rw [if_pos hpos, if_pos hidx]
  · intro hnil hidx
    have hlen : ¬ resource.URLs.length > 0 := by rw [hnil]; exact Nat.lt_irrefl 0
    rw [if_neg hlen]
    split_ifs
    · rfl
    · rfl
  · intro hnil hurl
    have hlen : ¬ resource.URLs.length > 0 := by rw [hnil]; exact Nat.lt_irrefl 0
    rw [if_neg hlen, if_neg (fun h => h hurl)]

/-! ## Claim on the redirect handler -/

/-- C21: whenever `Handler.Redirect` renders the redirect page, the request path has
two or three segments, `GetResourceBySlug` finds a resource for the first two, the
index is 0 (two segments) or the scanned third segment, and the target is
`URLs[index].URL` of that resource with `0 ≤ index < len(URLs)`, or its primary URL
when `URLs` is empty and the index is 0; the resource lies in the catalog, so the
target comes from the catalog; the `URLs` slice is never indexed out of bounds; a
path with fewer than 2 or more than 3 segments, an unknown resource, an index that
is negative or not below `len(URLs)`, or a non-zero index with empty `URLs`, yields
not-found. -/
theorem C21_redirect_target (sscanInt : Str → Option Int) (data : SiteData) (urlPath : Str) :
    Redirect sscanInt data urlPath ≠ .indexPanic ∧
    (∀ url name, Redirect sscanInt data urlPath = .page url name →
      ∃ categorySlug resourceSlug rest resource linkIndex,
        redirectParts urlPath = categorySlug :: resourceSlug :: rest ∧ rest.length ≤ 1 ∧
        redirectIndex sscanInt rest = some linkIndex ∧
        (rest = [] → linkIndex = 0) ∧
        GetResourceBySlug data categorySlug resourceSlug = some resource ∧
        name = resource.Name ∧
        ((∃ link, 0 ≤ linkIndex ∧ linkIndex < resource.URLs.length ∧
            resource.URLs[linkIndex.toNat]? = some link ∧ url = link.URL) ∨
         (resource.URLs = [] ∧ linkIndex = 0 ∧ url = resource.URL ∧ resource.URL ≠ [])) ∧
        ∃ c ∈ data.Categories, c.Slug = categorySlug ∧
          ∃ s ∈ c.Subcategories, resource ∈ s.Resources) ∧
    ((redirectParts urlPath).length < 2 ∨ (redirectParts urlPath).length > 3 →
      Redirect sscanInt data urlPath = .notFound) ∧
    (∀ categorySlug resourceSlug rest,
      redirectParts urlPath = categorySlug :: resourceSlug :: rest →
      GetResourceBySlug data categorySlug resourceSlug = none →
      Redirect sscanInt data urlPath = .notFound) ∧
    (∀ categorySlug resourceSlug rest resource linkIndex,
      redirectParts urlPath = categorySlug :: resourceSlug :: rest →
      redirectIndex sscanInt rest = some linkIndex →
      GetResourceBySlug data categorySlug resourceSlug = some resource →
      (resource.URLs ≠ [] ∧ (linkIndex < 0 ∨ linkIndex ≥ resource.URLs.length) ∨
        resource.URLs = [] ∧ linkIndex ≠ 0) →
      Redirect sscanInt data urlPath = .notFound) := by
  refine ⟨?_, ?_, ?_, ?_, ?_⟩
  · unfold Redirect
    dsimp only
    split_ifs
    · exact fun h => RedirectOutcome.noConfusion h
    · split
      · split
        · exact fun h => RedirectOutcome.noConfusion h
        · split
          · exact fun h => RedirectOutcome.noConfusion h
          · exact redirectTarget_no_panic _ _
      · exact fun h => RedirectOutcome.noConfusion h
  · intro url name h
    unfold Redirect at h
    dsimp only at h
    split_ifs at h with hlen
    cases hparts : redirectParts urlPath with
    | nil => rw [hparts] at h; exact RedirectOutcome.noConfusion h
    | cons categorySlug tl =>
      cases tl with
      | nil => rw [hparts] at h; exact RedirectOutcome.noConfusion h
      | cons resourceSlug rest =>
        rw [hparts] at h hlen
        dsimp only at h
        cases hidx : redirectIndex sscanInt rest with
        | none => rw [hidx] at h; exact RedirectOutcome.noConfusion h
        | some linkIndex =>
          rw [hidx] at h
          dsimp only at h
          cases hres : GetResourceBySlug data categorySlug resourceSlug with
          | none => rw [hres] at h; exact RedirectOutcome.noConfusion h
          | some resource =>
            rw [hres] at h
            dsimp only at h
            obtain ⟨hn, htarget⟩ := redirectTarget_page resource linkIndex url name h
            obtain ⟨_, c, hc, hcs, s, hs, hr⟩ :=
              getResourceLoop_mem categorySlug resourceSlug data.Categories resource hres
            refine ⟨categorySlug, resourceSlug, rest, resource, linkIndex, rfl, ?_, hidx, ?_,
              hres, hn, htarget, c, hc, hcs, s, hs, hr⟩
            · simp only [List.length_cons] at hlen
              omega
            · intro hrest
              rw [hrest] at hidx
              injection hidx with hidx
              exact hidx.symm
  · intro hlen
    unfold Redirect
    dsimp only
    rw [if_pos hlen]
  · intro categorySlug resourceSlug rest hparts hres
    unfold Redirect
    dsimp only
    rw [hparts]
    split_ifs
    · rfl
    · dsimp only
      rw [hres]
      split <;> rfl
  · intro categorySlug resourceSlug rest resource linkIndex hparts hidx hres hbad
    unfold Redirect
    dsimp only
    rw [hparts]
    split_ifs
    · rfl
    · dsimp only
      rw [hidx, hres]
      dsimp only
      obtain ⟨n1, n2, _⟩ := redirectTarget_notFound resource linkIndex
      rcases hbad with ⟨h1, h2⟩ | ⟨h1, h2⟩
      · exact n1 h1 h2
      · exact n2 h1 h2

/-- Witness for C21: on the sample catalog, `/go/tools/map-genie` and
`/go/tools/map-genie/0` render the page with the link of the resource, an index
out of range and an unknown resource yield not-found. -/
theorem C21_redirect_target_witness :
    Redirect demoSscanInt demoCatalog "/go/tools/map-genie".toList =
      .page "https://mapgenie.io".toList "Map Genie".toList ∧
    Redirect demoSscanInt demoCatalog "/go/tools/map-genie/0".toList =
      .page "https://mapgenie.io".toList "Map Genie".toList ∧
    Redirect demoSscanInt demoCatalog "/go/tools/map-genie/1".toList = .notFound ∧
    Redirect demoSscanInt demoCatalog "/go/tools/other".toList = .notFound ∧
    Redirect demoSscanInt demoCatalog "/go/tools".toList = .notFound ∧
    Redirect demoSscanInt demoCatalog "/go/tools/map-genie/0".toList ≠ .indexPanic :=
  ⟨by decide, by decide, by decide, by decide, by decide,
    (C21_redirect_target demoSscanInt demoCatalog "/go/tools/map-genie/0".toList).1⟩

/-! ## Lemmas on documents that parse to no result -/

theorem walk_append (tbl : Char → Char) (st : BuildState) (pre post : List WalkEntry) :
    walk tbl st (pre ++ post) =
      match walk tbl st pre with
      | .error err => .error err
      | .ok st' => walk tbl st' post := by
  induction pre generalizing st with
  | nil => rfl
  | cons e es ih =>
    have h1 : walk tbl st (e :: (es ++ post)) =
        (match visit tbl st e with
         | .error err => .error err
         | .ok st1 => walk tbl st1 (es ++ post)) := rfl
    have h2 : walk tbl st (e :: es) =
        (match visit tbl st e with
         | .error err => .error err
         | .ok st1 => walk tbl st1 es) := rfl
    show walk tbl st (e :: (es ++ post)) = _
    rw [h1, h2]
    cases hv : visit tbl st e with
    | error err => rfl
    | ok st1 => exact ih st1

theorem walk_ok_walkErr (tbl : Char → Char) (entries : List WalkEntry) (st st' : BuildState)
    (hw : walk tbl st entries = .ok st') : ∀ e ∈ entries, e.walkErr = false := by
  intro e he
  cases h : e.walkErr with
  | false => rfl
  | true =>
    rw [walk_fails tbl entries st ⟨e, he, h⟩] at hw
    exact Except.noConfusion hw

theorem visit_skips_empty_document (tbl : Char → Char) (st : BuildState) (e : WalkEntry)
    (hw : e.walkErr = false) (hdoc : isResourceDocument e = true)
    (hp : parseResourceFile tbl e.content = .ok none) : visit tbl st e = .ok st := by
  unfold isResourceDocument at hdoc
  simp only [Bool.and_eq_true, Bool.not_eq_true', Bool.not_eq_true] at hdoc
  obtain ⟨⟨h1, h2⟩, h3⟩ := hdoc
  unfold visit
  rw [if_neg (by rw [hw]; exact Bool.false_ne_true), if_neg (by rw [h1, h2]; decide),
    if_neg (by rw [h3]; exact Bool.false_ne_true), hp]

/-- A walk that passes a resource document parsing to no result ends in the state of
the walk without that document. -/
theorem walk_skips_empty_document (tbl : Char → Char) (st st' : BuildState)
    (pre post : List WalkEntry) (e : WalkEntry)
    (hdoc : isResourceDocument e = true) (hp : parseResourceFile tbl e.content = .ok none)
    (hw : walk tbl st (pre ++ e :: post) = .ok st') :
    walk tbl st (pre ++ post) = .ok st' := by
  have he : e.walkErr = false :=
    walk_ok_walkErr tbl _ st st' hw e (List.mem_append_right _ (List.mem_cons_self _ _))
  rw [walk_append] at hw
  rw [walk_append]
  cases hpre : walk tbl st pre with
  | error err => rw [hpre] at hw; exact Except.noConfusion hw
  | ok st1 =>
    rw [hpre] at hw
    dsimp only at hw ⊢
    unfold walk at hw
    rw [visit_skips_empty_document tbl st1 e he hdoc hp] at hw
    exact hw

theorem parseResourceFile_no_heading (tbl : Char → Char) (lines : List Str)
    (h : ∀ l ∈ lines, HasPrefix l "# ".toList = false) :
    parseResourceFile tbl (.text lines false) = .ok none := by
  rw [parseResourceFile_text, (buildResource_none_iff tbl _).mpr
    (Or.inl (by rw [scanLines_name_of_no_heading _ _ h]; rfl))]

/-! ## Claim on the resources of the catalog -/

/-- C22: for every sequence of entries visited by `ParseResourcesDir` that returns a
catalog, `TotalResources` is the number of documents that parse to a resource, and
the resources of the catalog are, as a multiset, exactly the parsed resources with
the default category and subcategory fields filled in; a resource document that
parses to no result is not counted among the parsed resources, and the catalog is
the one built from the walk without that document; a document with no `# ` heading
line (such as one lacking both a heading and a website link) parses to no result. -/
theorem C22_catalog_is_parsed_multiset (rt : Runtime) (tbl : Char → Char)
    (entries : List WalkEntry) (data : SiteData) (hrt : rt.Lawful)
    (h : ParseResourcesDir rt tbl entries = .ok data) :
    data.TotalResources = (parsedResources tbl entries).length ∧
    (catalogResources data).Perm ((parsedResources tbl entries).map withDefaults) ∧
    (∀ pre e post, entries = pre ++ e :: post → isResourceDocument e = true →
      parseResourceFile tbl e.content = .ok none →
        parsedOf tbl e = none ∧
        parsedResources tbl entries = parsedResources tbl (pre ++ post) ∧
        ParseResourcesDir rt tbl (pre ++ post) = .ok data) ∧
    (∀ lines, (∀ l ∈ lines, HasPrefix l "# ".toList = false) →
      parseResourceFile tbl (.text lines false) = .ok none) := by
  obtain ⟨st, hw, rfl⟩ := parseResourcesDir_ok rt tbl entries data h
  obtain ⟨hi, ht, hp⟩ := walk_ok tbl entries BuildState.init st hw buildInv_init
  refine ⟨?_, ?_, ?_, parseResourceFile_no_heading tbl⟩
  · show st.totalResources = _
    rw [ht]
    simp [BuildState.init]
  · refine (assemble_resources_perm rt hrt st hi).trans (hp.trans ?_)
    simp [stateResources, BuildState.init]
  · intro pre e post hent hdoc hnone
    subst hent
    have hpo : parsedOf tbl e = none := by
      unfold parsedOf
      rw [if_pos hdoc, hnone]
    refine ⟨hpo, ?_, ?_⟩
    · unfold parsedResources
      rw [List.filterMap_append, List.filterMap_append, filterMap_cons_toList, hpo]
      rfl
    · unfold ParseResourcesDir
      rw [walk_skips_empty_document tbl _ st pre post e hdoc hnone hw]

/-- Witness for C22: the sample content tree, whose last document has neither
heading nor link, builds a catalog with the two parsed resources. -/
theorem C22_catalog_is_parsed_multiset_witness :
    demoRuntime.Lawful ∧
    ∃ data, ParseResourcesDir demoRuntime (fun c => c) demoEntries = .ok data ∧
      data.TotalResources = (parsedResources (fun c => c) demoEntries).length ∧
      (catalogResources data).Perm
        ((parsedResources (fun c => c) demoEntries).map withDefaults) ∧
      (parsedResources (fun c => c) demoEntries).length = 2 ∧
      demoEntries.length = 6 :=
  ⟨demoRuntime_lawful, _, rfl,
    (C22_catalog_is_parsed_multiset demoRuntime (fun c => c) demoEntries _
      demoRuntime_lawful rfl).1,
    (C22_catalog_is_parsed_multiset demoRuntime (fun c => c) demoEntries _
      demoRuntime_lawful rfl).2.1,
    by decide, by decide⟩

/-! ## Lemmas on the lookups in a built catalog -/

theorem sitemapCategoryIds_eq (data : SiteData) :
    sitemapCategoryIds data = data.Categories.map (fun c => c.Slug) := by
  unfold sitemapCategoryIds
  rw [foldl_append_flatMap (fun (c : Category) => [c.Slug]), List.nil_append]
  induction data.Categories with
  | nil => rfl
  | cons c l ih => rw [List.flatMap_cons, ih]; rfl

theorem sitemapResourceIds_eq (data : SiteData) :
    sitemapResourceIds data =
      data.Categories.flatMap (fun c => c.Subcategories.flatMap (fun s =>
        s.Resources.flatMap (fun r => [(c.Slug, r.Slug)]))) := by
  unfold sitemapResourceIds
  have hinner : ∀ (c : Category) (s : Subcategory) (urls : List (Str × Str)),
      s.Resources.foldl (fun urls resource => urls ++ [(c.Slug, resource.Slug)]) urls =
        urls ++ s.Resources.flatMap (fun r => [(c.Slug, r.Slug)]) :=
    fun c s urls => foldl_append_flatMap (fun (r : Resource) => [(c.Slug, r.Slug)]) _ urls
  have hmid : ∀ (c : Category) (urls : List (Str × Str)),
      c.Subcategories.foldl (fun urls subcategory =>
        subcategory.Resources.foldl (fun urls resource =>
          urls ++ [(c.Slug, resource.Slug)]) urls) urls =
        urls ++ c.Subcategories.flatMap (fun s =>
          s.Resources.flatMap (fun r => [(c.Slug, r.Slug)])) := by
    intro c urls
    have hf : (fun (urls : List (Str × Str)) (subcategory : Subcategory) =>
        subcategory.Resources.foldl (fun urls resource =>
          urls ++ [(c.Slug, resource.Slug)]) urls) =
        (fun urls subcategory =>
          urls ++ subcategory.Resources.flatMap (fun r => [(c.Slug, r.Slug)])) := by
      funext urls s
      exact hinner c s urls
    rw [hf]
    exact foldl_append_flatMap _ _ urls
  have hf : (fun (urls : List (Str × Str)) (category : Category) =>
      category.Subcategories.foldl (fun urls subcategory =>
        subcategory.Resources.foldl (fun urls resource =>
          urls ++ [(category.Slug, resource.Slug)]) urls) urls) =
      (fun urls category =>
        urls ++ category.Subcategories.flatMap (fun s =>
          s.Resources.flatMap (fun r => [(category.Slug, r.Slug)]))) := by
    funext urls c
    exact hmid c urls
  rw [hf, foldl_append_flatMap, List.nil_append]

theorem mem_sitemapResourceIds (data : SiteData) (p : Str × Str)
    (h : p ∈ sitemapResourceIds data) :
    ∃ c ∈ data.Categories, ∃ s ∈ c.Subcategories, ∃ r ∈ s.Resources,
      p = (c.Slug, r.Slug) := by
  rw [sitemapResourceIds_eq] at h
  obtain ⟨c, hc, h⟩ := List.mem_flatMap.mp h
  obtain ⟨s, hs, h⟩ := List.mem_flatMap.mp h
  obtain ⟨r, hr, h⟩ := List.mem_flatMap.mp h
  exact ⟨c, hc, s, hs, r, hr, List.mem_singleton.mp h⟩

theorem sitemapResourceIds_mem (data : SiteData) (c : Category) (hc : c ∈ data.Categories)
    (s : Subcategory) (hs : s ∈ c.Subcategories) (r : Resource) (hr : r ∈ s.Resources) :
    (c.Slug, r.Slug) ∈ sitemapResourceIds data := by
  rw [sitemapResourceIds_eq]
  exact List.mem_flatMap.mpr ⟨c, hc, List.mem_flatMap.mpr ⟨s, hs,
    List.mem_flatMap.mpr ⟨r, hr, List.mem_singleton.mpr rfl⟩⟩⟩

/-- In a list with distinct slugs the first category with the slug of a member is
that member. -/
theorem find?_slug_of_mem (l : List Category) (hn : (l.map (fun c => c.Slug)).Nodup)
    (c : Category) (hc : c ∈ l) : l.find? (fun x => x.Slug = c.Slug) = some c := by
  induction l with
  | nil => exact absurd hc (List.not_mem_nil c)
  | cons a l ih =>
    rw [List.map_cons, List.nodup_cons] at hn
    rcases List.mem_cons.mp hc with rfl | hc'
    · simp [List.find?_cons]
    · have hne : a.Slug ≠ c.Slug := by
        intro he
        exact hn.1 (he ▸ List.mem_map_of_mem (fun c => c.Slug) hc')
      rw [List.find?_cons]
      simp only [hne, decide_False]
      exact ih hn.2 hc'

theorem getCategoryLoop_of_mem (l : List Category) (hn : (l.map (fun c => c.Slug)).Nodup)
    (c : Category) (hc : c ∈ l) : getCategoryLoop c.Slug l = some c := by
  rw [getCategoryLoop_eq_find]
  exact find?_slug_of_mem l hn c hc

theorem getResourceLoop_of_mem (l : List Category) (hn : (l.map (fun c => c.Slug)).Nodup)
    (c : Category) (hc : c ∈ l) (s : Subcategory) (hs : s ∈ c.Subcategories)
    (r : Resource) (hr : r ∈ s.Resources) :
    ∃ r', getResourceLoop c.Slug r.Slug l = some r' ∧ r'.Slug = r.Slug ∧
      ∃ s' ∈ c.Subcategories, r' ∈ s'.Resources := by
  rw [getResourceLoop_eq_spec c.Slug r.Slug l hn, find?_slug_of_mem l hn c hc]
  dsimp only
  have hmem : r ∈ categoryResources c := List.mem_flatMap.mpr ⟨s, hs, hr⟩
  cases hf : (categoryResources c).find? (fun x => x.Slug = r.Slug) with
  | none =>
    have := List.find?_eq_none.mp hf r hmem
    simp at this
  | some r' =>
    obtain ⟨s', hs', hr'⟩ := List.mem_flatMap.mp (List.mem_of_find?_eq_some hf)
    exact ⟨r', rfl, by simpa using List.find?_some hf, s', hs', hr'⟩

theorem parseResourcesDir_slugs_nodup (rt : Runtime) (tbl : Char → Char)
    (entries : List WalkEntry) (data : SiteData) (hrt : rt.Lawful)
    (h : ParseResourcesDir rt tbl entries = .ok data) :
    (data.Categories.map (fun c => c.Slug)).Nodup := by
  obtain ⟨st, hw, rfl⟩ := parseResourcesDir_ok rt tbl entries data h
  obtain ⟨hi, _, _⟩ := walk_ok tbl entries BuildState.init st hw buildInv_init
  rw [(assemble_category_slugs rt hrt st hi).nodup_iff, hi.keys_eq]
  exact hi.keys_nodup

/-! ## Claim on the round trip of identifiers -/

/-- C23: in a catalog returned by `ParseResourcesDir`, `GetCategoryBySlug(data,
c.Slug)` returns `c` for every category `c` of the catalog, and for every resource
`r` contained in category `c`, `GetResourceBySlug(data, c.Slug, r.Slug)` finds a
resource of category `c` whose `Slug` is `r.Slug`; so every category identifier
and every pair of category and resource identifiers that `Handler.Sitemap`
enumerates resolves through the lookups; the sitemap enumerates exactly the slugs
of the categories and the pairs of the contained resources. -/
theorem C23_identifiers_round_trip (rt : Runtime) (tbl : Char → Char)
    (entries : List WalkEntry) (data : SiteData) (hrt : rt.Lawful)
    (h : ParseResourcesDir rt tbl entries = .ok data) :
    (∀ c ∈ data.Categories, GetCategoryBySlug data c.Slug = some c) ∧
    (∀ c ∈ data.Categories, ∀ s ∈ c.Subcategories, ∀ r ∈ s.Resources,
      ∃ r', GetResourceBySlug data c.Slug r.Slug = some r' ∧ r'.Slug = r.Slug ∧
        ∃ s' ∈ c.Subcategories, r' ∈ s'.Resources) ∧
    (∀ id ∈ sitemapCategoryIds data,
      ∃ c ∈ data.Categories, GetCategoryBySlug data id = some c ∧ c.Slug = id) ∧
    (∀ p ∈ sitemapResourceIds data,
      ∃ c ∈ data.Categories, c.Slug = p.1 ∧
        ∃ r', GetResourceBySlug data p.1 p.2 = some r' ∧ r'.Slug = p.2 ∧
          ∃ s' ∈ c.Subcategories, r' ∈ s'.Resources) ∧
    sitemapCategoryIds data = data.Categories.map (fun c => c.Slug) ∧
    (∀ c ∈ data.Categories, ∀ s ∈ c.Subcategories, ∀ r ∈ s.Resources,
      (c.Slug, r.Slug) ∈ sitemapResourceIds data) := by
  have hn := parseResourcesDir_slugs_nodup rt tbl entries data hrt h
  refine ⟨fun c hc => getCategoryLoop_of_mem _ hn c hc,
    fun c hc s hs r hr => getResourceLoop_of_mem _ hn c hc s hs r hr, ?_, ?_,
    sitemapCategoryIds_eq data, sitemapResourceIds_mem data⟩
  · intro id hid
    rw [sitemapCategoryIds_eq] at hid
    obtain ⟨c, hc, rfl⟩ := List.mem_map.mp hid
    exact ⟨c, hc, getCategoryLoop_of_mem _ hn c hc, rfl⟩
  · intro p hp
    obtain ⟨c, hc, s, hs, r, hr, rfl⟩ := mem_sitemapResourceIds data p hp
    exact ⟨c, hc, rfl, getResourceLoop_of_mem _ hn c hc s hs r hr⟩

/-- Witness for C23: in the catalog built from the sample content tree the category
`tools` and the resource `uncategorized/map-genie` resolve. -/
theorem C23_identifiers_round_trip_witness :
    demoRuntime.Lawful ∧
    ∃ data, ParseResourcesDir demoRuntime (fun c => c) demoEntries = .ok data ∧
      sitemapCategoryIds data = ["tools".toList, "uncategorized".toList] ∧
      (∀ c ∈ data.Categories, GetCategoryBySlug data c.Slug = some c) ∧
      (∀ p ∈ sitemapResourceIds data,
        ∃ c ∈ data.Categories, c.Slug = p.1 ∧
          ∃ r', GetResourceBySlug data p.1 p.2 = some r' ∧ r'.Slug = p.2 ∧
            ∃ s' ∈ c.Subcategories, r' ∈ s'.Resources) :=
  ⟨demoRuntime_lawful, _, rfl, by decide,
    (C23_identifiers_round_trip demoRuntime (fun c => c) demoEntries _
      demoRuntime_lawful rfl).1,
    (C23_identifiers_round_trip demoRuntime (fun c => c) demoEntries _
      demoRuntime_lawful rfl).2.2.2.1⟩

/-! ## Lemmas on names, slugs and the uniqueness of the sorted order -/

theorem slugify_default_names (tbl : Char → Char) :
    slugify tbl "Uncategorized".toList = "uncategorized".toList ∧
    slugify tbl "General".toList = "general".toList := ⟨rfl, rfl⟩

theorem parseResourceFile_some_group_slugs (tbl : Char → Char) (fc : FileContent)
    (r : Resource) (h : parseResourceFile tbl fc = .ok (some r)) :
    r.CategorySlug = slugify tbl r.CategoryName ∧
    r.SubcategorySlug = slugify tbl r.SubcategoryName := by
  cases fc with
  | unreadable => exact Except.noConfusion h
  | text lines scanErr =>
    cases scanErr with
    | true => exact Except.noConfusion h
    | false =>
      rw [parseResourceFile_text] at h
      injection h with h
      obtain ⟨_, _, _, _, _, h6, h7, h8, h9, _⟩ := buildResource_some tbl _ r h
      rw [h6, h7]
      exact ⟨h8, h9⟩

theorem withDefaults_group_slugs (tbl : Char → Char) (r : Resource)
    (h : r.CategorySlug = slugify tbl r.CategoryName ∧
      r.SubcategorySlug = slugify tbl r.SubcategoryName) :
    (withDefaults r).CategorySlug = slugify tbl (withDefaults r).CategoryName ∧
    (withDefaults r).SubcategorySlug = slugify tbl (withDefaults r).SubcategoryName := by
  obtain ⟨hu, hg⟩ := slugify_default_names tbl
  unfold withDefaults
  by_cases h1 : r.CategorySlug = [] <;> by_cases h2 : r.SubcategorySlug = []
  · rw [if_pos h1, if_pos h2]
    exact ⟨hu.symm, hg.symm⟩
  · rw [if_pos h1, if_neg h2]
    exact ⟨hu.symm, h.2⟩
  · rw [if_neg h1, if_pos h2]
    exact ⟨h.1, hg.symm⟩
  · rw [if_neg h1, if_neg h2]
    exact h

theorem parsedResources_group_slugs (tbl : Char → Char) (entries : List WalkEntry)
    (r : Resource) (h : r ∈ (parsedResources tbl entries).map withDefaults) :
    r.CategorySlug = slugify tbl r.CategoryName ∧
    r.SubcategorySlug = slugify tbl r.SubcategoryName := by
  obtain ⟨r0, hr0, rfl⟩ := List.mem_map.mp h
  unfold parsedResources at hr0
  obtain ⟨e, _, he⟩ := List.mem_filterMap.mp hr0
  exact withDefaults_group_slugs tbl r0
    (parseResourceFile_some_group_slugs tbl e.content r0 (parsedOf_some tbl e r0 he))

/-- Two strings neither of which is smaller than the other are equal. -/
theorem strLt_total (x y : Str) (h1 : strLt x y = false) (h2 : strLt y x = false) : x = y := by
  induction x generalizing y with
  | nil =>
    cases y with
    | nil => rfl
    | cons b bs => exact Bool.noConfusion h1
  | cons a as ih =>
    cases y with
    | nil => exact Bool.noConfusion h2
    | cons b bs =>
      have n1 : ¬ (a.toNat < b.toNat ∨ (a = b ∧ strLt as bs = true)) := by
        rw [← strLt_cons, h1]; exact Bool.false_ne_true
      have n2 : ¬ (b.toNat < a.toNat ∨ (b = a ∧ strLt bs as = true)) := by
        rw [← strLt_cons, h2]; exact Bool.false_ne_true
      have hab : a = b := char_eq_of_toNat a b (by
        have := fun h => n1 (Or.inl h)
        have := fun h => n2 (Or.inl h)
        omega)
      subst hab
      have t1 : strLt as bs = false := by
        rw [Bool.eq_false_iff]; exact fun h => n1 (Or.inr ⟨rfl, h⟩)
      have t2 : strLt bs as = false := by
        rw [Bool.eq_false_iff]; exact fun h => n2 (Or.inr ⟨rfl, h⟩)
      rw [ih bs t1 t2]

/-- A sequence in ascending order of a key that takes distinct values is in
strictly ascending order. -/
theorem ascending_strict {α : Type} (key : α → Str) (l : List α)
    (hs : AscendingBy key l) (hn : (l.map key).Nodup) :
    l.Pairwise (fun a b => strLt (key a) (key b) = true) := by
  have hne : l.Pairwise (fun a b => key a ≠ key b) := by
    have := hn
    unfold List.Nodup at this
    rwa [List.pairwise_map] at this
  refine (List.Pairwise.and hs hne).imp ?_
  intro a b hab
  cases hlt : strLt (key a) (key b) with
  | true => rfl
  | false => exact absurd (strLt_total _ _ hlt hab.1) hab.2

/-- Distinct keys leave one ascending arrangement only. -/
theorem ascending_perm_unique {α : Type} (key : α → Str) (l l' : List α)
    (hp : l.Perm l') (hs : AscendingBy key l) (hs' : AscendingBy key l')
    (hn : (l.map key).Nodup) : l = l' := by
  have hn' : (l'.map key).Nodup := ((hp.map key).nodup_iff).mp hn
  haveI : IsAntisymm α (fun a b => strLt (key a) (key b) = true) := ⟨by
    intro a b h1 h2
    rw [strLt_asymm _ _ h1] at h2
    exact Bool.noConfusion h2⟩
  exact List.eq_of_perm_of_sorted hp (ascending_strict key l hs hn)
    (ascending_strict key l' hs' hn')

/-- Values whose images under a function of a key are distinct have distinct
keys. -/
theorem nodup_key_of_nodup_image {α : Type} (key slug : α → Str) (F : Str → Str)
    (l : List α) (h : ∀ x ∈ l, slug x = F (key x)) (hn : (l.map slug).Nodup) :
    (l.map key).Nodup := by
  have heq : l.map slug = (l.map key).map F := by
    rw [List.map_map]
    exact List.map_congr_left h
  rw [heq] at hn
  exact List.Nodup.of_map F hn

theorem reversedRuntime_lawful : reversedRuntime.Lawful :=
  ⟨fun _ _ m => List.reverse_perm m, demoRuntime_lawful.2⟩

/-! ## Lemmas on the names of the assembled catalog -/

/-- The slug of every category and subcategory of the assembled catalog is the slug
of its name, when this holds of the resources added. -/
theorem catalog_name_slugs (rt : Runtime) (hrt : rt.Lawful) (tbl : Char → Char)
    (st : BuildState) (P : List Resource) (D : List (Str × Str)) (hb : BuildInv st)
    (hg : GroupInv st P D)
    (hP : ∀ r ∈ P, r.CategorySlug = slugify tbl r.CategoryName ∧
      r.SubcategorySlug = slugify tbl r.SubcategoryName) :
    ∀ c ∈ (assemble rt st).Categories,
      c.Slug = slugify tbl c.Name ∧ ∀ s ∈ c.Subcategories, s.Slug = slugify tbl s.Name := by
  intro c hc
  obtain ⟨⟨r0, hf, hname⟩, _, hsub, _⟩ := catalog_groups rt hrt st P D hb hg c hc
  refine ⟨?_, ?_⟩
  · have hin : r0.CategorySlug = c.Slug := by
      simpa [inCategory] using List.find?_some hf
    rw [hname, ← hin]
    exact (hP r0 (List.mem_of_find?_eq_some hf)).1
  · intro s hs
    obtain ⟨_, r1, hf1, hname1⟩ := hsub s hs
    have hin : r1.CategorySlug = c.Slug ∧ r1.SubcategorySlug = s.Slug := by
      simpa [inSubcategory] using List.find?_some hf1
    rw [hname1, ← hin.2]
    exact (hP r1 (List.mem_of_find?_eq_some hf1)).2

theorem assembleCategory_mem (rt : Runtime) (hrt : rt.Lawful) (st : BuildState)
    (e : Str × Category) (he : e ∈ st.categoryMap) :
    assembleCategory rt st e.1 e.2 ∈ (assemble rt st).Categories := by
  rw [assemble_categories]
  refine ((hrt.2 Category (fun c => c.Name) _).1.mem_iff).mpr ?_
  exact List.mem_map.mpr ⟨e, ((hrt.1 Category [] st.categoryMap).mem_iff).mpr he, rfl⟩

/-- The names of the categories of the assembled catalog are distinct, and so are
the names of the subcategories of every category. -/
theorem catalog_names_nodup (rt : Runtime) (hrt : rt.Lawful) (tbl : Char → Char)
    (st : BuildState) (P : List Resource) (D : List (Str × Str)) (hb : BuildInv st)
    (hg : GroupInv st P D)
    (hP : ∀ r ∈ P, r.CategorySlug = slugify tbl r.CategoryName ∧
      r.SubcategorySlug = slugify tbl r.SubcategoryName) :
    ((assemble rt st).Categories.map (fun c => c.Name)).Nodup ∧
    ∀ c ∈ (assemble rt st).Categories, (c.Subcategories.map (fun s => s.Name)).Nodup := by
  have hslug := catalog_name_slugs rt hrt tbl st P D hb hg hP
  refine ⟨?_, ?_⟩
  · refine nodup_key_of_nodup_image (fun (c : Category) => c.Name) (fun c => c.Slug)
      (slugify tbl) _ (fun c hc => (hslug c hc).1) ?_
    rw [(assemble_category_slugs rt hrt st hb).nodup_iff, hb.keys_eq]
    exact hb.keys_nodup
  · intro c hc
    refine nodup_key_of_nodup_image (fun (s : Subcategory) => s.Name) (fun s => s.Slug)
      (slugify tbl) _ (fun s hs => (hslug c hc).2 s hs) ?_
    obtain ⟨e, he, rfl⟩ := mem_assemble_categories rt hrt st c hc
    obtain ⟨inner, hget⟩ := mapGet_isSome_of_keys _ _ e hb.keys_eq he
    rw [(assembleCategory_subcategory_slugs rt hrt st hb e.1 e.2 inner hget).nodup_iff]
    exact hb.inner_nodup _ (mapGet_some_mem _ _ _ hget)

theorem category_ext (a b : Category) (h1 : a.Name = b.Name) (h2 : a.Slug = b.Slug)
    (h3 : a.Description = b.Description) (h4 : a.Subcategories = b.Subcategories) : a = b := by
  cases a
  cases b
  simp_all

theorem assembleSubcategory_congr (rt rt' : Runtime)
    (hsort : ∀ (less : Resource → Resource → Bool) (l : List Resource),
      rt'.sortSlice less l = rt.sortSlice less l) (s : Subcategory) :
    assembleSubcategory rt' s = assembleSubcategory rt s := by
  unfold assembleSubcategory
  rw [hsort]

/-- The assembled catalog does not depend on the order in which `range` visits the
maps. -/
theorem assemble_range_independent (rt rt' : Runtime) (hrt : rt.Lawful) (hrt' : rt'.Lawful)
    (hsort : ∀ (less : Resource → Resource → Bool) (l : List Resource),
      rt'.sortSlice less l = rt.sortSlice less l)
    (tbl : Char → Char) (st : BuildState) (P : List Resource) (D : List (Str × Str))
    (hb : BuildInv st) (hg : GroupInv st P D)
    (hP : ∀ r ∈ P, r.CategorySlug = slugify tbl r.CategoryName ∧
      r.SubcategorySlug = slugify tbl r.SubcategoryName) :
    assemble rt' st = assemble rt st := by
  have hnames := catalog_names_nodup rt hrt tbl st P D hb hg hP
  have hcat : ∀ e ∈ st.categoryMap,
      assembleCategory rt' st e.1 e.2 = assembleCategory rt st e.1 e.2 := by
    intro e he
    obtain ⟨n1, g1, f1⟩ := assembleCategory_fields rt st e.1 e.2
    obtain ⟨n2, g2, f2⟩ := assembleCategory_fields rt' st e.1 e.2
    refine category_ext _ _ (by rw [n1, n2]) (by rw [g1, g2])
      (by rw [assembleCategory_description, assembleCategory_description]) ?_
    have hmap : ∀ m : GoMap Subcategory,
        m.map (fun se => assembleSubcategory rt' se.2) =
          m.map (fun se => assembleSubcategory rt se.2) :=
      fun m => List.map_congr_left (fun se _ => assembleSubcategory_congr rt rt' hsort se.2)
    have p1 := (hrt.2 Subcategory (fun s => s.Name)
      ((rt.mapRange e.1 ((mapGet st.subcategoryMap e.1).getD [])).map
        (fun se => assembleSubcategory rt se.2)))
    have p2 := (hrt'.2 Subcategory (fun s => s.Name)
      ((rt'.mapRange e.1 ((mapGet st.subcategoryMap e.1).getD [])).map
        (fun se => assembleSubcategory rt' se.2)))
    rw [← f1] at p1
    rw [← f2] at p2
    refine ascending_perm_unique (fun (s : Subcategory) => s.Name) _ _ ?_ p2.2 p1.2 ?_
    · refine p2.1.trans (List.Perm.trans ?_ p1.1.symm)
      rw [hmap]
      exact ((hrt'.1 Subcategory e.1 _).trans (hrt.1 Subcategory e.1 _).symm).map _
    · have hn := hnames.2 _ (assembleCategory_mem rt hrt st e he)
      have hperm : (assembleCategory rt' st e.1 e.2).Subcategories.Perm
          (assembleCategory rt st e.1 e.2).Subcategories := by
        refine p2.1.trans (List.Perm.trans ?_ p1.1.symm)
        rw [hmap]
        exact ((hrt'.1 Subcategory e.1 _).trans (hrt.1 Subcategory e.1 _).symm).map _
      exact ((hperm.map (fun s => s.Name)).nodup_iff).mpr hn
  have q1 := hrt.2 Category (fun c => c.Name)
    ((rt.mapRange [] st.categoryMap).map (fun e => assembleCategory rt st e.1 e.2))
  have q2 := hrt'.2 Category (fun c => c.Name)
    ((rt'.mapRange [] st.categoryMap).map (fun e => assembleCategory rt' st e.1 e.2))
  rw [← assemble_categories] at q1 q2
  have hperm : (assemble rt' st).Categories.Perm (assemble rt st).Categories := by
    refine q2.1.trans (List.Perm.trans ?_ q1.1.symm)
    refine ((hrt'.1 Category [] st.categoryMap).map _).trans ?_
    refine List.Perm.trans (List.Perm.of_eq (List.map_congr_left hcat)) ?_
    exact ((hrt.1 Category [] st.categoryMap).map _).symm
  have heq : (assemble rt' st).Categories = (assemble rt st).Categories :=
    ascending_perm_unique (fun (c : Category) => c.Name) _ _ hperm q2.2 q1.2
      (((hperm.map (fun c => c.Name)).nodup_iff).mpr hnames.1)
  have e1 : assemble rt st =
      { Categories := (assemble rt st).Categories, TotalResources := st.totalResources } := rfl
  have e2 : assemble rt' st =
      { Categories := (assemble rt' st).Categories, TotalResources := st.totalResources } := rfl
  rw [e1, e2, heq]

/-! ## Claim on names and slugs of categories and subcategories -/

/-- C24: in a catalog returned by `ParseResourcesDir`, the `Slug` of every category
is `Slugify` of its `Name`, and the `Slug` of every subcategory is `Slugify` of its
`Name`; this includes the defaults, as `Slugify("Uncategorized")` is `uncategorized`
and `Slugify("General")` is `general`. So no two categories share a `Name`, no two
subcategories of one category share a `Name`, the categories and the subcategories
of every category are in strictly ascending order of `Name`, and the catalog is the
same whatever order `range` visits the builder's maps in. -/
theorem C24_slug_is_slugify_of_name (rt : Runtime) (tbl : Char → Char)
    (entries : List WalkEntry) (data : SiteData) (hrt : rt.Lawful)
    (h : ParseResourcesDir rt tbl entries = .ok data) :
    (∀ c ∈ data.Categories,
      c.Slug = Slugify tbl c.Name ∧ ∀ s ∈ c.Subcategories, s.Slug = Slugify tbl s.Name) ∧
    (Slugify tbl "Uncategorized".toList = "uncategorized".toList ∧
      Slugify tbl "General".toList = "general".toList) ∧
    ((data.Categories.map (fun c => c.Name)).Nodup ∧
      ∀ c ∈ data.Categories, (c.Subcategories.map (fun s => s.Name)).Nodup) ∧
    (data.Categories.Pairwise (fun a b => strLt a.Name b.Name = true) ∧
      ∀ c ∈ data.Categories,
        c.Subcategories.Pairwise (fun a b => strLt a.Name b.Name = true)) ∧
    (∀ rt' : Runtime, rt'.Lawful →
      (∀ (less : Resource → Resource → Bool) (l : List Resource),
        rt'.sortSlice less l = rt.sortSlice less l) →
      ParseResourcesDir rt' tbl entries = .ok data) := by
  obtain ⟨st, hw, rfl⟩ := parseResourcesDir_ok rt tbl entries data h
  have hb := (walk_ok tbl entries BuildState.init st hw buildInv_init).1
  have hg : GroupInv st ((parsedResources tbl entries).map withDefaults)
      (descriptionDocs entries) := by
    simpa using walk_group tbl entries BuildState.init st [] [] hw buildInv_init groupInv_init
  have hP := parsedResources_group_slugs tbl entries
  have hslug := catalog_name_slugs rt hrt tbl st _ _ hb hg hP
  have hnames := catalog_names_nodup rt hrt tbl st _ _ hb hg hP
  refine ⟨hslug, slugify_default_names tbl, hnames, ⟨?_, ?_⟩, ?_⟩
  · refine ascending_strict (fun (c : Category) => c.Name) _ ?_ hnames.1
    rw [assemble_categories]
    exact (hrt.2 Category (fun c => c.Name) _).2
  · intro c hc
    refine ascending_strict (fun (s : Subcategory) => s.Name) _ ?_ (hnames.2 c hc)
    obtain ⟨e, he, rfl⟩ := mem_assemble_categories rt hrt st c hc
    rw [(assembleCategory_fields rt st e.1 e.2).2.2]
    exact (hrt.2 Subcategory (fun s => s.Name) _).2
  · intro rt' hrt' hsort
    unfold ParseResourcesDir
    rw [hw]
    dsimp only
    rw [assemble_range_independent rt rt' hrt hrt' hsort tbl st _ _ hb hg hP]

/-- Witness for C24: the catalog built from the sample content tree, with the maps
visited in insertion order, is the catalog built with the maps visited in the
reverse order; its categories are named "Tools" and "Uncategorized". -/
theorem C24_slug_is_slugify_of_name_witness :
    demoRuntime.Lawful ∧ reversedRuntime.Lawful ∧
    ∃ data, ParseResourcesDir demoRuntime (fun c => c) demoEntries = .ok data ∧
      data.Categories.map (fun c => (c.Name, c.Slug)) =
        [("Tools".toList, "tools".toList), ("Uncategorized".toList, "uncategorized".toList)] ∧
      (∀ c ∈ data.Categories,
        c.Slug = Slugify (fun c => c) c.Name ∧
          ∀ s ∈ c.Subcategories, s.Slug = Slugify (fun c => c) s.Name) ∧
      ParseResourcesDir reversedRuntime (fun c => c) demoEntries = .ok data :=
  ⟨demoRuntime_lawful, reversedRuntime_lawful, _, rfl, by decide,
    (C24_slug_is_slugify_of_name demoRuntime (fun c => c) demoEntries _
      demoRuntime_lawful rfl).1,
    (C24_slug_is_slugify_of_name demoRuntime (fun c => c) demoEntries _
      demoRuntime_lawful rfl).2.2.2.2 reversedRuntime reversedRuntime_lawful
      (fun _ _ => rfl)⟩

end AwesomeTarkov
